import Mathlib

/-!
# A distributed open-addressing hash table (`hash_map.hpp`)

Shallow embedding of `struct HashMap` of `src/hash_map.hpp`, executed by one
process at a time (every remote operation of the source blocks until it is
complete, so one call is a sequence of steps on the shared memory).

* The shared memory is a map from `(rank, offset)` to a cell; partition `rank`
  exists for `rank < nprocs` and has `my_size` cells.
* `size_t` / `uint64_t` values are naturals reduced `% 2 ^ 64` where the source
  can wrap; `int` values are integers obtained with `to_int`; an `int32_t` flag
  cell holds its bit pattern, a natural reduced `% 2 ^ 32`.
* Undefined behaviour of the source (division by zero, indexing outside a
  vector or outside an allocated array) is the result `Except.error`.
* `request_slot` touches the shared memory only through one atomic
  fetch-and-add, so `request_slot` calls issued concurrently on a slot are the
  sequence in which these take effect (`request_results`).
-/

namespace KmerHash

/-- Ways in which a call can leave the defined behaviour of the source. -/
inductive Fault where
  | div_by_zero
  | out_of_bounds
  | out_of_fuel
  deriving DecidableEq, Repr

/-- The record type `kmer_pair` of `kmer_t.hpp` (not part of the sources at
hand): a packed key `kmer` and fixed-size metadata `fb_ext`. Both component
types are parameters. -/
structure kmer_pair (K E : Type) where
  kmer : K
  fb_ext : E
  deriving DecidableEq, Repr

/-- The fields of `struct HashMap`. `data rank offset` is the record cell
`data[rank] + offset`, `used rank offset` the flag cell `used[rank] + offset`. -/
structure HashMap (K E : Type) where
  data : Nat → Nat → kmer_pair K E
  used : Nat → Nat → Nat
  my_size : Nat
  total_size : Nat
  nprocs : Nat

/-- Conversion of an unsigned 64-bit value to `int` (32 bits, two's
complement), as in `int node_num = slot / ...`; also the `int32_t` value of
the bit pattern of a flag cell. -/
def to_int (x : Nat) : Int := (((x + 2 ^ 31) % 2 ^ 32 : Nat) : Int) - 2 ^ 31

/-- One cell of a two-dimensional memory replaced. -/
def store {α : Type} (m : Nat → Nat → α) (rank off : Nat) (v : α) : Nat → Nat → α :=
  fun r o => if r = rank ∧ o = off then v else m r o

/-- `HashMap::HashMap(size)` run by a group of `nprocs` processes
(`upcxx::rank_n()`, at least 1). `my_size = (size + nprocs - 1) / nprocs` is
computed in `size_t`: the sum and the subtraction wrap at `2 ^ 64`. The flag
cells start at zero; the record cells hold whatever `cells` says (they are not
initialised by the source). -/
def HashMap.construct {K E : Type} (size nprocs : Nat) (cells : Nat → Nat → kmer_pair K E) :
    HashMap K E :=
  { data := cells
    used := fun _ _ => 0
    my_size := (size + nprocs + (2 ^ 64 - 1)) % 2 ^ 64 / nprocs
    total_size := size
    nprocs := nprocs }

/-- `HashMap::size()`. -/
def HashMap.size {K E : Type} (t : HashMap K E) : Nat := t.my_size

/-- The `int node_num` of `getSlotAddr` / `getUsedSlotAddr`. -/
def node_num (total_size nprocs slot : Nat) : Int := to_int (slot / (total_size / nprocs))

/-- The `int offset` of `getSlotAddr` / `getUsedSlotAddr`. -/
def offset (total_size nprocs slot : Nat) : Int := to_int (slot % (total_size / nprocs))

/-- `HashMap::getSlotAddr(slot)`: the pointer `data[node_num] + offset`, as the
pair `(rank, offset)`. Dividing by `total_size / nprocs = 0`, indexing the
vector `data` (of `nprocs` entries) outside its range and leaving the array of
`my_size` cells are faults. -/
def HashMap.getSlotAddr {K E : Type} (t : HashMap K E) (slot : Nat) : Except Fault (Nat × Nat) :=
  if t.total_size / t.nprocs = 0 then .error .div_by_zero
  else
    let n := node_num t.total_size t.nprocs slot
    let o := offset t.total_size t.nprocs slot
    if 0 ≤ n ∧ n < (t.nprocs : Int) ∧ 0 ≤ o ∧ o < (t.my_size : Int) then .ok (n.toNat, o.toNat)
    else .error .out_of_bounds

/-- `HashMap::getUsedSlotAddr(slot)`: the pointer `used[node_num] + offset`. -/
def HashMap.getUsedSlotAddr {K E : Type} (t : HashMap K E) (slot : Nat) :
    Except Fault (Nat × Nat) :=
  if t.total_size / t.nprocs = 0 then .error .div_by_zero
  else
    let n := node_num t.total_size t.nprocs slot
    let o := offset t.total_size t.nprocs slot
    if 0 ≤ n ∧ n < (t.nprocs : Int) ∧ 0 ≤ o ∧ o < (t.my_size : Int) then .ok (n.toNat, o.toNat)
    else .error .out_of_bounds

/-- `HashMap::slot_used(slot)`: remote read of the flag, `!= 0`. -/
def HashMap.slot_used {K E : Type} (t : HashMap K E) (slot : Nat) : Except Fault Bool :=
  match t.getUsedSlotAddr slot with
  | .error e => .error e
  | .ok (r, o) => .ok (t.used r o % 2 ^ 32 != 0)

/-- `HashMap::write_slot(slot, kmer)`: remote write of the record cell. -/
def HashMap.write_slot {K E : Type} (t : HashMap K E) (slot : Nat) (kmer : kmer_pair K E) :
    Except Fault (HashMap K E) :=
  match t.getSlotAddr slot with
  | .error e => .error e
  | .ok (r, o) => .ok { t with data := store t.data r o kmer }

/-- `HashMap::read_slot(slot)`: remote read of the record cell. -/
def HashMap.read_slot {K E : Type} (t : HashMap K E) (slot : Nat) :
    Except Fault (kmer_pair K E) :=
  match t.getSlotAddr slot with
  | .error e => .error e
  | .ok (r, o) => .ok (t.data r o)

/-- `HashMap::request_slot(slot, ad)`: atomic fetch-and-add of 1 on the 32-bit
flag; the result is whether the value fetched was zero. -/
def HashMap.request_slot {K E : Type} (t : HashMap K E) (slot : Nat) :
    Except Fault (Bool × HashMap K E) :=
  match t.getUsedSlotAddr slot with
  | .error e => .error e
  | .ok (r, o) =>
    .ok (t.used r o % 2 ^ 32 == 0, { t with used := store t.used r o ((t.used r o + 1) % 2 ^ 32) })

/-- The `do ... while (!success && probe < total_size)` loop of
`HashMap::insert`, entered with the current value of `probe`.
`slot = (hash + probe++) % total_size` is computed in `uint64_t`. The last
argument bounds the number of iterations. -/
def HashMap.insert_loop {K E : Type} (hash : Nat) (kmer : kmer_pair K E) :
    HashMap K E → Nat → Nat → Except Fault (Bool × HashMap K E)
  | _, _, 0 => .error .out_of_fuel
  | t, probe, fuel + 1 =>
    if t.total_size = 0 then .error .div_by_zero
    else
      let slot := (hash + probe) % 2 ^ 64 % t.total_size
      match t.request_slot slot with
      | .error e => .error e
      | .ok (success, t1) =>
        if success then
          match t1.write_slot slot kmer with
          | .error e => .error e
          | .ok t2 => .ok (true, t2)
        else if probe + 1 < t.total_size then HashMap.insert_loop hash kmer t1 (probe + 1) fuel
        else .ok (false, t1)

/-- `HashMap::insert(kmer, ad)`. `hash` stands for `pkmer_t::hash()` of
`kmer_t.hpp`, a 64-bit value. The loop body runs at least once and at most
`total_size` times. -/
def HashMap.insert {K E : Type} (hash : K → Nat) (t : HashMap K E) (kmer : kmer_pair K E) :
    Except Fault (Bool × HashMap K E) :=
  HashMap.insert_loop (hash kmer.kmer % 2 ^ 64) kmer t 0 (t.total_size + 1)

/-- The `do ... while` loop of `HashMap::find`; `val_kmer` is the output
parameter, overwritten by every record read. -/
def HashMap.find_loop {K E : Type} [DecidableEq K] (hash : Nat) (key_kmer : K) (t : HashMap K E) :
    kmer_pair K E → Nat → Nat → Except Fault (Bool × kmer_pair K E)
  | _, _, 0 => .error .out_of_fuel
  | val_kmer, probe, fuel + 1 =>
    if t.total_size = 0 then .error .div_by_zero
    else
      let slot := (hash + probe) % 2 ^ 64 % t.total_size
      match t.slot_used slot with
      | .error e => .error e
      | .ok true =>
        match t.read_slot slot with
        | .error e => .error e
        | .ok v =>
          if v.kmer = key_kmer then .ok (true, v)
          else if probe + 1 < t.total_size then
            HashMap.find_loop hash key_kmer t v (probe + 1) fuel
          else .ok (false, v)
      | .ok false =>
        if probe + 1 < t.total_size then
          HashMap.find_loop hash key_kmer t val_kmer (probe + 1) fuel
        else .ok (false, val_kmer)

/-- `HashMap::find(key_kmer, val_kmer)`: the result and the final content of
the output parameter `val_kmer`. -/
def HashMap.find {K E : Type} [DecidableEq K] (hash : K → Nat) (t : HashMap K E) (key_kmer : K)
    (val_kmer : kmer_pair K E) : Except Fault (Bool × kmer_pair K E) :=
  HashMap.find_loop (hash key_kmer % 2 ^ 64) key_kmer t val_kmer 0 (t.total_size + 1)

/-- A sequence of `insert` calls executed one after another. The result is the
final table and the records whose call returned `true`, in the order of the calls. -/
def HashMap.insert_all {K E : Type} (hash : K → Nat) :
    HashMap K E → List (kmer_pair K E) → Except Fault (HashMap K E × List (kmer_pair K E))
  | t, [] => .ok (t, [])
  | t, r :: rs =>
    match HashMap.insert hash t r with
    | .error e => .error e
    | .ok (b, t1) =>
      match HashMap.insert_all hash t1 rs with
      | .error e => .error e
      | .ok (t2, done) => .ok (t2, if b then r :: done else done)

/-! ## Definitions used to state and prove the properties -/

variable {K E : Type}

/-- The geometry under which every slot of `[0, total_size)` has a cell: the
process count divides `total_size`, and process count and slots per process
fit the `int` variables of `getSlotAddr`. -/
structure HashMap.Addressable (t : HashMap K E) : Prop where
  nprocs_pos : 0 < t.nprocs
  nprocs_int : t.nprocs ≤ 2 ^ 31
  size_pos : 0 < t.total_size
  dvd : t.nprocs ∣ t.total_size
  per_int : t.total_size / t.nprocs ≤ 2 ^ 31
  my_size_ge : t.total_size / t.nprocs ≤ t.my_size

/-- The slot visited at step `probe`: `(hash + probe) % total_size` in `uint64_t`. -/
def probe_slot (hash total_size probe : Nat) : Nat := (hash + probe) % 2 ^ 64 % total_size

/-- The flag of slot `s`, as `slot_used` and `request_slot` fetch it. -/
def HashMap.flagAt (t : HashMap K E) (s : Nat) : Nat :=
  t.used (s / (t.total_size / t.nprocs)) (s % (t.total_size / t.nprocs)) % 2 ^ 32

/-- The record cell of slot `s`, as `read_slot` fetches it. -/
def HashMap.recAt (t : HashMap K E) (s : Nat) : kmer_pair K E :=
  t.data (s / (t.total_size / t.nprocs)) (s % (t.total_size / t.nprocs))

/-- The table after the fetch-and-add of `request_slot` on slot `s`. -/
def HashMap.bump (t : HashMap K E) (s : Nat) : HashMap K E :=
  let r := s / (t.total_size / t.nprocs)
  let o := s % (t.total_size / t.nprocs)
  { t with used := store t.used r o ((t.used r o + 1) % 2 ^ 32) }

/-- The table after `write_slot` on slot `s`. -/
def HashMap.put (t : HashMap K E) (s : Nat) (kmer : kmer_pair K E) : HashMap K E :=
  let r := s / (t.total_size / t.nprocs)
  let o := s % (t.total_size / t.nprocs)
  { t with data := store t.data r o kmer }

/-- Number of the steps `probe, ..., probe + n - 1` that visit slot `s`. -/
def visits (hash total_size s : Nat) : Nat → Nat → Nat
  | _, 0 => 0
  | probe, n + 1 =>
    (if probe_slot hash total_size probe = s then 1 else 0) + visits hash total_size s (probe + 1) n

/-- Every claimed slot holds one of the records of `l`. -/
def HashMap.Holds (t : HashMap K E) (l : List (kmer_pair K E)) : Prop :=
  ∀ s, s < t.total_size → t.flagAt s ≠ 0 → t.recAt s ∈ l

/-- The content of the record cells of the example tables before they are
written. -/
def blank : Nat → Nat → kmer_pair Nat Nat := fun _ _ => ⟨0, 0⟩

/-- The table of 4 slots on one process after `insert` of key 2 (metadata 0). -/
def table_one : HashMap Nat Nat :=
  { data := store blank 0 2 ⟨2, 0⟩
    used := store (fun _ _ => 0) 0 2 1
    my_size := 4
    total_size := 4
    nprocs := 1 }

/-- The table `table_one` after `insert` of key 2 with metadata 1. -/
def table_two : HashMap Nat Nat :=
  { data := store (store blank 0 2 ⟨2, 0⟩) 0 3 ⟨2, 1⟩
    used := store (store (store (fun _ _ => 0) 0 2 1) 0 2 2) 0 3 1
    my_size := 4
    total_size := 4
    nprocs := 1 }

/-- The table `table_two` after a second `insert` of key 2 with metadata 1. -/
def table_three : HashMap Nat Nat :=
  { data := store (store (store blank 0 2 ⟨2, 0⟩) 0 3 ⟨2, 1⟩) 0 0 ⟨2, 1⟩
    used := store (store (store (store (store (store (fun _ _ => 0) 0 2 1) 0 2 2) 0 3 1) 0 2 3) 0 3 2) 0 0 1
    my_size := 4
    total_size := 4
    nprocs := 1 }

/-- A number of `request_slot` calls on the same slot, one after another. -/
def HashMap.request_many (t : HashMap K E) (slot : Nat) : Nat → Except Fault (HashMap K E)
  | 0 => .ok t
  | n + 1 =>
    match t.request_slot slot with
    | .error e => .error e
    | .ok (_, t1) => HashMap.request_many t1 slot n

/-- The probe sequence as the specification words it: `start = hash mod
total_size`, then `slot = (start + probe) mod total_size`. -/
def probe_slot_spec (hash total_size probe : Nat) : Nat :=
  (hash % total_size + probe) % total_size

/-- The loop of `HashMap::insert` again, returning next to its result the
slots passed to `request_slot`, in the order of the calls. -/
def HashMap.insert_loop_log (hash : Nat) (kmer : kmer_pair K E) :
    HashMap K E → Nat → Nat → Except Fault (Bool × HashMap K E) × List Nat
  | _, _, 0 => (.error .out_of_fuel, [])
  | t, probe, fuel + 1 =>
    if t.total_size = 0 then (.error .div_by_zero, [])
    else
      let slot := (hash + probe) % 2 ^ 64 % t.total_size
      match t.request_slot slot with
      | .error e => (.error e, [slot])
      | .ok (success, t1) =>
        if success then
          match t1.write_slot slot kmer with
          | .error e => (.error e, [slot])
          | .ok t2 => (.ok (true, t2), [slot])
        else if probe + 1 < t.total_size then
          ((HashMap.insert_loop_log hash kmer t1 (probe + 1) fuel).1,
            slot :: (HashMap.insert_loop_log hash kmer t1 (probe + 1) fuel).2)
        else (.ok (false, t1), [slot])

/-- `HashMap::insert` with the slots passed to `request_slot`. -/
def HashMap.insert_log (hash : K → Nat) (t : HashMap K E) (kmer : kmer_pair K E) :
    Except Fault (Bool × HashMap K E) × List Nat :=
  HashMap.insert_loop_log (hash kmer.kmer % 2 ^ 64) kmer t 0 (t.total_size + 1)

/-- The loop of `HashMap::find` again, returning next to its result the slots
passed to `slot_used`, in the order of the calls. -/
def HashMap.find_loop_log [DecidableEq K] (hash : Nat) (key_kmer : K) (t : HashMap K E) :
    kmer_pair K E → Nat → Nat → Except Fault (Bool × kmer_pair K E) × List Nat
  | _, _, 0 => (.error .out_of_fuel, [])
  | val_kmer, probe, fuel + 1 =>
    if t.total_size = 0 then (.error .div_by_zero, [])
    else
      let slot := (hash + probe) % 2 ^ 64 % t.total_size
      match t.slot_used slot with
      | .error e => (.error e, [slot])
      | .ok true =>
        match t.read_slot slot with
        | .error e => (.error e, [slot])
        | .ok v =>
          if v.kmer = key_kmer then (.ok (true, v), [slot])
          else if probe + 1 < t.total_size then
            ((HashMap.find_loop_log hash key_kmer t v (probe + 1) fuel).1,
              slot :: (HashMap.find_loop_log hash key_kmer t v (probe + 1) fuel).2)
          else (.ok (false, v), [slot])
      | .ok false =>
        if probe + 1 < t.total_size then
          ((HashMap.find_loop_log hash key_kmer t val_kmer (probe + 1) fuel).1,
            slot :: (HashMap.find_loop_log hash key_kmer t val_kmer (probe + 1) fuel).2)
        else (.ok (false, val_kmer), [slot])

/-- `HashMap::find` with the slots passed to `slot_used`. -/
def HashMap.find_log [DecidableEq K] (hash : K → Nat) (t : HashMap K E) (key_kmer : K)
    (val_kmer : kmer_pair K E) : Except Fault (Bool × kmer_pair K E) × List Nat :=
  HashMap.find_loop_log (hash key_kmer % 2 ^ 64) key_kmer t val_kmer 0 (t.total_size + 1)

/-- `HashMap::slot_used` as a step on the shared memory: the remote read
`upcxx::rget` returns the flag and leaves the memory as it is. -/
def HashMap.slot_used_st (t : HashMap K E) (slot : Nat) : Except Fault (Bool × HashMap K E) :=
  match t.getUsedSlotAddr slot with
  | .error e => .error e
  | .ok (r, o) => .ok (t.used r o % 2 ^ 32 != 0, t)

/-- `HashMap::read_slot` as a step on the shared memory: the remote read
`upcxx::rget` returns the record and leaves the memory as it is. -/
def HashMap.read_slot_st (t : HashMap K E) (slot : Nat) :
    Except Fault (kmer_pair K E × HashMap K E) :=
  match t.getSlotAddr slot with
  | .error e => .error e
  | .ok (r, o) => .ok (t.data r o, t)

/-- The loop of `HashMap::find` as a sequence of steps on the shared memory:
every `slot_used` and `read_slot` hands on the table it leaves. -/
def HashMap.find_loop_st [DecidableEq K] (hash : Nat) (key_kmer : K) :
    HashMap K E → kmer_pair K E → Nat → Nat → Except Fault (Bool × kmer_pair K E × HashMap K E)
  | _, _, _, 0 => .error .out_of_fuel
  | t, val_kmer, probe, fuel + 1 =>
    if t.total_size = 0 then .error .div_by_zero
    else
      let slot := (hash + probe) % 2 ^ 64 % t.total_size
      match t.slot_used_st slot with
      | .error e => .error e
      | .ok (true, t1) =>
        match t1.read_slot_st slot with
        | .error e => .error e
        | .ok (v, t2) =>
          if v.kmer = key_kmer then .ok (true, v, t2)
          else if probe + 1 < t2.total_size then
            HashMap.find_loop_st hash key_kmer t2 v (probe + 1) fuel
          else .ok (false, v, t2)
      | .ok (false, t1) =>
        if probe + 1 < t1.total_size then
          HashMap.find_loop_st hash key_kmer t1 val_kmer (probe + 1) fuel
        else .ok (false, val_kmer, t1)

/-- `HashMap::find` as a sequence of steps on the shared memory: the result,
the output parameter and the table after the call. -/
def HashMap.find_st [DecidableEq K] (hash : K → Nat) (t : HashMap K E) (key_kmer : K)
    (val_kmer : kmer_pair K E) : Except Fault (Bool × kmer_pair K E × HashMap K E) :=
  HashMap.find_loop_st (hash key_kmer % 2 ^ 64) key_kmer t val_kmer 0 (t.total_size + 1)

/-- A table of 3 slots on one process whose slot 0 has the flag `2 ^ 32 - 1`
(the `int32_t` value -1) and holds (key 9, metadata 9); slot 1 is claimed,
slot 2 is free. -/
def table_wrap : HashMap Nat Nat :=
  { data := store blank 0 0 ⟨9, 9⟩
    used := store (store (fun _ _ => 0) 0 0 (2 ^ 32 - 1)) 0 1 1
    my_size := 3
    total_size := 3
    nprocs := 1 }

/-- The table `table_wrap` after `insert` of (key `2 ^ 64 - 1`, metadata 5). -/
def table_wrap_after : HashMap Nat Nat :=
  { data := store (store blank 0 0 ⟨9, 9⟩) 0 0 ⟨2 ^ 64 - 1, 5⟩
    used := store (store (store (store (fun _ _ => 0) 0 0 (2 ^ 32 - 1)) 0 1 1) 0 0 0) 0 0 1
    my_size := 3
    total_size := 3
    nprocs := 1 }

/-- Number of the slots of `[0, total_size)` for which `slot_used` returns
true. -/
def HashMap.claimed_slots (t : HashMap K E) : Nat :=
  ((List.range t.total_size).filter fun s =>
    match t.slot_used s with
    | .ok true => true
    | _ => false).length

/-- The bookkeeping of a table filled by `insert` calls: `placed` lists, in the
order of the calls, the slot claimed and the record written by every call that
returned success; `c` bounds every flag. The claimed slots are exactly the
slots of `placed`, each holds its record, and the first record of every key
sits at a probe step of that key before which every slot is claimed by a
record of another key. -/
structure HashMap.Filled [DecidableEq K] (hash : K → Nat) (t : HashMap K E)
    (placed : List (Nat × kmer_pair K E)) (c : Nat) : Prop where
  nodup : (placed.map Prod.fst).Nodup
  claimed : ∀ s, s < t.total_size → (t.flagAt s ≠ 0 ↔ s ∈ placed.map Prod.fst)
  holds : ∀ p, p ∈ placed → p.1 < t.total_size ∧ t.recAt p.1 = p.2
  bound : ∀ s, s < t.total_size → t.flagAt s ≤ c
  first : ∀ key r, (placed.map Prod.snd).find? (fun x => decide (x.kmer = key)) = some r →
    ∃ i, i < t.total_size ∧
      t.flagAt (probe_slot (hash key % 2 ^ 64) t.total_size i) ≠ 0 ∧
      t.recAt (probe_slot (hash key % 2 ^ 64) t.total_size i) = r ∧
      ∀ j, j < i → t.flagAt (probe_slot (hash key % 2 ^ 64) t.total_size j) ≠ 0 ∧
        (t.recAt (probe_slot (hash key % 2 ^ 64) t.total_size j)).kmer ≠ key

/-- Every claimed flag cell has, in its record cell, one of the records of
`l`. -/
def HashMap.HoldsCell (t : HashMap K E) (l : List (kmer_pair K E)) : Prop :=
  ∀ r o, t.used r o % 2 ^ 32 ≠ 0 → t.data r o ∈ l

/-- Different slots of `[0, total_size)` have different cells: `getSlotAddr`
gives no two of them the same `(rank, offset)` pair. -/
def HashMap.Unaliased (t : HashMap K E) : Prop :=
  ∀ s s' c, s < t.total_size → s' < t.total_size →
    t.getSlotAddr s = .ok c → t.getSlotAddr s' = .ok c → s = s'

/-- The table of 5 slots on 2 processes (2 slots per process addressed, slot 4
outside the partitions) after `insert` of (key 0, metadata 1). -/
def table_odd_one : HashMap Nat Nat :=
  { data := store blank 0 0 ⟨0, 1⟩
    used := store (fun _ _ => 0) 0 0 1
    my_size := 3
    total_size := 5
    nprocs := 2 }

/-- The table `table_odd_one` after `insert` of (key 5, metadata 2), which
starts at slot 0 and lands in slot 1. -/
def table_odd_pushed : HashMap Nat Nat :=
  { data := store (store blank 0 0 ⟨0, 1⟩) 0 1 ⟨5, 2⟩
    used := store (store (store (fun _ _ => 0) 0 0 1) 0 0 2) 0 1 1
    my_size := 3
    total_size := 5
    nprocs := 2 }

/-- The table `table_odd_pushed` after a second `insert` of (key 5,
metadata 2), which lands in slot 2, the first slot of process 1. -/
def table_odd_twice : HashMap Nat Nat :=
  { data := store (store (store blank 0 0 ⟨0, 1⟩) 0 1 ⟨5, 2⟩) 1 0 ⟨5, 2⟩
    used := store (store (store (store (store (store (fun _ _ => 0) 0 0 1) 0 0 2) 0 1 1)
      0 0 3) 0 1 2) 1 0 1
    my_size := 3
    total_size := 5
    nprocs := 2 }

/-- The table of `2 ^ 32 + 1` slots on one process after `insert` of key
`2 ^ 32` (metadata 1) into the empty table. -/
def table_alias : HashMap Nat Nat :=
  { data := store blank 0 0 ⟨2 ^ 32, 1⟩
    used := store (fun _ _ => 0) 0 0 1
    my_size := 2 ^ 32 + 1
    total_size := 2 ^ 32 + 1
    nprocs := 1 }

/-- The table `table_alias` after a second `insert` of key `2 ^ 32`
(metadata 1). -/
def table_alias_two : HashMap Nat Nat :=
  { data := store (store blank 0 0 ⟨2 ^ 32, 1⟩) 0 1 ⟨2 ^ 32, 1⟩
    used := store (store (store (store (fun _ _ => 0) 0 0 1) 0 0 2) 0 0 3) 0 1 1
    my_size := 2 ^ 32 + 1
    total_size := 2 ^ 32 + 1
    nprocs := 1 }

/-- A table of `2 ^ 32 + 1` slots on one process, whose slots 0 and `2 ^ 32`
share the cell `(0, 0)`: that cell holds (key `2 ^ 32`, metadata 9) and its
flag is `2 ^ 32 - 3`; every other flag is zero. -/
def table_alias_full : HashMap Nat Nat :=
  { data := store blank 0 0 ⟨2 ^ 32, 9⟩
    used := store (fun _ _ => 0) 0 0 (2 ^ 32 - 3)
    my_size := 2 ^ 32 + 1
    total_size := 2 ^ 32 + 1
    nprocs := 1 }

/-- The table `table_alias_full` after `insert` of (key `2 ^ 64 - 2`,
metadata 5), whose probe steps are on slots `2 ^ 32`, 0, 0 and 1. -/
def table_alias_lost : HashMap Nat Nat :=
  { data := store (store blank 0 0 ⟨2 ^ 32, 9⟩) 0 1 ⟨2 ^ 64 - 2, 5⟩
    used := store (store (store (store (store (fun _ _ => 0) 0 0 (2 ^ 32 - 3))
      0 0 (2 ^ 32 - 2)) 0 0 (2 ^ 32 - 1)) 0 0 0) 0 1 1
    my_size := 2 ^ 32 + 1
    total_size := 2 ^ 32 + 1
    nprocs := 1 }

/-- Number of the steps `probe, ..., probe + n - 1` whose slot has the cell
`c`. -/
def cell_visits (t : HashMap K E) (hash : Nat) (c : Nat × Nat) : Nat → Nat → Nat
  | _, 0 => 0
  | probe, n + 1 =>
    (match t.getSlotAddr (probe_slot hash t.total_size probe) with
      | .ok c' => if c' = c then 1 else 0
      | .error _ => 0) + cell_visits t hash c (probe + 1) n

/-- The results of `n` `request_slot` calls on the same slot, in the order in
which they take effect. A call touches the shared memory only through one
atomic fetch-and-add on the flag, so calls issued concurrently by any
processes take effect one after another, in some order. -/
def HashMap.request_results (t : HashMap K E) (slot : Nat) :
    Nat → Except Fault (List Bool × HashMap K E)
  | 0 => .ok ([], t)
  | n + 1 =>
    match t.request_slot slot with
    | .error e => .error e
    | .ok (b, t1) =>
      match HashMap.request_results t1 slot n with
      | .error e => .error e
      | .ok (bs, t2) => .ok (b :: bs, t2)

/-! ## Lemmas and theorems -/

theorem to_int_of_lt {x : Nat} (h : x < 2 ^ 31) : to_int x = (x : Int) := by
  unfold to_int
  omega

theorem HashMap.Addressable.per_pos {t : HashMap K E} (h : t.Addressable) : 0 < t.total_size / t.nprocs :=
  Nat.div_pos (Nat.le_of_dvd h.size_pos h.dvd) h.nprocs_pos

theorem HashMap.Addressable.div_lt {t : HashMap K E} (h : t.Addressable) {s : Nat} (hs : s < t.total_size) :
    s / (t.total_size / t.nprocs) < t.nprocs := by
  rw [Nat.div_lt_iff_lt_mul h.per_pos]
  rwa [Nat.mul_comm, Nat.div_mul_cancel h.dvd]

theorem getUsedSlotAddr_eq {t : HashMap K E} (h : t.Addressable) {s : Nat} (hs : s < t.total_size) :
    t.getUsedSlotAddr s = .ok (s / (t.total_size / t.nprocs), s % (t.total_size / t.nprocs)) := by
  have hp := h.per_pos
  have h1 := h.div_lt hs
  have h2 : s % (t.total_size / t.nprocs) < t.total_size / t.nprocs := Nat.mod_lt _ hp
  have h3 := h.nprocs_int
  have h4 := h.per_int
  have h5 := h.my_size_ge
  unfold HashMap.getUsedSlotAddr node_num offset
  rw [if_neg (by omega), to_int_of_lt (by omega), to_int_of_lt (by omega)]
  simp only [Int.toNat_ofNat]
  generalize s / (t.total_size / t.nprocs) = a at *
  generalize s % (t.total_size / t.nprocs) = b at *
  rw [if_pos]
  refine ⟨by omega, by omega, by omega, by omega⟩

theorem getSlotAddr_eq {t : HashMap K E} (h : t.Addressable) {s : Nat} (hs : s < t.total_size) :
    t.getSlotAddr s = .ok (s / (t.total_size / t.nprocs), s % (t.total_size / t.nprocs)) := by
  have hp := h.per_pos
  have h1 := h.div_lt hs
  have h2 : s % (t.total_size / t.nprocs) < t.total_size / t.nprocs := Nat.mod_lt _ hp
  have h3 := h.nprocs_int
  have h4 := h.per_int
  have h5 := h.my_size_ge
  unfold HashMap.getSlotAddr node_num offset
  rw [if_neg (by omega), to_int_of_lt (by omega), to_int_of_lt (by omega)]
  simp only [Int.toNat_ofNat]
  generalize s / (t.total_size / t.nprocs) = a at *
  generalize s % (t.total_size / t.nprocs) = b at *
  rw [if_pos]
  refine ⟨by omega, by omega, by omega, by omega⟩

@[simp] theorem bump_total_size (t : HashMap K E) (s : Nat) : (t.bump s).total_size = t.total_size := rfl
@[simp] theorem bump_nprocs (t : HashMap K E) (s : Nat) : (t.bump s).nprocs = t.nprocs := rfl
@[simp] theorem bump_my_size (t : HashMap K E) (s : Nat) : (t.bump s).my_size = t.my_size := rfl
@[simp] theorem put_total_size (t : HashMap K E) (s : Nat) (k : kmer_pair K E) :
    (t.put s k).total_size = t.total_size := rfl
@[simp] theorem put_nprocs (t : HashMap K E) (s : Nat) (k : kmer_pair K E) :
    (t.put s k).nprocs = t.nprocs := rfl
@[simp] theorem put_my_size (t : HashMap K E) (s : Nat) (k : kmer_pair K E) :
    (t.put s k).my_size = t.my_size := rfl

theorem HashMap.Addressable.of_geometry {t u : HashMap K E} (h : t.Addressable)
    (h1 : u.total_size = t.total_size) (h2 : u.nprocs = t.nprocs) (h3 : u.my_size = t.my_size) :
    u.Addressable :=
  ⟨h2 ▸ h.nprocs_pos, h2 ▸ h.nprocs_int, h1 ▸ h.size_pos, h1 ▸ h2 ▸ h.dvd,
    h1 ▸ h2 ▸ h.per_int, h1 ▸ h2 ▸ h3 ▸ h.my_size_ge⟩

theorem HashMap.Addressable.bump {t : HashMap K E} (h : t.Addressable) (s : Nat) :
    (t.bump s).Addressable := h.of_geometry rfl rfl rfl

theorem HashMap.Addressable.put {t : HashMap K E} (h : t.Addressable) (s : Nat)
    (k : kmer_pair K E) : (t.put s k).Addressable := h.of_geometry rfl rfl rfl

theorem cell_eq_iff {per : Nat} (s s' : Nat) :
    (s' / per = s / per ∧ s' % per = s % per) ↔ s' = s := by
  constructor
  · rintro ⟨h1, h2⟩
    rw [← Nat.div_add_mod s' per, ← Nat.div_add_mod s per, h1, h2]
  · rintro rfl
    exact ⟨rfl, rfl⟩

theorem flagAt_bump (t : HashMap K E) (s s' : Nat) :
    (t.bump s).flagAt s' = if s' = s then (t.flagAt s + 1) % 2 ^ 32 else t.flagAt s' := by
  unfold HashMap.flagAt HashMap.bump store
  simp only [cell_eq_iff]
  by_cases h : s' = s
  · subst h
    simp
  · simp [h]

theorem recAt_bump (t : HashMap K E) (s s' : Nat) : (t.bump s).recAt s' = t.recAt s' := rfl

theorem flagAt_put (t : HashMap K E) (s s' : Nat) (k : kmer_pair K E) :
    (t.put s k).flagAt s' = t.flagAt s' := rfl

theorem recAt_put (t : HashMap K E) (s s' : Nat) (k : kmer_pair K E) :
    (t.put s k).recAt s' = if s' = s then k else t.recAt s' := by
  unfold HashMap.recAt HashMap.put store
  simp only [cell_eq_iff]

theorem slot_used_eq {t : HashMap K E} (h : t.Addressable) {s : Nat} (hs : s < t.total_size) :
    t.slot_used s = .ok (t.flagAt s != 0) := by
  unfold HashMap.slot_used
  rw [getUsedSlotAddr_eq h hs]
  rfl

theorem read_slot_eq {t : HashMap K E} (h : t.Addressable) {s : Nat} (hs : s < t.total_size) :
    t.read_slot s = .ok (t.recAt s) := by
  unfold HashMap.read_slot
  rw [getSlotAddr_eq h hs]
  rfl

theorem request_slot_eq {t : HashMap K E} (h : t.Addressable) {s : Nat} (hs : s < t.total_size) :
    t.request_slot s = .ok (t.flagAt s == 0, t.bump s) := by
  unfold HashMap.request_slot
  rw [getUsedSlotAddr_eq h hs]
  rfl

theorem write_slot_eq {t : HashMap K E} (h : t.Addressable) {s : Nat} (hs : s < t.total_size)
    (k : kmer_pair K E) : t.write_slot s k = .ok (t.put s k) := by
  unfold HashMap.write_slot
  rw [getSlotAddr_eq h hs]
  rfl

theorem probe_slot_lt (hash probe : Nat) {total_size : Nat} (h : 0 < total_size) :
    probe_slot hash total_size probe < total_size := Nat.mod_lt _ h

theorem insert_loop_succ {t : HashMap K E} (h : t.Addressable) (hash : Nat) (k : kmer_pair K E)
    (probe fuel : Nat) :
    HashMap.insert_loop hash k t probe (fuel + 1) =
      if t.flagAt (probe_slot hash t.total_size probe) = 0 then
        .ok (true, (t.bump (probe_slot hash t.total_size probe)).put
          (probe_slot hash t.total_size probe) k)
      else if probe + 1 < t.total_size then
        HashMap.insert_loop hash k (t.bump (probe_slot hash t.total_size probe)) (probe + 1) fuel
      else .ok (false, t.bump (probe_slot hash t.total_size probe)) := by
  have hs := probe_slot_lt hash probe h.size_pos
  have hne : t.total_size ≠ 0 := Nat.pos_iff_ne_zero.mp h.size_pos
  rw [HashMap.insert_loop]
  simp only [hne, if_false]
  rw [show (hash + probe) % 2 ^ 64 % t.total_size = probe_slot hash t.total_size probe from rfl]
  rw [request_slot_eq h hs]
  by_cases hz : t.flagAt (probe_slot hash t.total_size probe) = 0
  · simp only [hz, beq_self_eq_true, if_true]
    rw [write_slot_eq (h.bump _) (by simpa using hs)]
  · simp [hz]

theorem find_loop_succ [DecidableEq K] {t : HashMap K E} (h : t.Addressable) (hash : Nat) (key : K)
    (val : kmer_pair K E) (probe fuel : Nat) :
    HashMap.find_loop hash key t val probe (fuel + 1) =
      if t.flagAt (probe_slot hash t.total_size probe) ≠ 0 then
        if (t.recAt (probe_slot hash t.total_size probe)).kmer = key then
          .ok (true, t.recAt (probe_slot hash t.total_size probe))
        else if probe + 1 < t.total_size then
          HashMap.find_loop hash key t (t.recAt (probe_slot hash t.total_size probe)) (probe + 1) fuel
        else .ok (false, t.recAt (probe_slot hash t.total_size probe))
      else if probe + 1 < t.total_size then
        HashMap.find_loop hash key t val (probe + 1) fuel
      else .ok (false, val) := by
  have hs := probe_slot_lt hash probe h.size_pos
  have hne : t.total_size ≠ 0 := Nat.pos_iff_ne_zero.mp h.size_pos
  rw [HashMap.find_loop]
  simp only [hne, if_false]
  rw [show (hash + probe) % 2 ^ 64 % t.total_size = probe_slot hash t.total_size probe from rfl]
  rw [slot_used_eq h hs, read_slot_eq h hs]
  by_cases hz : t.flagAt (probe_slot hash t.total_size probe) = 0
  · simp [hz]
  · have hb : (t.flagAt (probe_slot hash t.total_size probe) != 0) = true := by simpa using hz
    rw [hb]
    simp [hz]

theorem insert_loop_spec (hash : Nat) (k : kmer_pair K E) :
    ∀ (fuel probe : Nat) (t : HashMap K E) (b : Bool) (t' : HashMap K E), t.Addressable →
      probe < t.total_size → HashMap.insert_loop hash k t probe fuel = .ok (b, t') →
      (t'.total_size = t.total_size ∧ t'.nprocs = t.nprocs ∧ t'.my_size = t.my_size) ∧
      (∀ s, t'.flagAt s ≠ 0 → (b = true ∧ t'.recAt s = k) ∨ (t.flagAt s ≠ 0 ∧ t'.recAt s = t.recAt s)) ∧
      (b = false → ∀ s, t'.recAt s = t.recAt s) ∧
      (b = true → ∃ i, probe ≤ i ∧ i < t.total_size ∧
        t'.recAt (probe_slot hash t.total_size i) = k ∧
        t'.flagAt (probe_slot hash t.total_size i) = 1 ∧
        (∀ s, s ≠ probe_slot hash t.total_size i → t'.recAt s = t.recAt s) ∧
        (t.flagAt (probe_slot hash t.total_size i) +
          visits hash t.total_size (probe_slot hash t.total_size i) probe (i - probe)) % 2 ^ 32 = 0) := by
  intro fuel
  induction fuel with
  | zero =>
    intro probe t b t' _ _ h
    simp [HashMap.insert_loop] at h
  | succ fuel ih =>
    intro probe t b t' ha hp h
    rw [insert_loop_succ ha] at h
    by_cases hz : t.flagAt (probe_slot hash t.total_size probe) = 0
    · rw [if_pos hz] at h
      simp only [Except.ok.injEq, Prod.mk.injEq] at h
      obtain ⟨rfl, rfl⟩ := h
      refine ⟨⟨rfl, rfl, rfl⟩, ?_, by simp, fun _ => ⟨probe, le_rfl, hp, ?_, ?_, ?_, ?_⟩⟩
      · intro s hs
        rw [flagAt_put, flagAt_bump] at hs
        rw [recAt_put, recAt_bump]
        by_cases hss : s = probe_slot hash t.total_size probe
        · left; simp [hss]
        · right
          rw [if_neg hss] at hs
          simp [hss, hs]
      · simp [recAt_put]
      · simp [flagAt_put, flagAt_bump, hz]
      · intro s hs
        simp [recAt_put, recAt_bump, hs]
      · simp [visits, hz]
    · rw [if_neg hz] at h
      by_cases hlt : probe + 1 < t.total_size
      · rw [if_pos hlt] at h
        obtain ⟨_, h2, h3, h4⟩ := ih (probe + 1) _ b t' (ha.bump _) (by simpa using hlt) h
        refine ⟨by simpa using ‹_›, ?_, ?_, ?_⟩
        · intro s hs
          rcases h2 s hs with h2 | ⟨h2, h2'⟩
          · exact Or.inl h2
          · right
            rw [recAt_bump] at h2'
            refine ⟨?_, h2'⟩
            rw [flagAt_bump] at h2
            by_cases hss : s = probe_slot hash t.total_size probe
            · rw [hss]; exact hz
            · rwa [if_neg hss] at h2
        · intro hb s
          rw [h3 hb s, recAt_bump]
        · intro hb
          obtain ⟨i, hi1, hi2, hi3, hi4, hi5, hi6⟩ := h4 hb
          simp only [bump_total_size] at hi2 hi3 hi4 hi5 hi6
          refine ⟨i, by omega, hi2, hi3, hi4, ?_, ?_⟩
          · intro s hs
            rw [hi5 s hs, recAt_bump]
          · have : i - probe = (i - (probe + 1)) + 1 := by omega
            rw [this, visits]
            rw [flagAt_bump] at hi6
            by_cases hss : probe_slot hash t.total_size probe = probe_slot hash t.total_size i
            · rw [if_pos hss.symm] at hi6
              rw [if_pos hss, ← hss]
              rw [← hss] at hi6
              omega
            · rw [if_neg (fun h => hss h.symm)] at hi6
              rw [if_neg hss]
              omega
      · rw [if_neg hlt] at h
        simp only [Except.ok.injEq, Prod.mk.injEq] at h
        obtain ⟨rfl, rfl⟩ := h
        refine ⟨⟨rfl, rfl, rfl⟩, ?_, fun _ s => recAt_bump _ _ _, by simp⟩
        intro s hs
        right
        refine ⟨?_, recAt_bump _ _ _⟩
        rw [flagAt_bump] at hs
        by_cases hss : s = probe_slot hash t.total_size probe
        · rw [hss]; exact hz
        · rwa [if_neg hss] at hs

theorem insert_loop_total (hash : Nat) (k : kmer_pair K E) :
    ∀ (fuel probe : Nat) (t : HashMap K E), t.Addressable → t.total_size ≤ probe + fuel →
      probe < t.total_size → ∃ b t', HashMap.insert_loop hash k t probe fuel = .ok (b, t') := by
  intro fuel
  induction fuel with
  | zero => intro probe t _ h1 h2; omega
  | succ fuel ih =>
    intro probe t ha h1 h2
    rw [insert_loop_succ ha]
    by_cases hz : t.flagAt (probe_slot hash t.total_size probe) = 0
    · rw [if_pos hz]; exact ⟨_, _, rfl⟩
    · rw [if_neg hz]
      by_cases hlt : probe + 1 < t.total_size
      · rw [if_pos hlt]
        exact ih (probe + 1) _ (ha.bump _) (by simp; omega) (by simpa using hlt)
      · rw [if_neg hlt]; exact ⟨_, _, rfl⟩

theorem find_loop_found [DecidableEq K] (hash : Nat) (key : K) {t : HashMap K E}
    (ha : t.Addressable) {i : Nat} (hi : i < t.total_size)
    (hflag : t.flagAt (probe_slot hash t.total_size i) ≠ 0)
    (hkey : (t.recAt (probe_slot hash t.total_size i)).kmer = key) :
    ∀ (fuel probe : Nat) (val : kmer_pair K E), probe ≤ i → i < probe + fuel →
      ∃ j, probe ≤ j ∧ j ≤ i ∧ t.flagAt (probe_slot hash t.total_size j) ≠ 0 ∧
        (t.recAt (probe_slot hash t.total_size j)).kmer = key ∧
        HashMap.find_loop hash key t val probe fuel =
          .ok (true, t.recAt (probe_slot hash t.total_size j)) := by
  intro fuel
  induction fuel with
  | zero => intro probe val h1 h2; omega
  | succ fuel ih =>
    intro probe val h1 h2
    rw [find_loop_succ ha]
    by_cases hm : t.flagAt (probe_slot hash t.total_size probe) ≠ 0 ∧
        (t.recAt (probe_slot hash t.total_size probe)).kmer = key
    · exact ⟨probe, le_rfl, h1, hm.1, hm.2, by rw [if_pos hm.1, if_pos hm.2]⟩
    · have hne : probe ≠ i := by
        rintro rfl
        exact hm ⟨hflag, hkey⟩
      have hlt : probe + 1 < t.total_size := by omega
      by_cases hz : t.flagAt (probe_slot hash t.total_size probe) ≠ 0
      · have hk : ¬ (t.recAt (probe_slot hash t.total_size probe)).kmer = key := fun h => hm ⟨hz, h⟩
        rw [if_pos hz, if_neg hk, if_pos hlt]
        obtain ⟨j, hj1, hj2, hj3, hj4, hj5⟩ := ih (probe + 1) (t.recAt _) (by omega) (by omega)
        exact ⟨j, by omega, hj2, hj3, hj4, hj5⟩
      · rw [if_neg hz, if_pos hlt]
        obtain ⟨j, hj1, hj2, hj3, hj4, hj5⟩ := ih (probe + 1) val (by omega) (by omega)
        exact ⟨j, by omega, hj2, hj3, hj4, hj5⟩

theorem find_loop_not_found [DecidableEq K] (hash : Nat) (key : K) {t : HashMap K E}
    (ha : t.Addressable)
    (hno : ∀ s, s < t.total_size → t.flagAt s ≠ 0 → (t.recAt s).kmer ≠ key) :
    ∀ (fuel probe : Nat) (val : kmer_pair K E), probe < t.total_size →
      t.total_size ≤ probe + fuel →
      ∃ v, HashMap.find_loop hash key t val probe fuel = .ok (false, v) := by
  intro fuel
  induction fuel with
  | zero => intro probe val h1 h2; omega
  | succ fuel ih =>
    intro probe val h1 h2
    rw [find_loop_succ ha]
    have hs := probe_slot_lt hash probe ha.size_pos
    by_cases hz : t.flagAt (probe_slot hash t.total_size probe) ≠ 0
    · rw [if_pos hz, if_neg (hno _ hs hz)]
      by_cases hlt : probe + 1 < t.total_size
      · rw [if_pos hlt]; exact ih _ _ hlt (by omega)
      · rw [if_neg hlt]; exact ⟨_, rfl⟩
    · rw [if_neg hz]
      by_cases hlt : probe + 1 < t.total_size
      · rw [if_pos hlt]; exact ih _ _ hlt (by omega)
      · rw [if_neg hlt]; exact ⟨_, rfl⟩

theorem HashMap.Holds.mono {t : HashMap K E} {l l' : List (kmer_pair K E)}
    (hsub : ∀ x, x ∈ l → x ∈ l') (h : t.Holds l) : t.Holds l' :=
  fun s hs hf => hsub _ (h s hs hf)

theorem insert_holds (hash : K → Nat) {t t' : HashMap K E} {b : Bool} {r : kmer_pair K E}
    {l : List (kmer_pair K E)} (ha : t.Addressable) (hl : t.Holds l)
    (h : HashMap.insert hash t r = .ok (b, t')) :
    t'.Addressable ∧ t'.total_size = t.total_size ∧ t'.Holds (if b then r :: l else l) := by
  obtain ⟨⟨g1, g2, g3⟩, h2, h3, _⟩ := insert_loop_spec _ _ _ _ _ _ _ ha ha.size_pos h
  refine ⟨ha.of_geometry g1 g2 g3, g1, ?_⟩
  intro s hs hf
  rw [g1] at hs
  rcases h2 s hf with ⟨rfl, hr⟩ | ⟨hf', hr⟩
  · simp [hr]
  · have := hl s hs hf'
    rw [hr]
    split
    · exact List.mem_cons_of_mem _ this
    · exact this

theorem insert_all_holds (hash : K → Nat) :
    ∀ (rs : List (kmer_pair K E)) (t t' : HashMap K E) (done l : List (kmer_pair K E)),
      t.Addressable → t.Holds l → HashMap.insert_all hash t rs = .ok (t', done) →
      t'.Addressable ∧ t'.total_size = t.total_size ∧ t'.Holds (done ++ l) := by
  intro rs
  induction rs with
  | nil =>
    intro t t' done l ha hl h
    simp only [HashMap.insert_all, Except.ok.injEq, Prod.mk.injEq] at h
    obtain ⟨rfl, rfl⟩ := h
    exact ⟨ha, rfl, hl⟩
  | cons r rs ih =>
    intro t t' done l ha hl h
    rw [HashMap.insert_all] at h
    split at h
    · cases h
    · rename_i b t1 h1
      split at h
      · cases h
      · rename_i t2 done2 h2
        simp only [Except.ok.injEq, Prod.mk.injEq] at h
        obtain ⟨rfl, rfl⟩ := h
        obtain ⟨ha1, hg1, hl1⟩ := insert_holds hash ha hl h1
        obtain ⟨ha2, hg2, hl2⟩ := ih t1 t2 done2 _ ha1 hl1 h2
        refine ⟨ha2, hg2.trans hg1, hl2.mono ?_⟩
        intro x hx
        cases b <;> simp at hx ⊢ <;> tauto

theorem mod_collision {x y n : Nat} (hxy : x < y) (hlt : y - x < n) (h : x % n = y % n) : False := by
  have h0 : (y - x) % n = 0 := Nat.sub_mod_eq_zero_of_mod_eq h.symm
  rw [Nat.mod_eq_of_lt hlt] at h0
  omega

theorem probe_slot_collision {hash n a b : Nat} (hh : hash < 2 ^ 64) (hn : n ≤ 2 ^ 64)
    (hab : a < b) (hb : b < n) (h : probe_slot hash n a = probe_slot hash n b) :
    hash + a < 2 ^ 64 ∧ 2 ^ 64 ≤ hash + b := by
  unfold probe_slot at h
  by_contra hc
  by_cases h1 : hash + b < 2 ^ 64
  · have h0 : hash + a < 2 ^ 64 := by omega
    rw [Nat.mod_eq_of_lt h1, Nat.mod_eq_of_lt h0] at h
    exact mod_collision (show hash + a < hash + b by omega) (by omega) h
  · have h2 : 2 ^ 64 ≤ hash + a := by omega
    have e1 : (hash + a) % 2 ^ 64 = hash + a - 2 ^ 64 := by omega
    have e2 : (hash + b) % 2 ^ 64 = hash + b - 2 ^ 64 := by omega
    rw [e1, e2] at h
    exact mod_collision (show hash + a - 2 ^ 64 < hash + b - 2 ^ 64 by omega) (by omega) h

theorem visits_pos (hash n s : Nat) :
    ∀ (m p : Nat), 1 ≤ visits hash n s p m → ∃ a, p ≤ a ∧ a < p + m ∧ probe_slot hash n a = s := by
  intro m
  induction m with
  | zero => intro p h; simp [visits] at h
  | succ m ih =>
    intro p h
    rw [visits] at h
    by_cases hs : probe_slot hash n p = s
    · exact ⟨p, le_rfl, by omega, hs⟩
    · rw [if_neg hs] at h
      obtain ⟨a, h1, h2, h3⟩ := ih (p + 1) (by omega)
      exact ⟨a, by omega, by omega, h3⟩

theorem visits_two (hash n s : Nat) :
    ∀ (m p : Nat), 2 ≤ visits hash n s p m →
      ∃ a b, p ≤ a ∧ a < b ∧ b < p + m ∧ probe_slot hash n a = s ∧ probe_slot hash n b = s := by
  intro m
  induction m with
  | zero => intro p h; simp [visits] at h
  | succ m ih =>
    intro p h
    rw [visits] at h
    by_cases hs : probe_slot hash n p = s
    · rw [if_pos hs] at h
      obtain ⟨b, h1, h2, h3⟩ := visits_pos hash n s m (p + 1) (by omega)
      exact ⟨p, b, le_rfl, by omega, by omega, hs, h3⟩
    · rw [if_neg hs] at h
      obtain ⟨a, b, h1, h2, h3, h4, h5⟩ := ih (p + 1) (by omega)
      exact ⟨a, b, by omega, h2, by omega, h4, h5⟩

theorem visits_le_one {hash n i p : Nat} (hh : hash < 2 ^ 64) (hn : n ≤ 2 ^ 64) (hi : i < n)
    (hp : p ≤ i) : visits hash n (probe_slot hash n i) p (i - p) ≤ 1 := by
  by_contra hc
  obtain ⟨a, b, h1, h2, h3, h4, h5⟩ := visits_two hash n (probe_slot hash n i) (i - p) p (by omega)
  have c1 := probe_slot_collision hh hn h2 (by omega) (h4.trans h5.symm)
  have c2 := probe_slot_collision hh hn (show b < i by omega) hi h5
  omega

theorem HashMap.Addressable.size_le {t : HashMap K E} (h : t.Addressable) :
    t.total_size ≤ 2 ^ 62 := by
  have h1 := Nat.div_mul_cancel h.dvd
  have h2 := Nat.mul_le_mul h.per_int h.nprocs_int
  rw [h1] at h2
  omega

theorem construct_addressable (size nprocs : Nat) (cells : Nat → Nat → kmer_pair K E)
    (hnp : 0 < nprocs) (hnp' : nprocs ≤ 2 ^ 31) (hsize : 0 < size) (hdvd : nprocs ∣ size)
    (hper : size / nprocs ≤ 2 ^ 31) : (HashMap.construct size nprocs cells).Addressable := by
  refine ⟨hnp, hnp', hsize, hdvd, hper, ?_⟩
  show size / nprocs ≤ (size + nprocs + (2 ^ 64 - 1)) % 2 ^ 64 / nprocs
  have h1 := Nat.div_mul_cancel hdvd
  have h2 := Nat.mul_le_mul hper hnp'
  rw [h1] at h2
  have h3 : (size + nprocs + (2 ^ 64 - 1)) % 2 ^ 64 = size + (nprocs - 1) := by omega
  rw [h3]
  exact Nat.div_le_div_right (by omega)

theorem construct_holds (size nprocs : Nat) (cells : Nat → Nat → kmer_pair K E) :
    (HashMap.construct size nprocs cells).Holds [] := by
  intro s _ hf
  exact absurd rfl hf

theorem request_many_flag {s : Nat} :
    ∀ (n : Nat) (t : HashMap K E), t.Addressable → s < t.total_size →
      ∃ t', t.request_many s n = .ok t' ∧ t'.Addressable ∧ t'.total_size = t.total_size ∧
        t'.flagAt s = (t.flagAt s + n) % 2 ^ 32 := by
  intro n
  induction n with
  | zero =>
    intro t ha _
    refine ⟨t, rfl, ha, rfl, ?_⟩
    unfold HashMap.flagAt
    omega
  | succ n ih =>
    intro t ha hs
    rw [HashMap.request_many, request_slot_eq ha hs]
    obtain ⟨t', h1, h2, h3, h4⟩ := ih (t.bump s) (ha.bump s) hs
    refine ⟨t', h1, h2, h3, ?_⟩
    rw [h4, flagAt_bump, if_pos rfl]
    omega

theorem one_slot_addressable {t : HashMap K E} (h1 : t.total_size = 1) (h2 : t.nprocs = 1)
    (h3 : 1 ≤ t.my_size) : t.Addressable := by
  refine ⟨by omega, by omega, by omega, by rw [h1, h2], by rw [h1, h2]; decide, by rw [h1, h2]; exact h3⟩

theorem one_slot_insert (hash : K → Nat) {t : HashMap K E} (r : kmer_pair K E)
    (h1 : t.total_size = 1) (h2 : t.nprocs = 1) (h3 : 1 ≤ t.my_size) :
    HashMap.insert hash t r =
      if t.flagAt 0 = 0 then .ok (true, (t.bump 0).put 0 r) else .ok (false, t.bump 0) := by
  have ha := one_slot_addressable h1 h2 h3
  have hp : probe_slot (hash r.kmer % 2 ^ 64) t.total_size 0 = 0 := by
    rw [h1]; exact Nat.mod_one _
  unfold HashMap.insert
  rw [insert_loop_succ ha, hp, if_neg (show ¬ (0 + 1 < t.total_size) by omega)]

theorem one_slot_insert_all (hash : K → Nat) (r : kmer_pair K E) :
    ∀ (n : Nat) (t : HashMap K E), t.total_size = 1 → t.nprocs = 1 → 1 ≤ t.my_size →
      1 ≤ t.flagAt 0 → t.flagAt 0 + n ≤ 2 ^ 32 →
      ∃ t', HashMap.insert_all hash t (List.replicate n r) = .ok (t', []) ∧
        t'.total_size = 1 ∧ t'.nprocs = 1 ∧ 1 ≤ t'.my_size ∧
        t'.flagAt 0 = (t.flagAt 0 + n) % 2 ^ 32 ∧ t'.recAt 0 = t.recAt 0 := by
  intro n
  induction n with
  | zero =>
    intro t h1 h2 h3 _ _
    refine ⟨t, rfl, h1, h2, h3, ?_, rfl⟩
    unfold HashMap.flagAt
    omega
  | succ n ih =>
    intro t h1 h2 h3 h4 h5
    rw [List.replicate_succ, HashMap.insert_all, one_slot_insert hash r h1 h2 h3,
      if_neg (by omega)]
    have hf : (t.bump 0).flagAt 0 = (t.flagAt 0 + 1) % 2 ^ 32 := by
      rw [flagAt_bump, if_pos rfl]
    rcases Nat.eq_zero_or_pos n with rfl | hn
    · refine ⟨t.bump 0, rfl, h1, h2, h3, hf, rfl⟩
    · obtain ⟨t', k1, k2, k3, k4, k5, k6⟩ := ih (t.bump 0) h1 h2 h3 (by omega) (by omega)
      refine ⟨t', ?_, k2, k3, k4, ?_, ?_⟩
      · simp only [k1]
        rfl
      · rw [k5, hf]; omega
      · rw [k6]; rfl

theorem flagAt_construct (size nprocs : Nat) (cells : Nat → Nat → kmer_pair K E) (s : Nat) :
    (HashMap.construct size nprocs cells).flagAt s = 0 := by
  simp [HashMap.flagAt, HashMap.construct]

theorem one_slot_fill (hash : K → Nat) (cells : Nat → Nat → kmer_pair K E) (r r' : kmer_pair K E)
    (n : Nat) (hn : n + 1 ≤ 2 ^ 32) :
    ∃ t, HashMap.insert_all hash (HashMap.construct 1 1 cells) (r :: List.replicate n r') =
        .ok (t, [r]) ∧
      t.total_size = 1 ∧ t.nprocs = 1 ∧ 1 ≤ t.my_size ∧
      t.flagAt 0 = (1 + n) % 2 ^ 32 ∧ t.recAt 0 = r := by
  have g1 : (HashMap.construct 1 1 cells).total_size = 1 := rfl
  have g2 : (HashMap.construct 1 1 cells).nprocs = 1 := rfl
  have g3 : 1 ≤ (HashMap.construct 1 1 cells).my_size := by
    show 1 ≤ (1 + 1 + (2 ^ 64 - 1)) % 2 ^ 64 / 1
    decide
  have hf : (((HashMap.construct 1 1 cells).bump 0).put 0 r).flagAt 0 = 1 := by
    rw [flagAt_put, flagAt_bump, if_pos rfl, flagAt_construct]
    decide
  obtain ⟨t, k1, k2, k3, k4, k5, k6⟩ := one_slot_insert_all hash r' n
    (((HashMap.construct 1 1 cells).bump 0).put 0 r) rfl rfl g3 (by rw [hf]) (by rw [hf]; omega)
  refine ⟨t, ?_, k2, k3, k4, by rw [k5, hf], ?_⟩
  · rw [HashMap.insert_all, one_slot_insert hash r g1 g2 g3, if_pos (flagAt_construct _ _ _ _)]
    simp only [k1]
    rfl
  · rw [k6, recAt_put, if_pos rfl]

/-- C2 (the code at the failing input). Table of 3 slots on one process, keys
hashed to themselves, slots 0 and 1 claimed and slot 2 free: `insert` of a
record with hash `2 ^ 64 - 1` probes slots 0, 0, 1 (the sum `hash + probe`
wraps) and returns failure. On a table of 3 slots over 2 processes, `insert`
of a record with hash 2 into the empty table indexes `used[2]`. -/
theorem insert_fails_with_free_slot :
    ∃ t t', HashMap.insert_all id (HashMap.construct 3 1 blank) [⟨0, 0⟩, ⟨1, 0⟩] =
        .ok (t, [⟨0, 0⟩, ⟨1, 0⟩]) ∧
      t.slot_used 0 = .ok true ∧ t.slot_used 1 = .ok true ∧ t.slot_used 2 = .ok false ∧
      HashMap.insert id t ⟨2 ^ 64 - 1, 0⟩ = .ok (false, t') ∧
      HashMap.insert id (HashMap.construct 3 2 blank) ⟨2, 0⟩ = .error .out_of_bounds :=
  ⟨_, _, rfl, rfl, rfl, rfl, rfl, rfl⟩

/-- C3 (the code at the failing input). Table of one slot, one process: after
`2 ^ 32 - 1` calls of `insert` (the first succeeds, the others fail) the only
slot is claimed; the next `insert` returns failure and leaves the slot
unclaimed, since the 32-bit flag wraps to zero. -/
theorem insert_failure_unclaims_slot :
    ∃ t t', HashMap.insert_all id (HashMap.construct 1 1 blank)
        (⟨0, 0⟩ :: List.replicate (2 ^ 32 - 2) ⟨0, 0⟩) = .ok (t, [⟨0, 0⟩]) ∧
      t.slot_used 0 = .ok true ∧
      HashMap.insert id t ⟨0, 1⟩ = .ok (false, t') ∧
      t'.slot_used 0 = .ok false := by
  obtain ⟨t, k1, k2, k3, k4, k5, _⟩ :=
    one_slot_fill id blank ⟨0, 0⟩ ⟨0, 0⟩ (2 ^ 32 - 2) (by decide)
  have ha := one_slot_addressable k2 k3 k4
  have hf : t.flagAt 0 = 2 ^ 32 - 1 := by rw [k5]; decide
  refine ⟨t, t.bump 0, k1, ?_, ?_, ?_⟩
  · rw [slot_used_eq ha (by omega), hf]; rfl
  · rw [one_slot_insert id _ k2 k3 k4, if_neg (by rw [hf]; decide)]
  · rw [slot_used_eq (ha.bump 0) (by simp [k2]), flagAt_bump, if_pos rfl, hf]; rfl

/-- C4 (the code at the failing input). Empty table of 3 slots over 2
processes, no record inserted: `find` of key 0 probes slots 0, 1, 2 and for
slot 2 indexes `used[2]`, outside the vector of 2 entries. -/
theorem find_faults_on_empty_table :
    HashMap.insert_all id (HashMap.construct 3 2 blank) [] =
        .ok (HashMap.construct 3 2 blank, []) ∧
      (HashMap.construct 3 2 blank).slot_used 0 = .ok false ∧
      (HashMap.construct 3 2 blank).slot_used 1 = .ok false ∧
      (HashMap.construct 3 2 blank).slot_used 2 = .error .out_of_bounds ∧
      HashMap.find id (HashMap.construct 3 2 blank) 0 ⟨7, 7⟩ = .error .out_of_bounds :=
  ⟨rfl, rfl, rfl, rfl, rfl⟩

/-- C6 (the code at the failing input). For capacity `2 ^ 64 - 1` and 2
processes the constructor sets `my_size` to 0 (the sum `size + nprocs - 1`
wraps), not to the ceiling `2 ^ 63`, and the allocated capacity `0 * 2` is less
than the requested capacity. -/
theorem construct_my_size_wraps :
    (HashMap.construct (2 ^ 64 - 1) 2 blank).size = 0 ∧
      (HashMap.construct (2 ^ 64 - 1) 2 blank).size * 2 < 2 ^ 64 - 1 ∧
      (2 ^ 64 - 1 + 2 - 1) / 2 = 2 ^ 63 :=
  ⟨rfl, by decide, by decide⟩

/-- C8 (the code at the failing input). Table of one slot: the first
`request_slot` returns true and makes the flag nonzero; after `2 ^ 32 - 1`
further `request_slot` calls the flag is zero again, and the next
`request_slot` returns true a second time. -/
theorem flag_returns_to_zero :
    ∃ t1 t2 t3, (HashMap.construct 1 1 blank).request_slot 0 = .ok (true, t1) ∧
      t1.slot_used 0 = .ok true ∧
      t1.request_many 0 (2 ^ 32 - 1) = .ok t2 ∧
      t2.slot_used 0 = .ok false ∧
      t2.request_slot 0 = .ok (true, t3) := by
  have ha : (HashMap.construct 1 1 blank).Addressable := one_slot_addressable rfl rfl (by decide)
  obtain ⟨t2, k1, k2, k3, k4⟩ :=
    request_many_flag (2 ^ 32 - 1) ((HashMap.construct 1 1 blank).bump 0) (ha.bump 0)
      (show 0 < 1 by decide)
  have hf : t2.flagAt 0 = 0 := by
    rw [k4, flagAt_bump, if_pos rfl]; rfl
  have hs : 0 < t2.total_size := by rw [k3]; decide
  refine ⟨_, t2, t2.bump 0, rfl, rfl, k1, ?_, ?_⟩
  · rw [slot_used_eq k2 hs, hf]; rfl
  · rw [request_slot_eq k2 hs, hf]; rfl

/-- C9 (the code at the failing input). Table of one slot: the first `insert`
writes its record to the cell of slot 0; after `2 ^ 32 - 1` failing `insert`
calls the flag has wrapped to zero, and the next `insert` returns success and
writes the same cell a second time. -/
theorem record_cell_written_twice :
    ∃ t t', HashMap.insert_all id (HashMap.construct 1 1 blank)
        (⟨0, 0⟩ :: List.replicate (2 ^ 32 - 1) ⟨0, 1⟩) = .ok (t, [⟨0, 0⟩]) ∧
      t.read_slot 0 = .ok ⟨0, 0⟩ ∧
      HashMap.insert id t ⟨0, 1⟩ = .ok (true, t') ∧
      t'.read_slot 0 = .ok ⟨0, 1⟩ := by
  obtain ⟨t, k1, k2, k3, k4, k5, k6⟩ :=
    one_slot_fill id blank ⟨0, 0⟩ ⟨0, 1⟩ (2 ^ 32 - 1) (by decide)
  have ha := one_slot_addressable k2 k3 k4
  have hf : t.flagAt 0 = 0 := by rw [k5]; decide
  refine ⟨t, (t.bump 0).put 0 ⟨0, 1⟩, k1, ?_, ?_, ?_⟩
  · rw [read_slot_eq ha (by omega), k6]
  · rw [one_slot_insert id _ k2 k3 k4, if_pos hf]
  · rw [read_slot_eq ((ha.bump 0).put 0 _) (by simp [k2]), recAt_put, if_pos rfl]

/-- C10 (the code at the failing input). For `total_size = 3` and 2 processes
(`my_size = 2`), slot 2 gets `node_num = 2`, which is not below the process
count: `getSlotAddr` and `getUsedSlotAddr` index `data[2]` and `used[2]`
outside the vectors. For `total_size = 1` and 2 processes both divide by
`total_size / nprocs = 0`. -/
theorem addressing_leaves_partitions :
    (HashMap.construct 3 2 blank).size = 2 ∧
      node_num 3 2 2 = 2 ∧ offset 3 2 2 = 0 ∧
      (HashMap.construct 3 2 blank).getSlotAddr 2 = .error .out_of_bounds ∧
      (HashMap.construct 3 2 blank).getUsedSlotAddr 2 = .error .out_of_bounds ∧
      (HashMap.construct 1 2 blank).getSlotAddr 0 = .error .div_by_zero ∧
      (HashMap.construct 1 2 blank).getUsedSlotAddr 0 = .error .div_by_zero :=
  ⟨rfl, rfl, rfl, rfl, rfl, rfl, rfl⟩

/-- On a table with valid geometry, `find` of a key that none of the
successfully inserted records has returns not-found. -/
theorem find_absent_key [DecidableEq K] (hash : K → Nat) (size nprocs : Nat)
    (cells : Nat → Nat → kmer_pair K E) (rs done : List (kmer_pair K E)) (t : HashMap K E)
    (key : K) (val : kmer_pair K E)
    (hnp : 0 < nprocs) (hnp' : nprocs ≤ 2 ^ 31) (hsize : 0 < size) (hdvd : nprocs ∣ size)
    (hper : size / nprocs ≤ 2 ^ 31)
    (hreach : HashMap.insert_all hash (HashMap.construct size nprocs cells) rs = .ok (t, done))
    (hkey : ∀ r, r ∈ done → r.kmer ≠ key) :
    ∃ v, HashMap.find hash t key val = .ok (false, v) := by
  obtain ⟨ha, _, hl⟩ := insert_all_holds hash rs _ _ _ _
    (construct_addressable size nprocs cells hnp hnp' hsize hdvd hper)
    (construct_holds size nprocs cells) hreach
  rw [List.append_nil] at hl
  exact find_loop_not_found _ key ha (fun s hs hf => hkey _ (hl s hs hf)) _ 0 val ha.size_pos
    (by omega)

/-- Without wrap-around of `size + nprocs - 1`, `my_size` is the ceiling of
`size / nprocs`: the least `n` with `size ≤ n * nprocs`. -/
theorem construct_my_size_ceil (size nprocs : Nat) (cells : Nat → Nat → kmer_pair K E)
    (hnp : 0 < nprocs) (hsum : size + nprocs ≤ 2 ^ 64) :
    size ≤ (HashMap.construct size nprocs cells).size * nprocs ∧
      ∀ n, size ≤ n * nprocs → (HashMap.construct size nprocs cells).size ≤ n := by
  have h3 : (size + nprocs + (2 ^ 64 - 1)) % 2 ^ 64 = size + nprocs - 1 := by omega
  have hs : (HashMap.construct size nprocs cells).size = (size + nprocs - 1) / nprocs := by
    rw [HashMap.size]
    show (size + nprocs + (2 ^ 64 - 1)) % 2 ^ 64 / nprocs = _
    rw [h3]
  rw [hs]
  constructor
  · have h1 := Nat.div_add_mod (size + nprocs - 1) nprocs
    have h2 := Nat.mod_lt (size + nprocs - 1) hnp
    rw [Nat.mul_comm] at h1
    omega
  · intro n hn
    rw [Nat.div_le_iff_le_mul_add_pred hnp]
    rw [Nat.mul_comm]
    omega

theorem getUsedSlotAddr_fuel (t : HashMap K E) (s : Nat) :
    t.getUsedSlotAddr s ≠ .error .out_of_fuel := by
  unfold HashMap.getUsedSlotAddr
  split
  · simp
  · dsimp only
    split <;> simp

theorem getSlotAddr_fuel (t : HashMap K E) (s : Nat) :
    t.getSlotAddr s ≠ .error .out_of_fuel := by
  unfold HashMap.getSlotAddr
  split
  · simp
  · dsimp only
    split <;> simp

theorem request_slot_fuel (t : HashMap K E) (s : Nat) :
    t.request_slot s ≠ .error .out_of_fuel := by
  have h := getUsedSlotAddr_fuel t s
  unfold HashMap.request_slot
  split
  · rename_i e he
    intro hc
    simp only [Except.error.injEq] at hc
    exact h (hc ▸ he)
  · simp

theorem request_slot_total_size {t t1 : HashMap K E} {s : Nat} {b : Bool}
    (h : t.request_slot s = .ok (b, t1)) : t1.total_size = t.total_size := by
  unfold HashMap.request_slot at h
  split at h
  · cases h
  · cases h; rfl

theorem write_slot_fuel (t : HashMap K E) (s : Nat) (k : kmer_pair K E) :
    t.write_slot s k ≠ .error .out_of_fuel := by
  have h := getSlotAddr_fuel t s
  unfold HashMap.write_slot
  split
  · rename_i e he
    intro hc
    simp only [Except.error.injEq] at hc
    exact h (hc ▸ he)
  · simp

theorem slot_used_fuel (t : HashMap K E) (s : Nat) :
    t.slot_used s ≠ .error .out_of_fuel := by
  have h := getUsedSlotAddr_fuel t s
  unfold HashMap.slot_used
  split
  · rename_i e he
    intro hc
    simp only [Except.error.injEq] at hc
    exact h (hc ▸ he)
  · simp

theorem read_slot_fuel (t : HashMap K E) (s : Nat) :
    t.read_slot s ≠ .error .out_of_fuel := by
  have h := getSlotAddr_fuel t s
  unfold HashMap.read_slot
  split
  · rename_i e he
    intro hc
    simp only [Except.error.injEq] at hc
    exact h (hc ▸ he)
  · simp

/-- The bound on the iterations of the loop of `insert` is never what ends it:
with `total_size - probe` iterations allowed the loop ends by itself. -/
theorem insert_loop_fuel (hash : Nat) (k : kmer_pair K E) :
    ∀ (fuel probe : Nat) (t : HashMap K E), t.total_size ≤ probe + fuel → 0 < fuel →
      HashMap.insert_loop hash k t probe fuel ≠ .error .out_of_fuel := by
  intro fuel
  induction fuel with
  | zero => intro probe t _ h; omega
  | succ fuel ih =>
    intro probe t h1 _
    rw [HashMap.insert_loop]
    split
    · simp
    · dsimp only
      split
      · rename_i e he
        intro hc
        simp only [Except.error.injEq] at hc
        exact request_slot_fuel _ _ (hc ▸ he)
      · rename_i b t1 he
        have hts := request_slot_total_size he
        split
        · split
          · rename_i e hw
            intro hc
            simp only [Except.error.injEq] at hc
            exact write_slot_fuel _ _ _ (hc ▸ hw)
          · simp
        · split
          · exact ih (probe + 1) t1 (by omega) (by omega)
          · simp

/-- The bound on the iterations of the loop of `find` is never what ends it. -/
theorem find_loop_fuel [DecidableEq K] (hash : Nat) (key : K) (t : HashMap K E) :
    ∀ (fuel probe : Nat) (val : kmer_pair K E), t.total_size ≤ probe + fuel → 0 < fuel →
      HashMap.find_loop hash key t val probe fuel ≠ .error .out_of_fuel := by
  intro fuel
  induction fuel with
  | zero => intro probe val _ h; omega
  | succ fuel ih =>
    intro probe val h1 _
    rw [HashMap.find_loop]
    split
    · simp
    · dsimp only
      split
      · rename_i e he
        intro hc
        simp only [Except.error.injEq] at hc
        exact slot_used_fuel _ _ (hc ▸ he)
      · split
        · rename_i e hr
          intro hc
          simp only [Except.error.injEq] at hc
          exact read_slot_fuel _ _ (hc ▸ hr)
        · split
          · simp
          · split
            · exact ih (probe + 1) _ (by omega) (by omega)
            · simp
      · split
        · exact ih (probe + 1) _ (by omega) (by omega)
        · simp

/-- C11 (the code at the failing input). For `total_size = 3` and 4 processes
the constructor allocates one cell per process, but the divisor
`total_size / nprocs` of `getSlotAddr` and `getUsedSlotAddr` is 0: both divide
by zero for slot 0, and so do `insert` and `find`. -/
theorem addressing_divides_by_zero :
    (HashMap.construct 3 4 blank).size = 1 ∧
      (HashMap.construct 3 4 blank).total_size / (HashMap.construct 3 4 blank).nprocs = 0 ∧
      (HashMap.construct 3 4 blank).getSlotAddr 0 = .error .div_by_zero ∧
      (HashMap.construct 3 4 blank).getUsedSlotAddr 0 = .error .div_by_zero ∧
      HashMap.insert id (HashMap.construct 3 4 blank) ⟨0, 0⟩ = .error .div_by_zero ∧
      HashMap.find id (HashMap.construct 3 4 blank) 0 ⟨7, 7⟩ = .error .div_by_zero :=
  ⟨rfl, rfl, rfl, rfl, rfl, rfl⟩

/-- C12 (the code at the failing input). For `total_size = 2 ^ 32 + 1` on one
process (`total_size / nprocs = 2 ^ 32 + 1`), slots 0 and `2 ^ 32` are both
mapped to the pair (0, 0): the offset `2 ^ 32` does not fit the `int` it is
stored in. -/
theorem addressing_maps_two_slots_to_one_cell :
    node_num (2 ^ 32 + 1) 1 0 = 0 ∧ offset (2 ^ 32 + 1) 1 0 = 0 ∧
      node_num (2 ^ 32 + 1) 1 (2 ^ 32) = 0 ∧ offset (2 ^ 32 + 1) 1 (2 ^ 32) = 0 ∧
      (HashMap.construct (2 ^ 32 + 1) 1 blank).getSlotAddr 0 = .ok (0, 0) ∧
      (HashMap.construct (2 ^ 32 + 1) 1 blank).getSlotAddr (2 ^ 32) = .ok (0, 0) ∧
      (HashMap.construct (2 ^ 32 + 1) 1 blank).getUsedSlotAddr 0 = .ok (0, 0) ∧
      (HashMap.construct (2 ^ 32 + 1) 1 blank).getUsedSlotAddr (2 ^ 32) = .ok (0, 0) :=
  ⟨rfl, rfl, rfl, rfl, rfl, rfl, rfl, rfl⟩

/-- C14 (the code at the failing input). For hash `2 ^ 64 - 1` and
`total_size = 3` the code visits slots 0, 0, 1 at steps 0, 1, 2 (the sum
`hash + probe` wraps at step 1), where the specified sequence is 0, 1, 2:
the two differ at steps 1 and 2, slot 0 is visited twice and slot 2 never. -/
theorem probe_sequence_differs_from_spec :
    (List.range 3).map (probe_slot (2 ^ 64 - 1) 3) = [0, 0, 1] ∧
      (List.range 3).map (probe_slot_spec (2 ^ 64 - 1) 3) = [0, 1, 2] ∧
      probe_slot (2 ^ 64 - 1) 3 1 = 0 ∧ probe_slot_spec (2 ^ 64 - 1) 3 1 = 1 :=
  ⟨by decide, by decide, by decide, by decide⟩

/-- C13 (the code at the failing input). Table of one slot: after
`2 ^ 31 - 1` calls of `request_slot` the flag has the value `2 ^ 31 - 1`, the
largest `int32_t`; the next `request_slot` returns false and leaves the flag
at `-2 ^ 31`, not at `2 ^ 31`. On a table of 3 slots over 2 processes
`request_slot` on slot 2 indexes `used[2]`, outside the vector. -/
theorem flag_increment_wraps :
    ∃ t1 t2, (HashMap.construct 1 1 blank).request_many 0 (2 ^ 31 - 1) = .ok t1 ∧
      to_int (t1.flagAt 0) = 2 ^ 31 - 1 ∧
      t1.request_slot 0 = .ok (false, t2) ∧
      to_int (t2.flagAt 0) = -2 ^ 31 ∧
      (HashMap.construct 3 2 blank).request_slot 2 = .error .out_of_bounds := by
  have ha : (HashMap.construct 1 1 blank).Addressable := one_slot_addressable rfl rfl (by decide)
  obtain ⟨t1, k1, k2, k3, k4⟩ :=
    request_many_flag (2 ^ 31 - 1) (HashMap.construct 1 1 blank) ha (show 0 < 1 by decide)
  have hf : t1.flagAt 0 = 2 ^ 31 - 1 := by
    rw [k4, flagAt_construct]; decide
  have hs : 0 < t1.total_size := by rw [k3]; decide
  refine ⟨t1, t1.bump 0, k1, ?_, ?_, ?_, rfl⟩
  · rw [hf]; decide
  · rw [request_slot_eq k2 hs, hf]; rfl
  · rw [flagAt_bump, if_pos rfl, hf]; decide

/-- What `request_slot` does on a slot of a table with valid geometry: it
returns whether the flag fetched was zero, adds 1 to that flag modulo
`2 ^ 32`, and leaves every other flag and every record as it was. -/
theorem request_slot_effect {t : HashMap K E} (ha : t.Addressable) {s : Nat}
    (hs : s < t.total_size) :
    ∃ t', t.request_slot s = .ok (t.flagAt s == 0, t') ∧
      t'.flagAt s = (t.flagAt s + 1) % 2 ^ 32 ∧
      (∀ s', s' ≠ s → t'.flagAt s' = t.flagAt s') ∧
      (∀ s', t'.recAt s' = t.recAt s') ∧
      t'.total_size = t.total_size ∧ t'.nprocs = t.nprocs ∧ t'.my_size = t.my_size := by
  refine ⟨t.bump s, request_slot_eq ha hs, ?_, ?_, fun s' => recAt_bump t s s', rfl, rfl, rfl⟩
  · rw [flagAt_bump, if_pos rfl]
  · intro s' hne
    rw [flagAt_bump, if_neg hne]

theorem insert_loop_log_fst (hash : Nat) (k : kmer_pair K E) :
    ∀ (fuel probe : Nat) (t : HashMap K E),
      (HashMap.insert_loop_log hash k t probe fuel).1 = HashMap.insert_loop hash k t probe fuel := by
  intro fuel
  induction fuel with
  | zero => intro probe t; rfl
  | succ fuel ih =>
    intro probe t
    rw [HashMap.insert_loop_log, HashMap.insert_loop]
    split
    · rfl
    · dsimp only
      split
      · rfl
      · split
        · split <;> rfl
        · split
          · exact ih _ _
          · rfl

theorem insert_loop_log_snd (hash : Nat) (k : kmer_pair K E) :
    ∀ (fuel probe : Nat) (t : HashMap K E), probe < t.total_size ∨ t.total_size = 0 →
      ∃ n, n ≤ t.total_size - probe ∧
        (HashMap.insert_loop_log hash k t probe fuel).2 =
          (List.range' probe n).map (probe_slot hash t.total_size) := by
  intro fuel
  induction fuel with
  | zero => intro probe t _; exact ⟨0, Nat.zero_le _, rfl⟩
  | succ fuel ih =>
    intro probe t hp
    rw [HashMap.insert_loop_log]
    split
    · exact ⟨0, Nat.zero_le _, rfl⟩
    · rename_i hne
      have hlt : probe < t.total_size := by omega
      have one : ∃ n, n ≤ t.total_size - probe ∧
          [(hash + probe) % 2 ^ 64 % t.total_size] =
            (List.range' probe n).map (probe_slot hash t.total_size) :=
        ⟨1, by omega, rfl⟩
      dsimp only
      split
      · exact one
      · rename_i b t1 he
        have hts := request_slot_total_size he
        split
        · split <;> exact one
        · split
          · rename_i hnext
            obtain ⟨n, hn, hlog⟩ := ih (probe + 1) t1 (Or.inl (by omega))
            refine ⟨n + 1, by omega, ?_⟩
            rw [hlog, hts, List.range'_succ]
            rfl
          · exact one

theorem find_loop_log_fst [DecidableEq K] (hash : Nat) (key : K) (t : HashMap K E) :
    ∀ (fuel probe : Nat) (val : kmer_pair K E),
      (HashMap.find_loop_log hash key t val probe fuel).1 =
        HashMap.find_loop hash key t val probe fuel := by
  intro fuel
  induction fuel with
  | zero => intro probe val; rfl
  | succ fuel ih =>
    intro probe val
    rw [HashMap.find_loop_log, HashMap.find_loop]
    split
    · rfl
    · dsimp only
      split
      · rfl
      · split
        · rfl
        · split
          · rfl
          · split
            · exact ih _ _
            · rfl
      · split
        · exact ih _ _
        · rfl

theorem find_loop_log_snd [DecidableEq K] (hash : Nat) (key : K) (t : HashMap K E) :
    ∀ (fuel probe : Nat) (val : kmer_pair K E), probe < t.total_size ∨ t.total_size = 0 →
      ∃ n, n ≤ t.total_size - probe ∧
        (HashMap.find_loop_log hash key t val probe fuel).2 =
          (List.range' probe n).map (probe_slot hash t.total_size) := by
  intro fuel
  induction fuel with
  | zero => intro probe val _; exact ⟨0, Nat.zero_le _, rfl⟩
  | succ fuel ih =>
    intro probe val hp
    rw [HashMap.find_loop_log]
    split
    · exact ⟨0, Nat.zero_le _, rfl⟩
    · rename_i hne
      have hlt : probe < t.total_size := by omega
      have one : ∃ n, n ≤ t.total_size - probe ∧
          [(hash + probe) % 2 ^ 64 % t.total_size] =
            (List.range' probe n).map (probe_slot hash t.total_size) :=
        ⟨1, by omega, rfl⟩
      have more : ∀ v : kmer_pair K E, probe + 1 < t.total_size →
          ∃ n, n ≤ t.total_size - probe ∧
            (hash + probe) % 2 ^ 64 % t.total_size ::
                (HashMap.find_loop_log hash key t v (probe + 1) fuel).2 =
              (List.range' probe n).map (probe_slot hash t.total_size) := by
        intro v hnext
        obtain ⟨n, hn, hlog⟩ := ih (probe + 1) v (Or.inl hnext)
        refine ⟨n + 1, by omega, ?_⟩
        rw [hlog, List.range'_succ]
        rfl
      dsimp only
      split
      · exact one
      · split
        · exact one
        · split
          · exact one
          · split
            · rename_i hnext
              exact more _ hnext
            · exact one
      · split
        · rename_i hnext
          exact more _ hnext
        · exact one

/-- C16. For every table state, record and key: the loop of `insert` stops by
itself after at most `total_size` calls of `request_slot`, the loop of `find`
after at most `total_size` calls of `slot_used` (the bound on the iterations
is never what ends them), and the call number `i` of either is on the slot
`(hash + i) % total_size`, so for the same hash both visit the same slot at
the same probe step. -/
theorem shared_termination_bound [DecidableEq K] (hash : K → Nat) (t : HashMap K E)
    (kmer : kmer_pair K E) (key : K) (val : kmer_pair K E) :
    (HashMap.insert_log hash t kmer).1 = HashMap.insert hash t kmer ∧
      (HashMap.find_log hash t key val).1 = HashMap.find hash t key val ∧
      HashMap.insert hash t kmer ≠ .error .out_of_fuel ∧
      HashMap.find hash t key val ≠ .error .out_of_fuel ∧
      ∃ n m, n ≤ t.total_size ∧ m ≤ t.total_size ∧
        (HashMap.insert_log hash t kmer).2 =
          (List.range n).map (probe_slot (hash kmer.kmer % 2 ^ 64) t.total_size) ∧
        (HashMap.find_log hash t key val).2 =
          (List.range m).map (probe_slot (hash key % 2 ^ 64) t.total_size) ∧
        (hash kmer.kmer % 2 ^ 64 = hash key % 2 ^ 64 → ∀ i, i < n → i < m →
          (HashMap.insert_log hash t kmer).2[i]? = (HashMap.find_log hash t key val).2[i]?) := by
  have hp : 0 < t.total_size ∨ t.total_size = 0 := by omega
  obtain ⟨n, hn, hi⟩ := insert_loop_log_snd (hash kmer.kmer % 2 ^ 64) kmer (t.total_size + 1) 0 t hp
  obtain ⟨m, hm, hf⟩ := find_loop_log_snd (hash key % 2 ^ 64) key t (t.total_size + 1) 0 val hp
  rw [← List.range_eq_range'] at hi hf
  refine ⟨insert_loop_log_fst _ _ _ _ _, find_loop_log_fst _ _ _ _ _ _,
    insert_loop_fuel _ _ _ _ _ (by omega) (by omega),
    find_loop_fuel _ _ _ _ _ _ (by omega) (by omega), n, m, by omega, by omega, hi, hf, ?_⟩
  intro he i hin him
  unfold HashMap.insert_log HashMap.find_log
  rw [hi, hf, he, List.getElem?_map, List.getElem?_map, List.getElem?_range hin,
    List.getElem?_range him]

theorem find_loop_st_eq [DecidableEq K] (hash : Nat) (key : K) (t : HashMap K E) :
    ∀ (fuel probe : Nat) (val : kmer_pair K E),
      HashMap.find_loop_st hash key t val probe fuel =
        match HashMap.find_loop hash key t val probe fuel with
        | .ok (b, v) => .ok (b, v, t)
        | .error e => .error e := by
  intro fuel
  induction fuel with
  | zero => intro probe val; rfl
  | succ fuel ih =>
    intro probe val
    rw [HashMap.find_loop_st, HashMap.find_loop]
    split
    · rfl
    · dsimp only
      unfold HashMap.slot_used_st HashMap.slot_used HashMap.read_slot_st HashMap.read_slot
      cases hu : t.getUsedSlotAddr ((hash + probe) % 2 ^ 64 % t.total_size) with
      | error e => rfl
      | ok a =>
        obtain ⟨r, o⟩ := a
        dsimp only
        cases hb : (t.used r o % 2 ^ 32 != 0)
        · dsimp only
          split
          · exact ih _ _
          · rfl
        · dsimp only
          cases hd : t.getSlotAddr ((hash + probe) % 2 ^ 64 % t.total_size) with
          | error e => rfl
          | ok a' =>
            obtain ⟨r', o'⟩ := a'
            dsimp only
            split
            · rfl
            · split
              · exact ih _ _
              · rfl

/-- C17. For every table state and key, `find` run as a sequence of steps on
the shared memory ends with the table it started from (every flag cell and
every record cell of every partition, and the geometry), with the result of
`find`, found or not-found. -/
theorem find_read_only [DecidableEq K] (hash : K → Nat) (t : HashMap K E) (key : K)
    (val : kmer_pair K E) :
    HashMap.find_st hash t key val =
      match HashMap.find hash t key val with
      | .ok (b, v) => .ok (b, v, t)
      | .error e => .error e :=
  find_loop_st_eq _ _ _ _ _ _

theorem flagAt_lt (t : HashMap K E) (s : Nat) : t.flagAt s < 2 ^ 32 :=
  Nat.mod_lt _ (by decide)

theorem visits_succ_left (hash n s p m : Nat) :
    visits hash n s p (m + 1) =
      (if probe_slot hash n p = s then 1 else 0) + visits hash n s (p + 1) m := rfl

theorem insert_loop_first (hash : Nat) (k : kmer_pair K E) :
    ∀ (fuel probe : Nat) (t t' : HashMap K E), t.Addressable → probe < t.total_size →
      HashMap.insert_loop hash k t probe fuel = .ok (true, t') →
      ∃ i, probe ≤ i ∧ i < t.total_size ∧
        t'.recAt (probe_slot hash t.total_size i) = k ∧
        t'.flagAt (probe_slot hash t.total_size i) = 1 ∧
        (∀ s, s ≠ probe_slot hash t.total_size i → t'.recAt s = t.recAt s) ∧
        (∀ s, t'.flagAt s =
          (t.flagAt s + visits hash t.total_size s probe (i - probe + 1)) % 2 ^ 32) ∧
        (t.flagAt (probe_slot hash t.total_size i) +
          visits hash t.total_size (probe_slot hash t.total_size i) probe (i - probe)) % 2 ^ 32 = 0 ∧
        ∀ j, probe ≤ j → j < i →
          (t.flagAt (probe_slot hash t.total_size j) +
            visits hash t.total_size (probe_slot hash t.total_size j) probe (j - probe)) % 2 ^ 32 ≠ 0 := by
  intro fuel
  induction fuel with
  | zero =>
    intro probe t t' _ _ h
    simp [HashMap.insert_loop] at h
  | succ fuel ih =>
    intro probe t t' ha hp h
    rw [insert_loop_succ ha] at h
    by_cases hz : t.flagAt (probe_slot hash t.total_size probe) = 0
    · rw [if_pos hz] at h
      simp only [Except.ok.injEq, Prod.mk.injEq, true_and] at h
      subst h
      refine ⟨probe, le_rfl, hp, ?_, ?_, ?_, ?_, ?_, ?_⟩
      · simp [recAt_put]
      · simp [flagAt_put, flagAt_bump, hz]
      · intro s hs
        simp [recAt_put, recAt_bump, hs]
      · intro s
        have hb := flagAt_lt t s
        rw [flagAt_put, flagAt_bump, Nat.sub_self, visits_succ_left]
        by_cases hss : s = probe_slot hash t.total_size probe
        · subst hss
          simp [visits]
        · rw [if_neg hss, if_neg (fun h => hss h.symm)]
          simp only [visits]
          omega
      · simp [visits, hz]
      · intro j h1 h2
        omega
    · rw [if_neg hz] at h
      by_cases hlt : probe + 1 < t.total_size
      · rw [if_pos hlt] at h
        obtain ⟨i, hi1, hi2, hi3, hi4, hi5, hi6, hi7, hi8⟩ :=
          ih (probe + 1) _ t' (ha.bump _) (by simpa using hlt) h
        simp only [bump_total_size] at hi2 hi3 hi4 hi5 hi6 hi7 hi8
        have conv : ∀ s m, (t.flagAt s + visits hash t.total_size s probe (m + 1)) % 2 ^ 32 =
            ((t.bump (probe_slot hash t.total_size probe)).flagAt s +
              visits hash t.total_size s (probe + 1) m) % 2 ^ 32 := by
          intro s m
          rw [visits_succ_left, flagAt_bump]
          by_cases hss : s = probe_slot hash t.total_size probe
          · subst hss
            rw [if_pos rfl, if_pos rfl]
            omega
          · rw [if_neg hss, if_neg (fun h => hss h.symm)]
            omega
        refine ⟨i, by omega, hi2, hi3, hi4, ?_, ?_, ?_, ?_⟩
        · intro s hs
          rw [hi5 s hs, recAt_bump]
        · intro s
          have e : i - probe + 1 = (i - (probe + 1) + 1) + 1 := by omega
          rw [e, conv, hi6]
        · have e : i - probe = (i - (probe + 1)) + 1 := by omega
          rw [e, conv, hi7]
        · intro j h1 h2
          rcases Nat.eq_or_lt_of_le h1 with rfl | h1'
          · rw [Nat.sub_self]
            simp only [visits, Nat.add_zero]
            rw [Nat.mod_eq_of_lt (flagAt_lt _ _)]
            exact hz
          · have e : j - probe = (j - (probe + 1)) + 1 := by omega
            rw [e, conv]
            exact hi8 j (by omega) h2
      · rw [if_neg hlt] at h
        simp at h

theorem visits_three (hash n s : Nat) :
    ∀ (m p : Nat), 3 ≤ visits hash n s p m →
      ∃ a b c, p ≤ a ∧ a < b ∧ b < c ∧ c < p + m ∧ probe_slot hash n a = s ∧
        probe_slot hash n b = s ∧ probe_slot hash n c = s := by
  intro m
  induction m with
  | zero => intro p h; simp [visits] at h
  | succ m ih =>
    intro p h
    rw [visits] at h
    by_cases hs : probe_slot hash n p = s
    · rw [if_pos hs] at h
      obtain ⟨b, c, h1, h2, h3, h4, h5⟩ := visits_two hash n s m (p + 1) (by omega)
      exact ⟨p, b, c, le_rfl, by omega, h2, by omega, hs, h4, h5⟩
    · rw [if_neg hs] at h
      obtain ⟨a, b, c, h1, h2, h3, h4, h5, h6, h7⟩ := ih (p + 1) (by omega)
      exact ⟨a, b, c, by omega, h2, h3, by omega, h5, h6, h7⟩

theorem visits_le_two {hash n p m : Nat} (s : Nat) (hh : hash < 2 ^ 64) (hn : n ≤ 2 ^ 64)
    (hm : p + m ≤ n) : visits hash n s p m ≤ 2 := by
  by_contra hc
  obtain ⟨a, b, c, h1, h2, h3, h4, h5, h6, h7⟩ := visits_three hash n s m p (by omega)
  have c1 := probe_slot_collision hh hn h2 (by omega) (h5.trans h6.symm)
  have c2 := probe_slot_collision hh hn h3 (by omega) (h6.trans h7.symm)
  omega

theorem first_free_earlier_claimed {hash n : Nat} (flag : Nat → Nat) (i : Nat)
    (h : ∀ j, j < i → (flag (probe_slot hash n j) +
      visits hash n (probe_slot hash n j) 0 j) % 2 ^ 32 ≠ 0) :
    ∀ j, j < i → flag (probe_slot hash n j) ≠ 0 := by
  intro j
  induction j using Nat.strong_induction_on with
  | _ j ih =>
    intro hj hzero
    have hv := h j hj
    rw [hzero, Nat.zero_add] at hv
    have hpos : 1 ≤ visits hash n (probe_slot hash n j) 0 j := by
      rcases Nat.eq_zero_or_pos (visits hash n (probe_slot hash n j) 0 j) with h0 | h0
      · rw [h0] at hv
        exact absurd rfl hv
      · exact h0
    obtain ⟨a, _, ha, hsl⟩ := visits_pos hash n _ j 0 hpos
    have := ih a (by omega) (by omega)
    rw [hsl] at this
    exact this hzero

/-- Where a flag is at the wrap of its counter: with the flag of slot 0 at
`2 ^ 32 - 1` and the hash `2 ^ 64 - 1` (probe steps on slots 0, 0, 1), `insert`
succeeds at step 1 on slot 0, whose flag was not zero before the call, and
overwrites its record, although slot 2 is free. -/
theorem insert_lands_on_claimed_slot :
    (List.range 3).map (probe_slot ((2 ^ 64 - 1) % 2 ^ 64) 3) = [0, 0, 1] ∧
    table_wrap.slot_used 0 = .ok true ∧ table_wrap.read_slot 0 = .ok ⟨9, 9⟩ ∧
    table_wrap.slot_used 2 = .ok false ∧
    HashMap.insert id table_wrap ⟨2 ^ 64 - 1, 5⟩ = .ok (true, table_wrap_after) ∧
    table_wrap_after.read_slot 0 = .ok ⟨2 ^ 64 - 1, 5⟩ :=
  ⟨by decide, rfl, rfl, rfl, rfl, rfl⟩

theorem one_slot_find [DecidableEq K] (hash : K → Nat) {t : HashMap K E} (key : K)
    (val : kmer_pair K E) (h1 : t.total_size = 1) (h2 : t.nprocs = 1) (h3 : 1 ≤ t.my_size) :
    HashMap.find hash t key val =
      if t.flagAt 0 ≠ 0 then
        if (t.recAt 0).kmer = key then .ok (true, t.recAt 0) else .ok (false, t.recAt 0)
      else .ok (false, val) := by
  have ha := one_slot_addressable h1 h2 h3
  have hp : probe_slot (hash key % 2 ^ 64) t.total_size 0 = 0 := by
    rw [h1]; exact Nat.mod_one _
  have hlast : ¬ (0 + 1 < t.total_size) := by omega
  unfold HashMap.find
  rw [find_loop_succ ha, hp]
  simp only [hlast, if_false]

/-- C18 (the code at the failing input). Table of one slot, keys hashed to
themselves: `insert` of (key 0, metadata 0) succeeds; the next `2 ^ 32 - 1`
calls of `insert` with (key 0, metadata 1) fail and wrap the flag to zero, so
`find(0)` returns not-found; one more `insert` of (key 0, metadata 1) succeeds,
and `find(0)` then returns (key 0, metadata 1), the record inserted second. -/
theorem find_returns_later_record :
    ∃ t t', HashMap.insert_all id (HashMap.construct 1 1 blank)
        (⟨0, 0⟩ :: List.replicate (2 ^ 32 - 1) ⟨0, 1⟩) = .ok (t, [⟨0, 0⟩]) ∧
      HashMap.find id t 0 ⟨7, 7⟩ = .ok (false, ⟨7, 7⟩) ∧
      HashMap.insert id t ⟨0, 1⟩ = .ok (true, t') ∧
      HashMap.find id t' 0 ⟨7, 7⟩ = .ok (true, ⟨0, 1⟩) := by
  obtain ⟨t, k1, k2, k3, k4, k5, k6⟩ :=
    one_slot_fill id blank ⟨0, 0⟩ ⟨0, 1⟩ (2 ^ 32 - 1) (by decide)
  have hf : t.flagAt 0 = 0 := by rw [k5]; decide
  have hf' : ((t.bump 0).put 0 (⟨0, 1⟩ : kmer_pair Nat Nat)).flagAt 0 = 1 := by
    rw [flagAt_put, flagAt_bump, if_pos rfl, hf]; decide
  have hr' : ((t.bump 0).put 0 (⟨0, 1⟩ : kmer_pair Nat Nat)).recAt 0 = ⟨0, 1⟩ := by
    rw [recAt_put, if_pos rfl]
  refine ⟨t, (t.bump 0).put 0 ⟨0, 1⟩, k1, ?_, ?_, ?_⟩
  · rw [one_slot_find id 0 _ k2 k3 k4, hf]
    rfl
  · rw [one_slot_insert id _ k2 k3 k4, if_pos hf]
  · rw [one_slot_find id 0 _ (by exact k2) (by exact k3) (by exact k4), hf', hr']
    rfl

/-- C19 (the code at the failing input). Table of one slot: of `2 ^ 32` calls
of `insert` the first returns success and the others fail, and afterwards no
slot is claimed (the flag has wrapped to zero): 0 claimed slots against 1
successful `insert`. -/
theorem claimed_slots_below_successes :
    ∃ t done, HashMap.insert_all id (HashMap.construct 1 1 blank)
        (⟨0, 0⟩ :: List.replicate (2 ^ 32 - 1) ⟨0, 0⟩) = .ok (t, done) ∧
      done.length = 1 ∧ t.slot_used 0 = .ok false ∧ t.claimed_slots = 0 := by
  obtain ⟨t, k1, k2, k3, k4, k5, _⟩ :=
    one_slot_fill id blank ⟨0, 0⟩ ⟨0, 0⟩ (2 ^ 32 - 1) (by decide)
  have ha := one_slot_addressable k2 k3 k4
  have hf : t.flagAt 0 = 0 := by rw [k5]; decide
  have hu : t.slot_used 0 = .ok false := by
    rw [slot_used_eq ha (by omega), hf]; rfl
  refine ⟨t, _, k1, rfl, hu, ?_⟩
  rw [HashMap.claimed_slots, k2, show List.range 1 = [0] from rfl]
  simp only [List.filter, hu]
  rfl

theorem find_loop_earliest [DecidableEq K] (hash : Nat) (key : K) (t : HashMap K E) :
    ∀ (fuel probe : Nat) (val v : kmer_pair K E), probe < t.total_size →
      HashMap.find_loop hash key t val probe fuel = .ok (true, v) →
      ∃ i, probe ≤ i ∧ i < t.total_size ∧
        t.slot_used (probe_slot hash t.total_size i) = .ok true ∧
        t.read_slot (probe_slot hash t.total_size i) = .ok v ∧ v.kmer = key ∧
        ∀ j, probe ≤ j → j < i →
          ¬ (t.slot_used (probe_slot hash t.total_size j) = .ok true ∧
            ∃ w, t.read_slot (probe_slot hash t.total_size j) = .ok w ∧ w.kmer = key) := by
  intro fuel
  induction fuel with
  | zero => intro probe val v _ h; simp [HashMap.find_loop] at h
  | succ fuel ih =>
    intro probe val v hp h
    rw [HashMap.find_loop] at h
    split at h
    · cases h
    · dsimp only at h
      rw [show (hash + probe) % 2 ^ 64 % t.total_size = probe_slot hash t.total_size probe
        from rfl] at h
      have step : ∀ val', ¬ (t.slot_used (probe_slot hash t.total_size probe) = .ok true ∧
          ∃ w, t.read_slot (probe_slot hash t.total_size probe) = .ok w ∧ w.kmer = key) →
          probe + 1 < t.total_size →
          HashMap.find_loop hash key t val' (probe + 1) fuel = .ok (true, v) →
          ∃ i, probe ≤ i ∧ i < t.total_size ∧
            t.slot_used (probe_slot hash t.total_size i) = .ok true ∧
            t.read_slot (probe_slot hash t.total_size i) = .ok v ∧ v.kmer = key ∧
            ∀ j, probe ≤ j → j < i →
              ¬ (t.slot_used (probe_slot hash t.total_size j) = .ok true ∧
                ∃ w, t.read_slot (probe_slot hash t.total_size j) = .ok w ∧ w.kmer = key) := by
        intro val' hnot hnext hrest
        obtain ⟨i, h1, h2, h3, h4, h5, h6⟩ := ih (probe + 1) val' v hnext hrest
        refine ⟨i, by omega, h2, h3, h4, h5, ?_⟩
        intro j hj1 hj2
        rcases Nat.eq_or_lt_of_le hj1 with rfl | hlt
        · exact hnot
        · exact h6 j hlt hj2
      split at h
      · cases h
      · rename_i hu
        split at h
        · cases h
        · rename_i w hw
          split at h
          · rename_i hk
            simp only [Except.ok.injEq, Prod.mk.injEq, true_and] at h
            subst h
            exact ⟨probe, le_rfl, hp, hu, hw, hk, fun j h1 h2 => by omega⟩
          · rename_i hk
            split at h
            · rename_i hnext
              refine step w ?_ hnext h
              rintro ⟨_, w', hw', hk'⟩
              rw [hw] at hw'
              simp only [Except.ok.injEq] at hw'
              exact hk (hw' ▸ hk')
            · simp at h
      · rename_i hu
        split at h
        · rename_i hnext
          refine step val ?_ hnext h
          rintro ⟨hu', _⟩
          rw [hu] at hu'
          simp at hu'
        · simp at h

/-- Whenever `find(K)` returns found, in any table state, the record returned
is the one read at the smallest probe step whose slot is claimed and holds a
record of key `K`. -/
theorem find_returns_earliest_match [DecidableEq K] (hash : K → Nat) (t : HashMap K E) (key : K)
    (val v : kmer_pair K E) (h : HashMap.find hash t key val = .ok (true, v)) :
    ∃ i, i < t.total_size ∧
      t.slot_used (probe_slot (hash key % 2 ^ 64) t.total_size i) = .ok true ∧
      t.read_slot (probe_slot (hash key % 2 ^ 64) t.total_size i) = .ok v ∧ v.kmer = key ∧
      ∀ j, j < i →
        ¬ (t.slot_used (probe_slot (hash key % 2 ^ 64) t.total_size j) = .ok true ∧
          ∃ w, t.read_slot (probe_slot (hash key % 2 ^ 64) t.total_size j) = .ok w ∧
            w.kmer = key) := by
  have hpos : 0 < t.total_size := by
    rcases Nat.eq_zero_or_pos t.total_size with h0 | h0
    · unfold HashMap.find at h
      rw [HashMap.find_loop, if_pos h0] at h
      cases h
    · exact h0
  obtain ⟨i, _, h2, h3, h4, h5, h6⟩ := find_loop_earliest _ key t _ 0 val v hpos h
  exact ⟨i, h2, h3, h4, h5, fun j hj => h6 j (Nat.zero_le j) hj⟩

/-- The divisor `total_size / nprocs` of the addressing is nonzero exactly
when there are at least as many slots as processes. -/
theorem divisor_pos_iff (t : HashMap K E) (hnp : 0 < t.nprocs) :
    0 < t.total_size / t.nprocs ↔ t.nprocs ≤ t.total_size := by
  constructor
  · intro h
    by_contra hlt
    rw [Nat.div_eq_of_lt (by omega)] at h
    exact absurd h (by decide)
  · exact fun h => Nat.div_pos h hnp

/-- The pointers `getSlotAddr` and `getUsedSlotAddr` compute for a slot have
the same rank and offset. -/
theorem getSlotAddr_eq_getUsedSlotAddr (t : HashMap K E) (s : Nat) :
    t.getSlotAddr s = t.getUsedSlotAddr s := rfl

/-- On a table with valid geometry two different slots have different cells. -/
theorem getSlotAddr_injective {t : HashMap K E} (ha : t.Addressable) {s s' : Nat}
    (hs : s < t.total_size) (hs' : s' < t.total_size)
    (h : t.getSlotAddr s = t.getSlotAddr s') : s = s' := by
  rw [getSlotAddr_eq ha hs, getSlotAddr_eq ha hs'] at h
  simp only [Except.ok.injEq, Prod.mk.injEq] at h
  exact (cell_eq_iff s' s).mp h

/-- Where `hash + probe` does not wrap, the slot the code computes is the
specified one. -/
theorem probe_slot_eq_spec {hash total_size probe : Nat} (h : hash + probe < 2 ^ 64) :
    probe_slot hash total_size probe = probe_slot_spec hash total_size probe := by
  unfold probe_slot probe_slot_spec
  rw [Nat.mod_eq_of_lt h, Nat.mod_add_mod]

/-- Where `hash + total_size` does not wrap, the first `total_size` probe
steps visit different slots. -/
theorem probe_slot_injective {hash total_size a b : Nat} (h : hash + total_size ≤ 2 ^ 64)
    (ha : a < total_size) (hb : b < total_size)
    (he : probe_slot hash total_size a = probe_slot hash total_size b) : a = b := by
  rcases Nat.lt_trichotomy a b with hlt | heq | hgt
  · have := probe_slot_collision (by omega) (by omega) hlt hb he
    omega
  · exact heq
  · have := probe_slot_collision (by omega) (by omega) hgt ha he.symm
    omega

/-- Where `hash + total_size` does not wrap, every slot is visited by one of
the first `total_size` probe steps. -/
theorem probe_slot_surjective {hash total_size s : Nat} (h : hash + total_size ≤ 2 ^ 64)
    (hs : s < total_size) : ∃ i, i < total_size ∧ probe_slot hash total_size i = s := by
  have hr : hash % total_size < total_size := Nat.mod_lt _ (by omega)
  by_cases hle : hash % total_size ≤ s
  · refine ⟨s - hash % total_size, by omega, ?_⟩
    rw [probe_slot_eq_spec (by omega)]
    unfold probe_slot_spec
    rw [Nat.add_sub_cancel' hle, Nat.mod_eq_of_lt hs]
  · refine ⟨s + total_size - hash % total_size, by omega, ?_⟩
    rw [probe_slot_eq_spec (by omega)]
    unfold probe_slot_spec
    have e : hash % total_size + (s + total_size - hash % total_size) = s + total_size := by
      omega
    rw [e, Nat.add_mod_right, Nat.mod_eq_of_lt hs]

theorem insert_loop_flags (hash : Nat) (k : kmer_pair K E) :
    ∀ (fuel probe : Nat) (t : HashMap K E) (b : Bool) (t' : HashMap K E), t.Addressable →
      probe < t.total_size → HashMap.insert_loop hash k t probe fuel = .ok (b, t') →
      ∃ n, probe + n ≤ t.total_size ∧
        ∀ s, t'.flagAt s = (t.flagAt s + visits hash t.total_size s probe n) % 2 ^ 32 := by
  intro fuel
  induction fuel with
  | zero =>
    intro probe t b t' _ _ h
    simp [HashMap.insert_loop] at h
  | succ fuel ih =>
    intro probe t b t' ha hp h
    rw [insert_loop_succ ha] at h
    have one : ∀ s, (t.bump (probe_slot hash t.total_size probe)).flagAt s =
        (t.flagAt s + visits hash t.total_size s probe 1) % 2 ^ 32 := by
      intro s
      have hb := flagAt_lt t s
      rw [flagAt_bump, visits_succ_left]
      by_cases hss : s = probe_slot hash t.total_size probe
      · subst hss
        simp [visits]
      · rw [if_neg hss, if_neg (fun h => hss h.symm)]
        simp only [visits]
        omega
    by_cases hz : t.flagAt (probe_slot hash t.total_size probe) = 0
    · rw [if_pos hz] at h
      simp only [Except.ok.injEq, Prod.mk.injEq] at h
      obtain ⟨_, rfl⟩ := h
      exact ⟨1, by omega, fun s => by rw [flagAt_put]; exact one s⟩
    · rw [if_neg hz] at h
      by_cases hlt : probe + 1 < t.total_size
      · rw [if_pos hlt] at h
        obtain ⟨n, hn, hall⟩ := ih (probe + 1) _ b t' (ha.bump _) (by simpa using hlt) h
        simp only [bump_total_size] at hn hall
        refine ⟨n + 1, by omega, fun s => ?_⟩
        rw [hall s, visits_succ_left, flagAt_bump]
        by_cases hss : s = probe_slot hash t.total_size probe
        · subst hss
          rw [if_pos rfl, if_pos rfl]
          omega
        · rw [if_neg hss, if_neg (fun h => hss h.symm)]
          omega
      · rw [if_neg hlt] at h
        simp only [Except.ok.injEq, Prod.mk.injEq] at h
        obtain ⟨_, rfl⟩ := h
        exact ⟨1, by omega, one⟩

theorem visits_zero_of_not_visited (hash n s : Nat) :
    ∀ (m p : Nat), (∀ a, p ≤ a → a < p + m → probe_slot hash n a ≠ s) →
      visits hash n s p m = 0 := by
  intro m p h
  rcases Nat.eq_zero_or_pos (visits hash n s p m) with h0 | h0
  · exact h0
  · obtain ⟨a, h1, h2, h3⟩ := visits_pos hash n s m p h0
    exact absurd h3 (h a h1 h2)

/-- One `insert` on a table with valid geometry whose flags are all at most
`c`, with `c + 2 < 2 ^ 32`: what the call changes. A failed call changes no
record and no claimed-or-free status; a successful one claims one slot that was
free, the first free one in probe order, writes the record there and changes
nothing else. Every flag grows by at most 2. -/
theorem insert_without_wrap (hash : K → Nat) {t t1 : HashMap K E} {b : Bool} {c : Nat}
    (R : kmer_pair K E) (ha : t.Addressable) (hc : c + 2 < 2 ^ 32)
    (hbound : ∀ s, s < t.total_size → t.flagAt s ≤ c)
    (hins : HashMap.insert hash t R = .ok (b, t1)) :
    t1.Addressable ∧ t1.total_size = t.total_size ∧
      (∀ s, s < t.total_size → t1.flagAt s ≤ c + 2) ∧
      (∀ s, s < t.total_size → t.flagAt s ≠ 0 → t1.flagAt s ≠ 0 ∧ t1.recAt s = t.recAt s) ∧
      (b = false → ∀ s, s < t.total_size → t1.flagAt s ≠ 0 → t.flagAt s ≠ 0) ∧
      (b = true → ∃ i, i < t.total_size ∧
        t.flagAt (probe_slot (hash R.kmer % 2 ^ 64) t.total_size i) = 0 ∧
        t1.flagAt (probe_slot (hash R.kmer % 2 ^ 64) t.total_size i) ≠ 0 ∧
        t1.recAt (probe_slot (hash R.kmer % 2 ^ 64) t.total_size i) = R ∧
        (∀ j, j < i → t.flagAt (probe_slot (hash R.kmer % 2 ^ 64) t.total_size j) ≠ 0) ∧
        (∀ s, s < t.total_size → s ≠ probe_slot (hash R.kmer % 2 ^ 64) t.total_size i →
          t1.flagAt s ≠ 0 → t.flagAt s ≠ 0)) := by
  have hh : hash R.kmer % 2 ^ 64 < 2 ^ 64 := Nat.mod_lt _ (by decide)
  have hn : t.total_size ≤ 2 ^ 64 := le_trans ha.size_le (by decide)
  obtain ⟨⟨g1, g2, g3⟩, hspec2, hspec3, _⟩ :=
    insert_loop_spec _ _ _ _ _ _ _ ha ha.size_pos hins
  obtain ⟨n, hn', hall⟩ := insert_loop_flags _ _ _ _ _ _ _ ha ha.size_pos hins
  have hgrow : ∀ s, s < t.total_size →
      t1.flagAt s = t.flagAt s + visits (hash R.kmer % 2 ^ 64) t.total_size s 0 n ∧
      visits (hash R.kmer % 2 ^ 64) t.total_size s 0 n ≤ 2 := by
    intro s hs
    have h2 := visits_le_two s hh hn hn'
    have := hbound s hs
    rw [hall s, Nat.mod_eq_of_lt (by omega)]
    exact ⟨rfl, h2⟩
  refine ⟨ha.of_geometry g1 g2 g3, g1, ?_, ?_, ?_, ?_⟩
  · intro s hs
    have := hgrow s hs
    have := hbound s hs
    omega
  · intro s hs hne
    refine ⟨by have := hgrow s hs; omega, ?_⟩
    cases b with
    | false => exact hspec3 rfl s
    | true =>
      obtain ⟨i, _, hi, _, _, hframe, _, hzero, _⟩ :=
        insert_loop_first _ _ _ _ _ _ ha ha.size_pos hins
      apply hframe
      rintro rfl
      have hv1 := visits_le_one hh hn hi (Nat.zero_le i)
      have := hbound _ hs
      rw [Nat.mod_eq_of_lt (by omega)] at hzero
      omega
  · rintro rfl s hs hne
    rcases hspec2 s hne with ⟨h, _⟩ | ⟨h, _⟩
    · cases h
    · exact h
  · rintro rfl
    obtain ⟨i, _, hi, hrec, hflag, hframe, hall', hzero, hearlier⟩ :=
      insert_loop_first _ _ _ _ _ _ ha ha.size_pos hins
    have hsl : ∀ j, probe_slot (hash R.kmer % 2 ^ 64) t.total_size j < t.total_size :=
      fun j => probe_slot_lt _ j ha.size_pos
    have hv1 := visits_le_one hh hn hi (Nat.zero_le i)
    have hfi : t.flagAt (probe_slot (hash R.kmer % 2 ^ 64) t.total_size i) = 0 := by
      have := hbound _ (hsl i)
      rw [Nat.mod_eq_of_lt (by omega)] at hzero
      omega
    have hclaimed := first_free_earlier_claimed t.flagAt i
      (fun j hj => by simpa using hearlier j (Nat.zero_le j) hj)
    refine ⟨i, hi, hfi, by rw [hflag]; decide, hrec, hclaimed, ?_⟩
    intro s hs hsne hne hzero'
    apply hne
    have hvis : visits (hash R.kmer % 2 ^ 64) t.total_size s 0 (i - 0 + 1) = 0 := by
      apply visits_zero_of_not_visited
      intro a _ ha2 he
      rcases Nat.eq_or_lt_of_le (show a ≤ i by omega) with rfl | hlt
      · exact hsne he.symm
      · exact hclaimed a hlt (he ▸ hzero')
    rw [hall' s, hzero', hvis]
    rfl

theorem filled_construct [DecidableEq K] (hash : K → Nat) (size nprocs : Nat)
    (cells : Nat → Nat → kmer_pair K E) : (HashMap.construct size nprocs cells).Filled hash [] 0 := by
  refine ⟨List.nodup_nil, ?_, ?_, ?_, ?_⟩
  · intro s _
    simp [flagAt_construct]
  · intro p hp
    cases hp
  · intro s _
    rw [flagAt_construct]
  · intro key r h
    simp at h

theorem filled_insert [DecidableEq K] (hash : K → Nat) {t t1 : HashMap K E} {b : Bool} {c : Nat}
    {placed : List (Nat × kmer_pair K E)} (R : kmer_pair K E) (ha : t.Addressable)
    (hc : c + 2 < 2 ^ 32) (hf : t.Filled hash placed c)
    (hins : HashMap.insert hash t R = .ok (b, t1)) :
    t1.Addressable ∧ t1.total_size = t.total_size ∧
      ∃ placed', t1.Filled hash placed' (c + 2) ∧
        placed'.map Prod.snd = placed.map Prod.snd ++ (if b then [R] else []) := by
  obtain ⟨ha1, g1, hb2, hkeep, hfail, hsucc⟩ := insert_without_wrap hash R ha hc hf.bound hins
  refine ⟨ha1, g1, ?_⟩
  -- the first record of a key that was placed before stays where it is
  have hfirst_old : ∀ key r,
      (placed.map Prod.snd).find? (fun x => decide (x.kmer = key)) = some r →
      ∃ i, i < t1.total_size ∧
        t1.flagAt (probe_slot (hash key % 2 ^ 64) t1.total_size i) ≠ 0 ∧
        t1.recAt (probe_slot (hash key % 2 ^ 64) t1.total_size i) = r ∧
        ∀ j, j < i → t1.flagAt (probe_slot (hash key % 2 ^ 64) t1.total_size j) ≠ 0 ∧
          (t1.recAt (probe_slot (hash key % 2 ^ 64) t1.total_size j)).kmer ≠ key := by
    intro key r hfind
    obtain ⟨i, hi, h1, h2, h3⟩ := hf.first key r hfind
    have hsl : ∀ j, probe_slot (hash key % 2 ^ 64) t.total_size j < t.total_size :=
      fun j => probe_slot_lt _ j ha.size_pos
    rw [g1]
    refine ⟨i, hi, (hkeep _ (hsl i) h1).1, by rw [(hkeep _ (hsl i) h1).2, h2], ?_⟩
    intro j hj
    obtain ⟨h4, h5⟩ := h3 j hj
    exact ⟨(hkeep _ (hsl j) h4).1, by rw [(hkeep _ (hsl j) h4).2]; exact h5⟩
  cases b with
  | false =>
    refine ⟨placed, ⟨hf.nodup, ?_, ?_, ?_, hfirst_old⟩, by simp⟩
    · intro s hs
      rw [g1] at hs
      constructor
      · exact fun h => (hf.claimed s hs).mp (hfail rfl s hs h)
      · exact fun h => (hkeep s hs ((hf.claimed s hs).mpr h)).1
    · intro p hp
      obtain ⟨h1, h2⟩ := hf.holds p hp
      have hcl : t.flagAt p.1 ≠ 0 :=
        (hf.claimed p.1 h1).mpr (List.mem_map_of_mem Prod.fst hp)
      exact ⟨by rw [g1]; exact h1, by rw [(hkeep _ h1 hcl).2, h2]⟩
    · intro s hs
      rw [g1] at hs
      exact hb2 s hs
  | true =>
    obtain ⟨i, hi, hzero, hnz, hrec, hearlier, hothers⟩ := hsucc rfl
    have hsl : ∀ j, probe_slot (hash R.kmer % 2 ^ 64) t.total_size j < t.total_size :=
      fun j => probe_slot_lt _ j ha.size_pos
    have hnew : probe_slot (hash R.kmer % 2 ^ 64) t.total_size i ∉ placed.map Prod.fst :=
      fun h => (hf.claimed _ (hsl i)).mpr h hzero
    refine ⟨placed ++ [(probe_slot (hash R.kmer % 2 ^ 64) t.total_size i, R)],
      ⟨?_, ?_, ?_, ?_, ?_⟩, by simp⟩
    · rw [List.map_append, List.nodup_append]
      refine ⟨hf.nodup, by simp, ?_⟩
      intro a ha1 ha2
      simp only [List.map_cons, List.map_nil, List.mem_singleton] at ha2
      exact hnew (ha2 ▸ ha1)
    · intro s hs
      rw [g1] at hs
      simp only [List.map_append, List.map_cons, List.map_nil, List.mem_append,
        List.mem_singleton]
      constructor
      · intro h
        by_cases hs' : s = probe_slot (hash R.kmer % 2 ^ 64) t.total_size i
        · exact Or.inr hs'
        · exact Or.inl ((hf.claimed s hs).mp (hothers s hs hs' h))
      · rintro (h | h)
        · exact (hkeep s hs ((hf.claimed s hs).mpr h)).1
        · rw [h]; exact hnz
    · intro p hp
      rw [List.mem_append, List.mem_singleton] at hp
      rcases hp with hp | rfl
      · obtain ⟨h1, h2⟩ := hf.holds p hp
        have hcl : t.flagAt p.1 ≠ 0 :=
          (hf.claimed p.1 h1).mpr (List.mem_map_of_mem Prod.fst hp)
        exact ⟨by rw [g1]; exact h1, by rw [(hkeep _ h1 hcl).2, h2]⟩
      · exact ⟨by rw [g1]; exact hsl i, hrec⟩
    · intro s hs
      rw [g1] at hs
      exact hb2 s hs
    · intro key r hfind
      rw [List.map_append, List.find?_append] at hfind
      cases hold : (placed.map Prod.snd).find? (fun x => decide (x.kmer = key)) with
      | some r' =>
        rw [hold] at hfind
        simp only [Option.or, Option.some.injEq] at hfind
        subst hfind
        exact hfirst_old key r' hold
      | none =>
        rw [hold] at hfind
        simp only [Option.or, List.map_cons, List.map_nil, List.find?_cons,
          List.find?_nil] at hfind
        by_cases hk : R.kmer = key
        · simp only [hk, decide_True, Option.some.injEq] at hfind
          subst hfind
          subst hk
          rw [List.find?_eq_none] at hold
          rw [g1]
          refine ⟨i, hi, hnz, hrec, ?_⟩
          intro j hj
          have hcl := hearlier j hj
          obtain ⟨h4, h5⟩ := hkeep _ (hsl j) hcl
          refine ⟨h4, ?_⟩
          rw [h5]
          obtain ⟨p, hp, hpe⟩ := List.mem_map.mp ((hf.claimed _ (hsl j)).mp hcl)
          have hrp := (hf.holds p hp).2
          rw [hpe] at hrp
          rw [hrp]
          have := hold p.2 (List.mem_map_of_mem Prod.snd hp)
          simpa using this
        · simp [hk] at hfind

theorem filled_insert_all [DecidableEq K] (hash : K → Nat) :
    ∀ (rs : List (kmer_pair K E)) (t t' : HashMap K E) (done : List (kmer_pair K E))
      (placed : List (Nat × kmer_pair K E)) (c : Nat), t.Addressable → t.Filled hash placed c →
      c + 2 * rs.length < 2 ^ 32 → HashMap.insert_all hash t rs = .ok (t', done) →
      t'.Addressable ∧ t'.total_size = t.total_size ∧
        ∃ placed', t'.Filled hash placed' (c + 2 * rs.length) ∧
          placed'.map Prod.snd = placed.map Prod.snd ++ done := by
  intro rs
  induction rs with
  | nil =>
    intro t t' done placed c ha hf _ h
    simp only [HashMap.insert_all, Except.ok.injEq, Prod.mk.injEq] at h
    obtain ⟨rfl, rfl⟩ := h
    exact ⟨ha, rfl, placed, by simpa using hf, by simp⟩
  | cons r rs ih =>
    intro t t' done placed c ha hf hc h
    rw [HashMap.insert_all] at h
    split at h
    · cases h
    · rename_i b t1 h1
      split at h
      · cases h
      · rename_i t2 done2 h2
        simp only [Except.ok.injEq, Prod.mk.injEq] at h
        obtain ⟨rfl, rfl⟩ := h
        simp only [List.length_cons] at hc ⊢
        obtain ⟨ha1, g1, placed1, hf1, hp1⟩ := filled_insert hash r ha (by omega) hf h1
        obtain ⟨ha2, g2, placed2, hf2, hp2⟩ := ih t1 t2 done2 placed1 (c + 2) ha1 hf1 (by omega) h2
        refine ⟨ha2, g2.trans g1, placed2, ?_, ?_⟩
        · have e : c + 2 * (rs.length + 1) = c + 2 + 2 * rs.length := by omega
          rw [e]; exact hf2
        · rw [hp2, hp1]
          cases b <;> simp

theorem claimed_slots_eq_length [DecidableEq K] (hash : K → Nat) {t : HashMap K E} {c : Nat}
    {placed : List (Nat × kmer_pair K E)} (ha : t.Addressable) (hf : t.Filled hash placed c) :
    t.claimed_slots = placed.length := by
  have hperm : List.Perm ((List.range t.total_size).filter fun s =>
      match t.slot_used s with
      | .ok true => true
      | _ => false) (placed.map Prod.fst) := by
    rw [List.perm_ext_iff_of_nodup (List.Nodup.filter _ (List.nodup_range _)) hf.nodup]
    intro s
    rw [List.mem_filter, List.mem_range]
    constructor
    · rintro ⟨hs, hu⟩
      rw [slot_used_eq ha hs] at hu
      apply (hf.claimed s hs).mp
      intro hz
      rw [hz] at hu
      cases hu
    · intro hmem
      obtain ⟨p, hp, rfl⟩ := List.mem_map.mp hmem
      have hs := (hf.holds p hp).1
      refine ⟨hs, ?_⟩
      have hne := (hf.claimed p.1 hs).mpr hmem
      rw [slot_used_eq ha hs]
      have : (t.flagAt p.1 != 0) = true := by simpa using hne
      rw [this]
  rw [HashMap.claimed_slots, hperm.length_eq, List.length_map]

/-- As long as the flags cannot wrap (fewer than `2 ^ 31` calls of `insert`),
on a table with valid geometry filled from the empty table: the number of
claimed slots is the number of `insert` calls that returned success, and the
claimed slots are exactly the slots of a list `placed` that pairs, in the
order of the calls, each record inserted successfully with a slot of its own,
which holds that record. -/
theorem claimed_slots_eq_successes [DecidableEq K] (hash : K → Nat) (size nprocs : Nat)
    (cells : Nat → Nat → kmer_pair K E) (rs done : List (kmer_pair K E)) (t : HashMap K E)
    (hnp : 0 < nprocs) (hnp' : nprocs ≤ 2 ^ 31) (hsize : 0 < size) (hdvd : nprocs ∣ size)
    (hper : size / nprocs ≤ 2 ^ 31) (hlen : rs.length < 2 ^ 31)
    (hreach : HashMap.insert_all hash (HashMap.construct size nprocs cells) rs = .ok (t, done)) :
    t.claimed_slots = done.length ∧
      ∃ placed : List (Nat × kmer_pair K E), placed.map Prod.snd = done ∧
        (placed.map Prod.fst).Nodup ∧
        (∀ s, s < size → (t.slot_used s = .ok true ↔ s ∈ placed.map Prod.fst)) ∧
        ∀ p, p ∈ placed → t.read_slot p.1 = .ok p.2 := by
  obtain ⟨ha, g, placed, hf, hp⟩ := filled_insert_all hash rs _ t done [] 0
    (construct_addressable size nprocs cells hnp hnp' hsize hdvd hper)
    (filled_construct hash size nprocs cells) (by omega) hreach
  have g : t.total_size = size := g
  simp only [List.map_nil, List.nil_append] at hp
  refine ⟨?_, placed, hp, hf.nodup, ?_, ?_⟩
  · rw [claimed_slots_eq_length hash ha hf, ← hp, List.length_map]
  · intro s hs
    rw [← g] at hs
    rw [slot_used_eq ha hs, ← hf.claimed s hs]
    simp
  · intro p hpm
    obtain ⟨h1, h2⟩ := hf.holds p hpm
    rw [read_slot_eq ha h1, h2]

/-- As long as the flags cannot wrap (fewer than `2 ^ 31` calls of `insert`),
on a table with valid geometry filled from the empty table, `find(K)` returns
the first of the successfully inserted records that has the key `K`. -/
theorem find_returns_first_inserted [DecidableEq K] (hash : K → Nat) (size nprocs : Nat)
    (cells : Nat → Nat → kmer_pair K E) (rs done : List (kmer_pair K E)) (t : HashMap K E)
    (key : K) (r val : kmer_pair K E)
    (hnp : 0 < nprocs) (hnp' : nprocs ≤ 2 ^ 31) (hsize : 0 < size) (hdvd : nprocs ∣ size)
    (hper : size / nprocs ≤ 2 ^ 31) (hlen : rs.length < 2 ^ 31)
    (hreach : HashMap.insert_all hash (HashMap.construct size nprocs cells) rs = .ok (t, done))
    (hfirst : done.find? (fun x => decide (x.kmer = key)) = some r) :
    HashMap.find hash t key val = .ok (true, r) := by
  obtain ⟨ha, g, placed, hf, hp⟩ := filled_insert_all hash rs _ t done [] 0
    (construct_addressable size nprocs cells hnp hnp' hsize hdvd hper)
    (filled_construct hash size nprocs cells) (by omega) hreach
  simp only [List.map_nil, List.nil_append] at hp
  rw [← hp] at hfirst
  obtain ⟨i, hi, h1, h2, h3⟩ := hf.first key r hfirst
  have hk : r.kmer = key := by
    have := List.find?_some hfirst
    simpa using this
  obtain ⟨j, _, hj, _, hjk, hfind⟩ :=
    find_loop_found (hash key % 2 ^ 64) key ha hi h1 (by rw [h2]; exact hk)
      (t.total_size + 1) 0 val (Nat.zero_le _) (by omega)
  rcases Nat.eq_or_lt_of_le hj with rfl | hlt
  · rw [h2] at hfind
    exact hfind
  · exact absurd hjk (h3 j hlt).2

theorem getSlotAddr_geometry {t u : HashMap K E} (h1 : u.total_size = t.total_size)
    (h2 : u.nprocs = t.nprocs) (h3 : u.my_size = t.my_size) (s : Nat) :
    u.getSlotAddr s = t.getSlotAddr s := by
  unfold HashMap.getSlotAddr
  rw [h1, h2, h3]

theorem request_slot_cases {t t1 : HashMap K E} {s : Nat} {b : Bool}
    (h : t.request_slot s = .ok (b, t1)) :
    ∃ r o, t.getSlotAddr s = .ok (r, o) ∧ b = (t.used r o % 2 ^ 32 == 0) ∧
      t1 = { t with used := store t.used r o ((t.used r o + 1) % 2 ^ 32) } := by
  unfold HashMap.request_slot at h
  rw [← getSlotAddr_eq_getUsedSlotAddr] at h
  cases ha : t.getSlotAddr s with
  | error e => rw [ha] at h; cases h
  | ok a =>
    obtain ⟨r, o⟩ := a
    rw [ha] at h
    simp only [Except.ok.injEq, Prod.mk.injEq] at h
    exact ⟨r, o, rfl, h.1.symm, h.2.symm⟩

theorem write_slot_cases {t t2 : HashMap K E} {s : Nat} {k : kmer_pair K E}
    (h : t.write_slot s k = .ok t2) :
    ∃ r o, t.getSlotAddr s = .ok (r, o) ∧ t2 = { t with data := store t.data r o k } := by
  unfold HashMap.write_slot at h
  cases ha : t.getSlotAddr s with
  | error e => rw [ha] at h; cases h
  | ok a =>
    obtain ⟨r, o⟩ := a
    rw [ha] at h
    simp only [Except.ok.injEq] at h
    exact ⟨r, o, rfl, h.symm⟩

theorem store_apply {α : Type} (m : Nat → Nat → α) (r o : Nat) (v : α) (r' o' : Nat) :
    store m r o v r' o' = if r' = r ∧ o' = o then v else m r' o' := rfl

theorem insert_loop_cells (hash : Nat) (k : kmer_pair K E) :
    ∀ (fuel probe : Nat) (t : HashMap K E) (b : Bool) (t' : HashMap K E),
      probe < t.total_size → HashMap.insert_loop hash k t probe fuel = .ok (b, t') →
      (t'.total_size = t.total_size ∧ t'.nprocs = t.nprocs ∧ t'.my_size = t.my_size) ∧
      (∀ r o, t'.used r o % 2 ^ 32 ≠ 0 →
        (b = true ∧ t'.data r o = k) ∨ (t.used r o % 2 ^ 32 ≠ 0 ∧ t'.data r o = t.data r o)) ∧
      (b = true → ∃ i r o, probe ≤ i ∧ i < t.total_size ∧
        t.getSlotAddr (probe_slot hash t.total_size i) = .ok (r, o) ∧
        t'.used r o % 2 ^ 32 ≠ 0 ∧ t'.data r o = k ∧
        ∀ j, probe ≤ j → j ≤ i → ∃ c, t.getSlotAddr (probe_slot hash t.total_size j) = .ok c) := by
  intro fuel
  induction fuel with
  | zero =>
    intro probe t b t' _ h
    simp [HashMap.insert_loop] at h
  | succ fuel ih =>
    intro probe t b t' hp h
    rw [HashMap.insert_loop] at h
    split at h
    · cases h
    · dsimp only at h
      rw [show (hash + probe) % 2 ^ 64 % t.total_size = probe_slot hash t.total_size probe
        from rfl] at h
      split at h
      · cases h
      · rename_i success t1 hreq
        obtain ⟨r, o, haddr, hsucc, rfl⟩ := request_slot_cases hreq
        split at h
        · rename_i hs
          split at h
          · cases h
          · rename_i t2 hw
            obtain ⟨r', o', haddr', rfl⟩ := write_slot_cases hw
            have e : (r', o') = (r, o) := by
              have := haddr'.symm.trans
                ((getSlotAddr_geometry (t := t) rfl rfl rfl _).trans haddr)
              simpa using this
            simp only [Prod.mk.injEq] at e
            obtain ⟨rfl, rfl⟩ := e
            simp only [Except.ok.injEq, Prod.mk.injEq] at h
            obtain ⟨rfl, rfl⟩ := h
            refine ⟨⟨rfl, rfl, rfl⟩, ?_, fun _ => ⟨probe, r', o', le_rfl, hp, haddr, ?_, ?_, ?_⟩⟩
            · intro r o hne
              by_cases hc : r = r' ∧ o = o'
              · left
                obtain ⟨rfl, rfl⟩ := hc
                exact ⟨rfl, by simp [store_apply]⟩
              · right
                simp only [store_apply, if_neg hc] at hne ⊢
                exact ⟨hne, trivial⟩
            · rw [hs] at hsucc
              have hz : t.used r' o' % 2 ^ 32 = 0 := by simpa using hsucc.symm
              simp only [store_apply, and_self, if_true]
              omega
            · simp [store_apply]
            · intro j h1 h2
              have : j = probe := by omega
              subst this
              exact ⟨_, haddr⟩
        · rename_i hs
          have hnz : t.used r o % 2 ^ 32 ≠ 0 := by
            intro hz
            rw [hz] at hsucc
            exact hs (by rw [hsucc]; rfl)
          have keep : ∀ r' o', (store t.used r o ((t.used r o + 1) % 2 ^ 32)) r' o' % 2 ^ 32 ≠ 0 →
              t.used r' o' % 2 ^ 32 ≠ 0 := by
            intro r' o' hne
            by_cases hc : r' = r ∧ o' = o
            · obtain ⟨rfl, rfl⟩ := hc
              exact hnz
            · simpa only [store_apply, if_neg hc] using hne
          split at h
          · rename_i hnext
            obtain ⟨g, h2, h3⟩ := ih (probe + 1)
              { t with used := store t.used r o ((t.used r o + 1) % 2 ^ 32) } b t' hnext h
            refine ⟨g, ?_, ?_⟩
            · intro r' o' hne
              rcases h2 r' o' hne with h2 | ⟨h2, h2'⟩
              · exact Or.inl h2
              · exact Or.inr ⟨keep r' o' h2, h2'⟩
            · intro hb
              obtain ⟨i, r', o', hi1, hi2, hi3, hi4, hi5, hi6⟩ := h3 hb
              refine ⟨i, r', o', by omega, hi2, hi3, hi4, hi5, ?_⟩
              intro j h1 h2
              rcases Nat.eq_or_lt_of_le h1 with rfl | hlt
              · exact ⟨_, haddr⟩
              · exact hi6 j hlt h2
          · simp only [Except.ok.injEq, Prod.mk.injEq] at h
            obtain ⟨rfl, rfl⟩ := h
            refine ⟨⟨rfl, rfl, rfl⟩, ?_, by simp⟩
            intro r' o' hne
            exact Or.inr ⟨keep r' o' hne, rfl⟩

theorem find_loop_cells_found [DecidableEq K] (hash : Nat) (key : K) {t : HashMap K E} {i r o : Nat}
    (hi : i < t.total_size)
    (haddr : t.getSlotAddr (probe_slot hash t.total_size i) = .ok (r, o))
    (hflag : t.used r o % 2 ^ 32 ≠ 0) (hkey : (t.data r o).kmer = key) :
    ∀ (fuel probe : Nat) (val : kmer_pair K E), probe ≤ i → i < probe + fuel →
      (∀ j, probe ≤ j → j ≤ i → ∃ c, t.getSlotAddr (probe_slot hash t.total_size j) = .ok c) →
      ∃ r' o', t.used r' o' % 2 ^ 32 ≠ 0 ∧ (t.data r' o').kmer = key ∧
        HashMap.find_loop hash key t val probe fuel = .ok (true, t.data r' o') := by
  intro fuel
  induction fuel with
  | zero => intro probe val h1 h2; omega
  | succ fuel ih =>
    intro probe val h1 h2 hall
    obtain ⟨⟨r1, o1⟩, hc⟩ := hall probe le_rfl h1
    have hne : t.total_size ≠ 0 := by omega
    have hused : t.slot_used (probe_slot hash t.total_size probe) =
        .ok (t.used r1 o1 % 2 ^ 32 != 0) := by
      unfold HashMap.slot_used
      rw [← getSlotAddr_eq_getUsedSlotAddr, hc]
    have hread : t.read_slot (probe_slot hash t.total_size probe) = .ok (t.data r1 o1) := by
      unfold HashMap.read_slot
      rw [hc]
    have hrest : ∀ val', probe ≠ i → ∃ r' o', t.used r' o' % 2 ^ 32 ≠ 0 ∧
        (t.data r' o').kmer = key ∧
        (if probe + 1 < t.total_size then HashMap.find_loop hash key t val' (probe + 1) fuel
          else .ok (false, val')) = .ok (true, t.data r' o') := by
      intro val' hpi
      have hlt : probe + 1 < t.total_size := by omega
      rw [if_pos hlt]
      exact ih (probe + 1) val' (by omega) (by omega)
        (fun j hj1 hj2 => hall j (by omega) hj2)
    rw [HashMap.find_loop]
    simp only [hne, if_false]
    rw [show (hash + probe) % 2 ^ 64 % t.total_size = probe_slot hash t.total_size probe
      from rfl, hused, hread]
    cases hb : (t.used r1 o1 % 2 ^ 32 != 0)
    · dsimp only
      apply hrest
      rintro rfl
      rw [hc] at haddr
      simp only [Except.ok.injEq, Prod.mk.injEq] at haddr
      obtain ⟨rfl, rfl⟩ := haddr
      have : (t.used r1 o1 % 2 ^ 32 != 0) = true := by simpa using hflag
      rw [this] at hb
      cases hb
    · dsimp only
      by_cases hk : (t.data r1 o1).kmer = key
      · rw [if_pos hk]
        exact ⟨r1, o1, by simpa using hb, hk, rfl⟩
      · rw [if_neg hk]
        apply hrest
        rintro rfl
        rw [hc] at haddr
        simp only [Except.ok.injEq, Prod.mk.injEq] at haddr
        obtain ⟨rfl, rfl⟩ := haddr
        exact hk hkey

theorem holds_cell_mono {t : HashMap K E} {l l' : List (kmer_pair K E)}
    (hsub : ∀ x, x ∈ l → x ∈ l') (h : t.HoldsCell l) : t.HoldsCell l' :=
  fun r o hf => hsub _ (h r o hf)

theorem insert_total_size_pos (hash : K → Nat) {t t' : HashMap K E} {b : Bool}
    {R : kmer_pair K E} (h : HashMap.insert hash t R = .ok (b, t')) : 0 < t.total_size := by
  rcases Nat.eq_zero_or_pos t.total_size with h0 | h0
  · unfold HashMap.insert at h
    rw [HashMap.insert_loop, if_pos h0] at h
    cases h
  · exact h0

theorem insert_holds_cell (hash : K → Nat) {t t' : HashMap K E} {b : Bool} {R : kmer_pair K E}
    {l : List (kmer_pair K E)} (hl : t.HoldsCell l)
    (h : HashMap.insert hash t R = .ok (b, t')) :
    (t'.total_size = t.total_size ∧ t'.nprocs = t.nprocs ∧ t'.my_size = t.my_size) ∧
      t'.HoldsCell (if b then R :: l else l) := by
  obtain ⟨g, h2, _⟩ := insert_loop_cells _ _ _ _ _ _ _ (insert_total_size_pos hash h) h
  refine ⟨g, ?_⟩
  intro r o hf
  rcases h2 r o hf with ⟨rfl, hr⟩ | ⟨hf', hr⟩
  · simp [hr]
  · have := hl r o hf'
    rw [hr]
    split
    · exact List.mem_cons_of_mem _ this
    · exact this

theorem insert_all_holds_cell (hash : K → Nat) :
    ∀ (rs : List (kmer_pair K E)) (t t' : HashMap K E) (done l : List (kmer_pair K E)),
      t.HoldsCell l → HashMap.insert_all hash t rs = .ok (t', done) →
      (t'.total_size = t.total_size ∧ t'.nprocs = t.nprocs ∧ t'.my_size = t.my_size) ∧
        t'.HoldsCell (done ++ l) := by
  intro rs
  induction rs with
  | nil =>
    intro t t' done l hl h
    simp only [HashMap.insert_all, Except.ok.injEq, Prod.mk.injEq] at h
    obtain ⟨rfl, rfl⟩ := h
    exact ⟨⟨rfl, rfl, rfl⟩, hl⟩
  | cons r rs ih =>
    intro t t' done l hl h
    rw [HashMap.insert_all] at h
    split at h
    · cases h
    · rename_i b t1 h1
      split at h
      · cases h
      · rename_i t2 done2 h2
        simp only [Except.ok.injEq, Prod.mk.injEq] at h
        obtain ⟨rfl, rfl⟩ := h
        obtain ⟨⟨g1, g2, g3⟩, hl1⟩ := insert_holds_cell hash hl h1
        obtain ⟨⟨k1, k2, k3⟩, hl2⟩ := ih t1 t2 done2 _ hl1 h2
        refine ⟨⟨k1.trans g1, k2.trans g2, k3.trans g3⟩, holds_cell_mono ?_ hl2⟩
        intro x hx
        cases b <;> simp at hx ⊢ <;> tauto

theorem construct_holds_cell (size nprocs : Nat) (cells : Nat → Nat → kmer_pair K E) :
    (HashMap.construct size nprocs cells).HoldsCell [] := by
  intro r o hf
  exact absurd rfl hf

theorem find_after_insert_cells [DecidableEq K] (hash : K → Nat) {t t1 : HashMap K E}
    {l : List (kmer_pair K E)} (R val : kmer_pair K E) (hl : t.HoldsCell l)
    (hins : HashMap.insert hash t R = .ok (true, t1)) :
    ∃ v, HashMap.find hash t1 R.kmer val = .ok (true, v) ∧ v.kmer = R.kmer ∧
      (v = R ∨ v ∈ l) := by
  obtain ⟨⟨g1, g2, g3⟩, _, h3⟩ :=
    insert_loop_cells _ _ _ _ _ _ _ (insert_total_size_pos hash hins) hins
  obtain ⟨_, hl1⟩ := insert_holds_cell hash hl hins
  obtain ⟨i, r, o, _, hi, haddr, hflag, hrec, hall⟩ := h3 rfl
  have hgeo : ∀ s, t1.getSlotAddr s = t.getSlotAddr s := getSlotAddr_geometry g1 g2 g3
  rw [← g1] at hi haddr hall
  rw [← hgeo] at haddr
  obtain ⟨r', o', hf', hk', hfind⟩ :=
    find_loop_cells_found (hash R.kmer % 2 ^ 64) R.kmer hi haddr hflag (by rw [hrec])
      (t1.total_size + 1) 0 val (Nat.zero_le _) (by omega)
      (fun j h1 h2 => by rw [hgeo]; exact hall j h1 h2)
  refine ⟨_, hfind, hk', ?_⟩
  have hmem := hl1 r' o' hf'
  simpa only [if_true, List.mem_cons] using hmem

/-- C1 (amended). In every state reached from the empty table built by
`construct(total_size)`, for any capacity and any process count, by a sequence
of `insert` calls: if `insert(R)` returns success, then a following
`find(R.key)` returns found with a record whose key is `R.key`: `R` itself, or
a record with that key that was inserted successfully before. -/
theorem insert_then_find [DecidableEq K] (hash : K → Nat) (size nprocs : Nat)
    (cells : Nat → Nat → kmer_pair K E) (rs done : List (kmer_pair K E)) (t t1 : HashMap K E)
    (R val : kmer_pair K E)
    (hreach : HashMap.insert_all hash (HashMap.construct size nprocs cells) rs = .ok (t, done))
    (hins : HashMap.insert hash t R = .ok (true, t1)) :
    ∃ v, HashMap.find hash t1 R.kmer val = .ok (true, v) ∧ v.kmer = R.kmer ∧
      (v = R ∨ v ∈ done) := by
  obtain ⟨_, hl⟩ := insert_all_holds_cell hash rs _ _ _ _
    (construct_holds_cell size nprocs cells) hreach
  rw [List.append_nil] at hl
  exact find_after_insert_cells hash R val hl hins

theorem insert_then_find_witness :
    HashMap.insert_all id (HashMap.construct 5 2 blank) [⟨0, 1⟩] =
      .ok (table_odd_one, [⟨0, 1⟩]) ∧
    HashMap.insert id table_odd_one ⟨5, 2⟩ = .ok (true, table_odd_pushed) ∧
    ∃ v, HashMap.find id table_odd_pushed 5 ⟨7, 7⟩ = .ok (true, v) ∧ v.kmer = 5 ∧
      (v = ⟨5, 2⟩ ∨ v ∈ [(⟨0, 1⟩ : kmer_pair Nat Nat)]) :=
  ⟨rfl, rfl,
    insert_then_find id 5 2 blank [⟨0, 1⟩] [⟨0, 1⟩] table_odd_one table_odd_pushed ⟨5, 2⟩ ⟨7, 7⟩
      rfl rfl⟩

/-- C1 (counterexample). Table of 4 slots, one process, keys hashed to
themselves: after `insert` of (key 2, metadata 0), `insert` of (key 2,
metadata 1) returns success, and `find(2)` returns found with the record
(key 2, metadata 0), which is not the record just inserted. -/
theorem insert_then_find_other_record :
    HashMap.insert_all id (HashMap.construct 4 1 blank) [⟨2, 0⟩] = .ok (table_one, [⟨2, 0⟩]) ∧
    HashMap.insert id table_one ⟨2, 1⟩ = .ok (true, table_two) ∧
    HashMap.find id table_two 2 ⟨7, 7⟩ = .ok (true, ⟨2, 0⟩) ∧
    (⟨2, 0⟩ : kmer_pair Nat Nat) ≠ ⟨2, 1⟩ :=
  ⟨rfl, rfl, rfl, by decide⟩

theorem to_int_mod (x : Nat) : to_int (x % 2 ^ 32) = to_int x := by
  unfold to_int
  omega

theorem to_int_nonneg {x : Nat} (h : 0 ≤ to_int x) :
    x % 2 ^ 32 < 2 ^ 31 ∧ (to_int x).toNat = x % 2 ^ 32 := by
  unfold to_int at *
  omega

theorem getSlotAddr_ok {t : HashMap K E} {s r o : Nat} (h : t.getSlotAddr s = .ok (r, o)) :
    0 < t.total_size / t.nprocs ∧
      s / (t.total_size / t.nprocs) % 2 ^ 32 < 2 ^ 31 ∧
      s % (t.total_size / t.nprocs) % 2 ^ 32 < 2 ^ 31 ∧
      r = s / (t.total_size / t.nprocs) % 2 ^ 32 ∧
      o = s % (t.total_size / t.nprocs) % 2 ^ 32 ∧ r < t.nprocs ∧ o < t.my_size := by
  unfold HashMap.getSlotAddr node_num offset at h
  split at h
  · cases h
  · rename_i hper
    dsimp only at h
    split at h
    · rename_i hc
      obtain ⟨c1, c2, c3, c4⟩ := hc
      simp only [Except.ok.injEq, Prod.mk.injEq] at h
      obtain ⟨rfl, rfl⟩ := h
      obtain ⟨a1, a2⟩ := to_int_nonneg c1
      obtain ⟨b1, b2⟩ := to_int_nonneg c3
      refine ⟨Nat.pos_of_ne_zero hper, a1, b1, a2, b2, ?_, ?_⟩
      · omega
      · omega
    · cases h

theorem getSlotAddr_of {t : HashMap K E} {s : Nat} (h0 : 0 < t.total_size / t.nprocs)
    (h1 : s / (t.total_size / t.nprocs) % 2 ^ 32 < 2 ^ 31)
    (h2 : s % (t.total_size / t.nprocs) % 2 ^ 32 < 2 ^ 31)
    (h3 : s / (t.total_size / t.nprocs) % 2 ^ 32 < t.nprocs)
    (h4 : s % (t.total_size / t.nprocs) % 2 ^ 32 < t.my_size) :
    t.getSlotAddr s = .ok (s / (t.total_size / t.nprocs) % 2 ^ 32,
      s % (t.total_size / t.nprocs) % 2 ^ 32) := by
  unfold HashMap.getSlotAddr node_num offset
  rw [if_neg (by omega)]
  have e1 : to_int (s / (t.total_size / t.nprocs)) =
      ((s / (t.total_size / t.nprocs) % 2 ^ 32 : Nat) : Int) := by
    rw [← to_int_mod, to_int_of_lt h1]
  have e2 : to_int (s % (t.total_size / t.nprocs)) =
      ((s % (t.total_size / t.nprocs) % 2 ^ 32 : Nat) : Int) := by
    rw [← to_int_mod, to_int_of_lt h2]
  rw [e1, e2]
  simp only [Int.toNat_ofNat]
  rw [if_pos]
  refine ⟨by omega, by omega, by omega, by omega⟩

theorem exists_unaddressable (t : HashMap K E) :
    ∃ f, f < 2 ^ 64 ∧ ∀ c, t.getSlotAddr f ≠ .ok c := by
  rcases Nat.lt_or_ge (2 ^ 31) (t.total_size / t.nprocs) with hbig | hsmall
  · refine ⟨2 ^ 31, by decide, ?_⟩
    rintro ⟨r, o⟩ h
    obtain ⟨_, _, h2, _⟩ := getSlotAddr_ok h
    rw [Nat.mod_eq_of_lt hbig] at h2
    exact absurd h2 (by decide)
  · refine ⟨2 ^ 31 * (t.total_size / t.nprocs), ?_, ?_⟩
    · have := Nat.mul_le_mul_left (2 ^ 31) hsmall
      omega
    · rintro ⟨r, o⟩ h
      obtain ⟨h0, h1, _⟩ := getSlotAddr_ok h
      rw [Nat.mul_div_cancel _ h0] at h1
      exact absurd h1 (by decide)

theorem HashMap.Unaliased.plain {t : HashMap K E} (hu : t.Unaliased) {s : Nat} {c : Nat × Nat}
    (hs : s < t.total_size) (h : t.getSlotAddr s = .ok c) :
    t.getSlotAddr s = .ok (s / (t.total_size / t.nprocs), s % (t.total_size / t.nprocs)) := by
  obtain ⟨r, o⟩ := c
  obtain ⟨h0, h1, h2, hr, ho, h3, h4⟩ := getSlotAddr_ok h
  have hlt : s % (t.total_size / t.nprocs) % 2 ^ 32 < t.total_size / t.nprocs :=
    lt_of_le_of_lt (Nat.mod_le _ _) (Nat.mod_lt _ h0)
  have d : (s / (t.total_size / t.nprocs) % 2 ^ 32 * (t.total_size / t.nprocs) +
      s % (t.total_size / t.nprocs) % 2 ^ 32) / (t.total_size / t.nprocs) =
      s / (t.total_size / t.nprocs) % 2 ^ 32 := by
    rw [Nat.add_comm, Nat.add_mul_div_right _ _ h0, Nat.div_eq_of_lt hlt, Nat.zero_add]
  have m : (s / (t.total_size / t.nprocs) % 2 ^ 32 * (t.total_size / t.nprocs) +
      s % (t.total_size / t.nprocs) % 2 ^ 32) % (t.total_size / t.nprocs) =
      s % (t.total_size / t.nprocs) % 2 ^ 32 := by
    rw [Nat.add_comm, Nat.add_mul_mod_self_right, Nat.mod_eq_of_lt hlt]
  have hle : s / (t.total_size / t.nprocs) % 2 ^ 32 * (t.total_size / t.nprocs) +
      s % (t.total_size / t.nprocs) % 2 ^ 32 ≤ s := by
    have e := Nat.div_add_mod s (t.total_size / t.nprocs)
    have e1 : s / (t.total_size / t.nprocs) % 2 ^ 32 * (t.total_size / t.nprocs) ≤
        (t.total_size / t.nprocs) * (s / (t.total_size / t.nprocs)) := by
      rw [Nat.mul_comm]
      exact Nat.mul_le_mul_left _ (Nat.mod_le _ _)
    have e2 : s % (t.total_size / t.nprocs) % 2 ^ 32 ≤ s % (t.total_size / t.nprocs) :=
      Nat.mod_le _ _
    omega
  have h' : t.getSlotAddr (s / (t.total_size / t.nprocs) % 2 ^ 32 * (t.total_size / t.nprocs) +
      s % (t.total_size / t.nprocs) % 2 ^ 32) = .ok (r, o) := by
    rw [getSlotAddr_of h0 (by rw [d, Nat.mod_mod]; exact h1) (by rw [m, Nat.mod_mod]; exact h2)
      (by rw [d, Nat.mod_mod, ← hr]; exact h3) (by rw [m, Nat.mod_mod, ← ho]; exact h4),
      d, m, Nat.mod_mod, Nat.mod_mod, ← hr, ← ho]
  have heq := hu s _ _ hs (lt_of_le_of_lt hle hs) h h'
  have dd := d
  have mm := m
  rw [← heq] at dd mm
  rw [h, hr, ho, ← dd, ← mm]

theorem unaliased_of_geometry {t u : HashMap K E} (h : t.Unaliased)
    (h1 : u.total_size = t.total_size) (h2 : u.nprocs = t.nprocs) (h3 : u.my_size = t.my_size) :
    u.Unaliased := by
  intro s s' c hs hs' e e'
  rw [getSlotAddr_geometry h1 h2 h3] at e e'
  rw [h1] at hs hs'
  exact h s s' c hs hs' e e'

theorem slot_used_of_addr {t : HashMap K E} {s : Nat}
    (hc : t.getSlotAddr s = .ok (s / (t.total_size / t.nprocs), s % (t.total_size / t.nprocs))) :
    t.slot_used s = .ok (t.flagAt s != 0) := by
  unfold HashMap.slot_used
  rw [← getSlotAddr_eq_getUsedSlotAddr, hc]
  rfl

theorem read_slot_of_addr {t : HashMap K E} {s : Nat}
    (hc : t.getSlotAddr s = .ok (s / (t.total_size / t.nprocs), s % (t.total_size / t.nprocs))) :
    t.read_slot s = .ok (t.recAt s) := by
  unfold HashMap.read_slot
  rw [hc]
  rfl

theorem request_slot_of_addr {t : HashMap K E} {s : Nat}
    (hc : t.getSlotAddr s = .ok (s / (t.total_size / t.nprocs), s % (t.total_size / t.nprocs))) :
    t.request_slot s = .ok (t.flagAt s == 0, t.bump s) := by
  unfold HashMap.request_slot
  rw [← getSlotAddr_eq_getUsedSlotAddr, hc]
  rfl

theorem write_slot_of_addr {t : HashMap K E} {s : Nat}
    (hc : t.getSlotAddr s = .ok (s / (t.total_size / t.nprocs), s % (t.total_size / t.nprocs)))
    (k : kmer_pair K E) : t.write_slot s k = .ok (t.put s k) := by
  unfold HashMap.write_slot
  rw [hc]
  rfl

theorem insert_loop_step {t : HashMap K E} (hu : t.Unaliased) (hash : Nat) (k : kmer_pair K E)
    (probe fuel : Nat) {b : Bool} {t' : HashMap K E}
    (h : HashMap.insert_loop hash k t probe (fuel + 1) = .ok (b, t')) :
    t.getSlotAddr (probe_slot hash t.total_size probe) =
        .ok (probe_slot hash t.total_size probe / (t.total_size / t.nprocs),
          probe_slot hash t.total_size probe % (t.total_size / t.nprocs)) ∧
      (if t.flagAt (probe_slot hash t.total_size probe) = 0 then
        .ok (true, (t.bump (probe_slot hash t.total_size probe)).put
          (probe_slot hash t.total_size probe) k)
      else if probe + 1 < t.total_size then
        HashMap.insert_loop hash k (t.bump (probe_slot hash t.total_size probe)) (probe + 1) fuel
      else .ok (false, t.bump (probe_slot hash t.total_size probe))) = .ok (b, t') := by
  have hpos : 0 < t.total_size := by
    rcases Nat.eq_zero_or_pos t.total_size with h0 | h0
    · rw [HashMap.insert_loop, if_pos h0] at h
      cases h
    · exact h0
  have hs := probe_slot_lt hash probe hpos
  have hne : t.total_size ≠ 0 := by omega
  rw [HashMap.insert_loop] at h
  simp only [hne, if_false] at h
  rw [show (hash + probe) % 2 ^ 64 % t.total_size = probe_slot hash t.total_size probe
    from rfl] at h
  have hc : t.getSlotAddr (probe_slot hash t.total_size probe) =
      .ok (probe_slot hash t.total_size probe / (t.total_size / t.nprocs),
        probe_slot hash t.total_size probe % (t.total_size / t.nprocs)) := by
    cases hc : t.getSlotAddr (probe_slot hash t.total_size probe) with
    | error e =>
      unfold HashMap.request_slot at h
      rw [← getSlotAddr_eq_getUsedSlotAddr, hc] at h
      cases h
    | ok c => exact hc.symm.trans (hu.plain hs hc)
  refine ⟨hc, ?_⟩
  rw [request_slot_of_addr hc] at h
  by_cases hz : t.flagAt (probe_slot hash t.total_size probe) = 0
  · simp only [hz, beq_self_eq_true, if_true] at h ⊢
    rw [write_slot_of_addr (t := t.bump (probe_slot hash t.total_size probe)) hc] at h
    exact h
  · simpa [hz] using h

theorem find_loop_step [DecidableEq K] {t : HashMap K E} (hash : Nat) (key : K)
    (val : kmer_pair K E) (probe fuel : Nat) (hpos : 0 < t.total_size)
    (hc : t.getSlotAddr (probe_slot hash t.total_size probe) =
      .ok (probe_slot hash t.total_size probe / (t.total_size / t.nprocs),
        probe_slot hash t.total_size probe % (t.total_size / t.nprocs))) :
    HashMap.find_loop hash key t val probe (fuel + 1) =
      if t.flagAt (probe_slot hash t.total_size probe) ≠ 0 then
        if (t.recAt (probe_slot hash t.total_size probe)).kmer = key then
          .ok (true, t.recAt (probe_slot hash t.total_size probe))
        else if probe + 1 < t.total_size then
          HashMap.find_loop hash key t (t.recAt (probe_slot hash t.total_size probe)) (probe + 1) fuel
        else .ok (false, t.recAt (probe_slot hash t.total_size probe))
      else if probe + 1 < t.total_size then
        HashMap.find_loop hash key t val (probe + 1) fuel
      else .ok (false, val) := by
  have hne : t.total_size ≠ 0 := Nat.pos_iff_ne_zero.mp hpos
  rw [HashMap.find_loop]
  simp only [hne, if_false]
  rw [show (hash + probe) % 2 ^ 64 % t.total_size = probe_slot hash t.total_size probe from rfl]
  rw [slot_used_of_addr hc, read_slot_of_addr hc]
  by_cases hz : t.flagAt (probe_slot hash t.total_size probe) = 0
  · simp [hz]
  · have hb : (t.flagAt (probe_slot hash t.total_size probe) != 0) = true := by simpa using hz
    rw [hb]
    simp [hz]

theorem insert_loop_trace (hash : Nat) (k : kmer_pair K E) :
    ∀ (fuel probe : Nat) (t t' : HashMap K E), t.Unaliased → probe < t.total_size →
      HashMap.insert_loop hash k t probe fuel = .ok (true, t') →
      (t'.total_size = t.total_size ∧ t'.nprocs = t.nprocs ∧ t'.my_size = t.my_size) ∧
      ∃ i, probe ≤ i ∧ i < t.total_size ∧
        (∀ j, probe ≤ j → j ≤ i → t.getSlotAddr (probe_slot hash t.total_size j) =
          .ok (probe_slot hash t.total_size j / (t.total_size / t.nprocs),
            probe_slot hash t.total_size j % (t.total_size / t.nprocs))) ∧
        t'.recAt (probe_slot hash t.total_size i) = k ∧
        t'.flagAt (probe_slot hash t.total_size i) = 1 ∧
        (∀ s, s ≠ probe_slot hash t.total_size i → t'.recAt s = t.recAt s) ∧
        (∀ s, t'.flagAt s =
          (t.flagAt s + visits hash t.total_size s probe (i - probe + 1)) % 2 ^ 32) ∧
        (t.flagAt (probe_slot hash t.total_size i) +
          visits hash t.total_size (probe_slot hash t.total_size i) probe (i - probe)) % 2 ^ 32 = 0 ∧
        ∀ j, probe ≤ j → j < i →
          (t.flagAt (probe_slot hash t.total_size j) +
            visits hash t.total_size (probe_slot hash t.total_size j) probe (j - probe)) % 2 ^ 32 ≠ 0 := by
  intro fuel
  induction fuel with
  | zero =>
    intro probe t t' _ _ h
    simp [HashMap.insert_loop] at h
  | succ fuel ih =>
    intro probe t t' hu hp h
    obtain ⟨hc, h⟩ := insert_loop_step hu hash k probe fuel h
    by_cases hz : t.flagAt (probe_slot hash t.total_size probe) = 0
    · rw [if_pos hz] at h
      simp only [Except.ok.injEq, Prod.mk.injEq, true_and] at h
      subst h
      refine ⟨⟨rfl, rfl, rfl⟩, probe, le_rfl, hp, ?_, ?_, ?_, ?_, ?_, ?_, ?_⟩
      · intro j h1 h2
        have : j = probe := by omega
        subst this
        exact hc
      · simp [recAt_put]
      · simp [flagAt_put, flagAt_bump, hz]
      · intro s hs
        simp [recAt_put, recAt_bump, hs]
      · intro s
        have hb := flagAt_lt t s
        rw [flagAt_put, flagAt_bump, Nat.sub_self, visits_succ_left]
        by_cases hss : s = probe_slot hash t.total_size probe
        · subst hss
          simp [visits]
        · rw [if_neg hss, if_neg (fun h => hss h.symm)]
          simp only [visits]
          omega
      · simp [visits, hz]
      · intro j h1 h2
        omega
    · rw [if_neg hz] at h
      by_cases hlt : probe + 1 < t.total_size
      · rw [if_pos hlt] at h
        obtain ⟨⟨g1, g2, g3⟩, i, hi1, hi2, hi0, hi3, hi4, hi5, hi6, hi7, hi8⟩ :=
          ih (probe + 1) (t.bump (probe_slot hash t.total_size probe)) t'
            (unaliased_of_geometry hu rfl rfl rfl) (by simpa using hlt) h
        simp only [bump_total_size, bump_nprocs, bump_my_size] at g1 g2 g3 hi2 hi0 hi3 hi4 hi5
        simp only [bump_total_size] at hi6 hi7 hi8
        have conv : ∀ s m, (t.flagAt s + visits hash t.total_size s probe (m + 1)) % 2 ^ 32 =
            ((t.bump (probe_slot hash t.total_size probe)).flagAt s +
              visits hash t.total_size s (probe + 1) m) % 2 ^ 32 := by
          intro s m
          rw [visits_succ_left, flagAt_bump]
          by_cases hss : s = probe_slot hash t.total_size probe
          · subst hss
            rw [if_pos rfl, if_pos rfl]
            omega
          · rw [if_neg hss, if_neg (fun h => hss h.symm)]
            omega
        refine ⟨⟨g1, g2, g3⟩, i, by omega, hi2, ?_, hi3, hi4, ?_, ?_, ?_, ?_⟩
        · intro j h1 h2
          rcases Nat.eq_or_lt_of_le h1 with rfl | h1'
          · exact hc
          · exact hi0 j (by omega) h2
        · intro s hs
          rw [hi5 s hs, recAt_bump]
        · intro s
          have e : i - probe + 1 = (i - (probe + 1) + 1) + 1 := by omega
          rw [e, conv, hi6]
        · have e : i - probe = (i - (probe + 1)) + 1 := by omega
          rw [e, conv, hi7]
        · intro j h1 h2
          rcases Nat.eq_or_lt_of_le h1 with rfl | h1'
          · rw [Nat.sub_self]
            simp only [visits, Nat.add_zero]
            rw [Nat.mod_eq_of_lt (flagAt_lt _ _)]
            exact hz
          · have e : j - probe = (j - (probe + 1)) + 1 := by omega
            rw [e, conv]
            exact hi8 j (by omega) h2
      · rw [if_neg hlt] at h
        simp at h

theorem probe_slot_collision_step {hash n a b : Nat} (hh : hash < 2 ^ 64) (hab : a < b)
    (hb : b < n) (hb' : b < 2 ^ 64) (h : probe_slot hash n a = probe_slot hash n b) :
    hash + a < 2 ^ 64 ∧ 2 ^ 64 ≤ hash + b := by
  rcases Nat.le_total n (2 ^ 64) with hn | hn
  · exact probe_slot_collision hh hn hab hb h
  · unfold probe_slot at h
    have h1 : (hash + a) % 2 ^ 64 < n := lt_of_lt_of_le (Nat.mod_lt _ (by decide)) hn
    have h2 : (hash + b) % 2 ^ 64 < n := lt_of_lt_of_le (Nat.mod_lt _ (by decide)) hn
    rw [Nat.mod_eq_of_lt h1, Nat.mod_eq_of_lt h2] at h
    omega

theorem visits_le_one_step {hash n i p : Nat} (hh : hash < 2 ^ 64) (hi : i < n)
    (hi' : i < 2 ^ 64) (hp : p ≤ i) : visits hash n (probe_slot hash n i) p (i - p) ≤ 1 := by
  by_contra hc
  obtain ⟨a, b, h1, h2, h3, h4, h5⟩ := visits_two hash n (probe_slot hash n i) (i - p) p (by omega)
  have c1 := probe_slot_collision_step hh h2 (by omega) (by omega) (h4.trans h5.symm)
  have c2 := probe_slot_collision_step hh (show b < i by omega) hi hi' h5
  omega

theorem visits_le_two_step {hash n p m : Nat} (s : Nat) (hh : hash < 2 ^ 64)
    (hm : p + m ≤ n) (hm' : p + m ≤ 2 ^ 64) : visits hash n s p m ≤ 2 := by
  by_contra hc
  obtain ⟨a, b, c, h1, h2, h3, h4, h5, h6, h7⟩ := visits_three hash n s m p (by omega)
  have c1 := probe_slot_collision_step hh h2 (by omega) (by omega) (h5.trans h6.symm)
  have c2 := probe_slot_collision_step hh h3 (by omega) (by omega) (h6.trans h7.symm)
  omega

theorem addressable_steps_lt {t : HashMap K E} {hash i : Nat} (hh : hash < 2 ^ 64)
    (hi : i < t.total_size)
    (hall : ∀ j, j ≤ i → ∃ c, t.getSlotAddr (probe_slot hash t.total_size j) = .ok c) :
    i < 2 ^ 64 := by
  by_contra hge
  obtain ⟨f, hf, hno⟩ := exists_unaddressable t
  have hp : probe_slot hash t.total_size ((f + 2 ^ 64 - hash) % 2 ^ 64) = f := by
    unfold probe_slot
    have h1 : (hash + (f + 2 ^ 64 - hash) % 2 ^ 64) % 2 ^ 64 < t.total_size := by omega
    rw [Nat.mod_eq_of_lt h1]
    omega
  obtain ⟨c, hc⟩ := hall ((f + 2 ^ 64 - hash) % 2 ^ 64) (by omega)
  rw [hp] at hc
  exact hno c hc

theorem addr_of_geometry {t u : HashMap K E} (h1 : u.total_size = t.total_size)
    (h2 : u.nprocs = t.nprocs) (h3 : u.my_size = t.my_size) {s : Nat}
    (hc : t.getSlotAddr s = .ok (s / (t.total_size / t.nprocs), s % (t.total_size / t.nprocs))) :
    u.getSlotAddr s = .ok (s / (u.total_size / u.nprocs), s % (u.total_size / u.nprocs)) := by
  rw [getSlotAddr_geometry h1 h2 h3, h1, h2]
  exact hc

theorem read_slot_frame {t u : HashMap K E} (h1 : u.total_size = t.total_size)
    (h2 : u.nprocs = t.nprocs) (h3 : u.my_size = t.my_size) (hu : t.Unaliased) {s : Nat}
    (hs : s < t.total_size) (hrec : u.recAt s = t.recAt s) : u.read_slot s = t.read_slot s := by
  cases hc : t.getSlotAddr s with
  | error e =>
    unfold HashMap.read_slot
    rw [getSlotAddr_geometry h1 h2 h3, hc]
  | ok c =>
    have hp := hu.plain hs hc
    rw [read_slot_of_addr hp, read_slot_of_addr (addr_of_geometry h1 h2 h3 hp), hrec]

/-- On a table of at most `2 ^ 32` slots, whatever the process count,
different slots have different cells. -/
theorem unaliased_of_size_le {t : HashMap K E} (h : t.total_size ≤ 2 ^ 32) : t.Unaliased := by
  rintro s s' ⟨r, o⟩ hs hs' e e'
  obtain ⟨_, _, _, hr, ho, _⟩ := getSlotAddr_ok e
  obtain ⟨_, _, _, hr', ho', _⟩ := getSlotAddr_ok e'
  have a1 : s / (t.total_size / t.nprocs) < 2 ^ 32 :=
    lt_of_le_of_lt (Nat.div_le_self _ _) (by omega)
  have a2 : s % (t.total_size / t.nprocs) < 2 ^ 32 :=
    lt_of_le_of_lt (Nat.mod_le _ _) (by omega)
  have b1 : s' / (t.total_size / t.nprocs) < 2 ^ 32 :=
    lt_of_le_of_lt (Nat.div_le_self _ _) (by omega)
  have b2 : s' % (t.total_size / t.nprocs) < 2 ^ 32 :=
    lt_of_le_of_lt (Nat.mod_le _ _) (by omega)
  rw [Nat.mod_eq_of_lt a1] at hr
  rw [Nat.mod_eq_of_lt a2] at ho
  rw [Nat.mod_eq_of_lt b1] at hr'
  rw [Nat.mod_eq_of_lt b2] at ho'
  exact ((cell_eq_iff s' s).mp ⟨hr.symm.trans hr', ho.symm.trans ho'⟩)

theorem run_cells_distinct {t : HashMap K E} (s s' : Nat) {c : Nat × Nat} (hlt : s < s')
    (hall : ∀ u, s ≤ u → u ≤ s' → ∃ c', t.getSlotAddr u = .ok c')
    (h1 : t.getSlotAddr s = .ok c) (h2 : t.getSlotAddr s' = .ok c) : False := by
  obtain ⟨r, o⟩ := c
  obtain ⟨hP, a1, b1, hr, ho, _, _⟩ := getSlotAddr_ok h1
  obtain ⟨_, a2, b2, hr', ho', _, _⟩ := getSlotAddr_ok h2
  have es := Nat.div_add_mod s (t.total_size / t.nprocs)
  have es' := Nat.div_add_mod s' (t.total_size / t.nprocs)
  have hb := Nat.mod_lt s hP
  have hb' := Nat.mod_lt s' hP
  have hdiv : s / (t.total_size / t.nprocs) ≤ s' / (t.total_size / t.nprocs) :=
    Nat.div_le_div_right (Nat.le_of_lt hlt)
  have k1 : s + 2 ^ 31 ≤ s' → (s + 2 ^ 31) % (t.total_size / t.nprocs) % 2 ^ 32 < 2 ^ 31 := by
    intro h
    obtain ⟨⟨r1, o1⟩, hu⟩ := hall _ (by omega) h
    exact (getSlotAddr_ok hu).2.2.1
  have k2 : s + 2 ^ 31 * (t.total_size / t.nprocs) ≤ s' →
      (s + 2 ^ 31 * (t.total_size / t.nprocs)) / (t.total_size / t.nprocs) % 2 ^ 32 < 2 ^ 31 := by
    intro h
    obtain ⟨⟨r1, o1⟩, hu⟩ := hall _ (by omega) h
    exact (getSlotAddr_ok hu).2.1
  generalize t.total_size / t.nprocs = P at *
  rcases Nat.eq_or_lt_of_le hdiv with heq | hlt'
  · -- same partition: the offsets differ by a multiple of 2 ^ 32
    rw [← heq] at es'
    have hbb : s % P + 2 ^ 32 ≤ s' % P := by omega
    have k := k1 (by omega)
    have hlt2 : s % P + 2 ^ 31 < P := by omega
    have e : s + 2 ^ 31 = P * (s / P) + (s % P + 2 ^ 31) := by omega
    rw [e, Nat.mul_add_mod, Nat.mod_eq_of_lt hlt2] at k
    omega
  · -- different partitions: the ranks differ by a multiple of 2 ^ 32
    have hqq : s / P + 2 ^ 32 ≤ s' / P := by omega
    have hm := Nat.mul_le_mul_left P hqq
    rw [Nat.mul_add] at hm
    have k := k2 (by omega)
    rw [Nat.add_mul_div_right _ _ hP] at k
    omega

theorem same_lap_slots {hash n j j' u : Nat}
    (hq : (hash + j) / 2 ^ 64 = (hash + j') / 2 ^ 64)
    (hp : (hash + j) % 2 ^ 64 / n = (hash + j') % 2 ^ 64 / n) (h1 : j ≤ u) (h2 : u ≤ j') :
    probe_slot hash n u = probe_slot hash n j + (u - j) := by
  unfold probe_slot
  have e1 : (hash + u) % 2 ^ 64 = (hash + j) % 2 ^ 64 + (u - j) := by omega
  have e2 : (hash + u) % 2 ^ 64 ≤ (hash + j') % 2 ^ 64 := by omega
  have d1 : (hash + j) % 2 ^ 64 / n ≤ (hash + u) % 2 ^ 64 / n :=
    Nat.div_le_div_right (by omega)
  have d2 : (hash + u) % 2 ^ 64 / n ≤ (hash + j') % 2 ^ 64 / n := Nat.div_le_div_right e2
  have d : (hash + u) % 2 ^ 64 / n = (hash + j) % 2 ^ 64 / n := by omega
  have m1 := Nat.div_add_mod ((hash + u) % 2 ^ 64) n
  have m2 := Nat.div_add_mod ((hash + j) % 2 ^ 64) n
  rw [d] at m1
  omega

theorem cell_visits_geometry (t u : HashMap K E) (h1 : u.total_size = t.total_size)
    (h2 : u.nprocs = t.nprocs) (h3 : u.my_size = t.my_size) (hash : Nat) (c : Nat × Nat) :
    ∀ (n probe : Nat), cell_visits u hash c probe n = cell_visits t hash c probe n := by
  intro n
  induction n with
  | zero => intro probe; rfl
  | succ n ih =>
    intro probe
    simp only [cell_visits]
    rw [ih, getSlotAddr_geometry h1 h2 h3, h1]

theorem cell_visits_le_succ (t : HashMap K E) (hash : Nat) (c : Nat × Nat) (p m : Nat) :
    cell_visits t hash c p (m + 1) ≤ 1 + cell_visits t hash c (p + 1) m := by
  simp only [cell_visits]
  cases t.getSlotAddr (probe_slot hash t.total_size p) with
  | error e => simp
  | ok c' =>
    by_cases h : c' = c
    · simp [h]
    · simp [h]

theorem cell_visits_first (t : HashMap K E) (hash : Nat) (c : Nat × Nat) :
    ∀ (m p k : Nat), k + 1 ≤ cell_visits t hash c p m →
      ∃ a, p ≤ a ∧ a < p + m ∧ t.getSlotAddr (probe_slot hash t.total_size a) = .ok c ∧
        k ≤ cell_visits t hash c (a + 1) (p + m - (a + 1)) := by
  intro m
  induction m with
  | zero => intro p k h; simp [cell_visits] at h
  | succ m ih =>
    intro p k h
    by_cases hs : t.getSlotAddr (probe_slot hash t.total_size p) = .ok c
    · refine ⟨p, le_rfl, by omega, hs, ?_⟩
      have := cell_visits_le_succ t hash c p m
      have e : p + (m + 1) - (p + 1) = m := by omega
      rw [e]
      omega
    · have hz : (match t.getSlotAddr (probe_slot hash t.total_size p) with
          | .ok c' => if c' = c then 1 else 0
          | .error _ => 0) = 0 := by
        cases hg : t.getSlotAddr (probe_slot hash t.total_size p) with
        | error e => rfl
        | ok c' =>
          have : c' ≠ c := fun e => hs (by rw [hg, e])
          simp [this]
      simp only [cell_visits] at h
      rw [hz] at h
      obtain ⟨a, h1, h2, h3, h4⟩ := ih (p + 1) k (by omega)
      refine ⟨a, by omega, by omega, h3, ?_⟩
      have e : p + (m + 1) - (a + 1) = p + 1 + m - (a + 1) := by omega
      rw [e]
      exact h4

theorem cell_visits_four (t : HashMap K E) (hash : Nat) (c : Nat × Nat) (m p : Nat)
    (h : 4 ≤ cell_visits t hash c p m) :
    ∃ a b d e, p ≤ a ∧ a < b ∧ b < d ∧ d < e ∧ e < p + m ∧
      t.getSlotAddr (probe_slot hash t.total_size a) = .ok c ∧
      t.getSlotAddr (probe_slot hash t.total_size b) = .ok c ∧
      t.getSlotAddr (probe_slot hash t.total_size d) = .ok c ∧
      t.getSlotAddr (probe_slot hash t.total_size e) = .ok c := by
  obtain ⟨a, a1, a2, a3, a4⟩ := cell_visits_first t hash c m p 3 h
  obtain ⟨b, b1, b2, b3, b4⟩ := cell_visits_first t hash c _ _ 2 a4
  obtain ⟨d, d1, d2, d3, d4⟩ := cell_visits_first t hash c _ _ 1 b4
  obtain ⟨e, e1, e2, e3, _⟩ := cell_visits_first t hash c _ _ 0 d4
  exact ⟨a, b, d, e, a1, by omega, by omega, by omega, by omega, a3, b3, d3, e3⟩

theorem same_cell_new_lap {t : HashMap K E} {hash a b : Nat} {c : Nat × Nat} (hab : a < b)
    (hall : ∀ j, a ≤ j → j ≤ b → ∃ c', t.getSlotAddr (probe_slot hash t.total_size j) = .ok c')
    (h1 : t.getSlotAddr (probe_slot hash t.total_size a) = .ok c)
    (h2 : t.getSlotAddr (probe_slot hash t.total_size b) = .ok c) :
    ¬ ((hash + a) / 2 ^ 64 = (hash + b) / 2 ^ 64 ∧
      (hash + a) % 2 ^ 64 / t.total_size = (hash + b) % 2 ^ 64 / t.total_size) := by
  rintro ⟨hq, hp⟩
  have hb := same_lap_slots hq hp (Nat.le_of_lt hab) le_rfl
  refine run_cells_distinct (probe_slot hash t.total_size a)
    (probe_slot hash t.total_size b) (by omega) ?_ h1 h2
  intro v hv1 hv2
  have hu := same_lap_slots (u := a + (v - probe_slot hash t.total_size a)) hq hp
    (by omega) (by omega)
  obtain ⟨c', hc'⟩ := hall (a + (v - probe_slot hash t.total_size a)) (by omega) (by omega)
  refine ⟨c', ?_⟩
  rw [hu] at hc'
  have e : probe_slot hash t.total_size a +
      (a + (v - probe_slot hash t.total_size a) - a) = v := by omega
  rw [e] at hc'
  exact hc'

theorem lap_bounds {hash n i : Nat} (j : Nat) (hh : hash < 2 ^ 64) (hi : i < n)
    (hi' : i < 2 ^ 64) (hj : j ≤ i) :
    ((hash + j) / 2 ^ 64 = 0 ∨ (hash + j) / 2 ^ 64 = 1) ∧
      ((hash + j) / 2 ^ 64 = 1 → (hash + j) % 2 ^ 64 / n = 0) ∧
      ((hash + j) / 2 ^ 64 = 0 →
        hash / n ≤ (hash + j) % 2 ^ 64 / n ∧ (hash + j) % 2 ^ 64 / n ≤ hash / n + 1) := by
  refine ⟨by omega, ?_, ?_⟩
  · intro h
    exact Nat.div_eq_of_lt (by omega)
  · intro h
    have e : (hash + j) % 2 ^ 64 = hash + j := by omega
    rw [e]
    refine ⟨Nat.div_le_div_right (by omega), ?_⟩
    have h1 : (hash + j) / n ≤ (hash + n) / n := Nat.div_le_div_right (by omega)
    rw [Nat.add_div_right _ (by omega)] at h1
    exact h1

theorem lap_mono (hash n : Nat) {j j' : Nat} (hjj : j ≤ j')
    (hq : (hash + j) / 2 ^ 64 = (hash + j') / 2 ^ 64) :
    (hash + j) % 2 ^ 64 / n ≤ (hash + j') % 2 ^ 64 / n :=
  Nat.div_le_div_right (by omega)

theorem cell_visits_le_three {t : HashMap K E} {hash i : Nat} (c : Nat × Nat)
    (hh : hash < 2 ^ 64) (hi : i < t.total_size)
    (hall : ∀ j, j ≤ i → ∃ c', t.getSlotAddr (probe_slot hash t.total_size j) = .ok c') :
    cell_visits t hash c 0 (i + 1) ≤ 3 := by
  by_contra hc
  obtain ⟨a, b, d, e, _, hab, hbd, hde, hei, ca, cb, cd, ce⟩ :=
    cell_visits_four t hash c (i + 1) 0 (by omega)
  have n1 := same_cell_new_lap hab (fun j _ h => hall j (by omega)) ca cb
  have n2 := same_cell_new_lap hbd (fun j _ h => hall j (by omega)) cb cd
  have n3 := same_cell_new_lap hde (fun j _ h => hall j (by omega)) cd ce
  have hi' : i < 2 ^ 64 := addressable_steps_lt hh hi hall
  have la := lap_bounds a hh hi hi' (by omega)
  have lb := lap_bounds b hh hi hi' (by omega)
  have ld := lap_bounds d hh hi hi' (by omega)
  have le := lap_bounds e hh hi hi' (by omega)
  have m1 := lap_mono hash t.total_size (Nat.le_of_lt hab)
  have m2 := lap_mono hash t.total_size (Nat.le_of_lt hbd)
  have m3 := lap_mono hash t.total_size (Nat.le_of_lt hde)
  generalize (hash + a) % 2 ^ 64 / t.total_size = pa at *
  generalize (hash + b) % 2 ^ 64 / t.total_size = pb at *
  generalize (hash + d) % 2 ^ 64 / t.total_size = pd at *
  generalize (hash + e) % 2 ^ 64 / t.total_size = pe at *
  generalize hash / t.total_size = p0 at *
  omega

theorem cell_visits_succ_left (t : HashMap K E) (hash : Nat) (c : Nat × Nat) (p m : Nat)
    {c' : Nat × Nat} (h : t.getSlotAddr (probe_slot hash t.total_size p) = .ok c') :
    cell_visits t hash c p (m + 1) =
      (if c' = c then 1 else 0) + cell_visits t hash c (p + 1) m := by
  simp only [cell_visits]
  rw [h]

theorem insert_loop_cell_trace (hash : Nat) (k : kmer_pair K E) :
    ∀ (fuel probe : Nat) (t t' : HashMap K E), probe < t.total_size →
      HashMap.insert_loop hash k t probe fuel = .ok (true, t') →
      (t'.total_size = t.total_size ∧ t'.nprocs = t.nprocs ∧ t'.my_size = t.my_size) ∧
      ∃ i r o, probe ≤ i ∧ i < t.total_size ∧
        (∀ j, probe ≤ j → j ≤ i →
          ∃ c, t.getSlotAddr (probe_slot hash t.total_size j) = .ok c) ∧
        t.getSlotAddr (probe_slot hash t.total_size i) = .ok (r, o) ∧
        t'.data r o = k ∧ (∀ r' o', (r', o') ≠ (r, o) → t'.data r' o' = t.data r' o') ∧
        t'.used r o % 2 ^ 32 = 1 ∧
        (t.used r o + cell_visits t hash (r, o) probe (i - probe)) % 2 ^ 32 = 0 := by
  intro fuel
  induction fuel with
  | zero =>
    intro probe t t' _ h
    simp [HashMap.insert_loop] at h
  | succ fuel ih =>
    intro probe t t' hp h
    rw [HashMap.insert_loop] at h
    split at h
    · cases h
    · dsimp only at h
      rw [show (hash + probe) % 2 ^ 64 % t.total_size = probe_slot hash t.total_size probe
        from rfl] at h
      split at h
      · cases h
      · rename_i success t1 hreq
        obtain ⟨r, o, haddr, hsucc, rfl⟩ := request_slot_cases hreq
        split at h
        · rename_i hs
          split at h
          · cases h
          · rename_i t2 hw
            obtain ⟨r', o', haddr', rfl⟩ := write_slot_cases hw
            have e : (r', o') = (r, o) := by
              have := haddr'.symm.trans
                ((getSlotAddr_geometry (t := t) rfl rfl rfl _).trans haddr)
              simpa using this
            simp only [Prod.mk.injEq] at e
            obtain ⟨rfl, rfl⟩ := e
            simp only [Except.ok.injEq, Prod.mk.injEq, true_and] at h
            subst h
            rw [hs] at hsucc
            have hz : t.used r' o' % 2 ^ 32 = 0 := by simpa using hsucc.symm
            refine ⟨⟨rfl, rfl, rfl⟩, probe, r', o', le_rfl, hp, ?_, haddr, ?_, ?_, ?_, ?_⟩
            · intro j h1 h2
              have : j = probe := by omega
              subst this
              exact ⟨_, haddr⟩
            · simp [store_apply]
            · intro r o hne
              have hc : ¬ (r = r' ∧ o = o') := fun h => hne (by rw [h.1, h.2])
              simp only [store_apply, if_neg hc]
            · simp only [store_apply, and_self, if_true]
              omega
            · rw [Nat.sub_self]
              simp only [cell_visits, Nat.add_zero]
              exact hz
        · rename_i hs
          split at h
          · rename_i hnext
            obtain ⟨g, i, r', o', hi1, hi2, hi3, hi4, hi5, hi6, hi7, hi8⟩ := ih (probe + 1)
              { t with used := store t.used r o ((t.used r o + 1) % 2 ^ 32) } t' hnext h
            refine ⟨g, i, r', o', by omega, hi2, ?_, hi4, hi5, hi6, hi7, ?_⟩
            · intro j h1 h2
              rcases Nat.eq_or_lt_of_le h1 with rfl | hlt
              · exact ⟨_, haddr⟩
              · exact hi3 j hlt h2
            · have e : i - probe = (i - (probe + 1)) + 1 := by omega
              rw [e, cell_visits_succ_left t hash (r', o') probe _ haddr]
              have hg : cell_visits
                  { t with used := store t.used r o ((t.used r o + 1) % 2 ^ 32) } hash (r', o')
                  (probe + 1) (i - (probe + 1)) =
                  cell_visits t hash (r', o') (probe + 1) (i - (probe + 1)) :=
                cell_visits_geometry t
                  { t with used := store t.used r o ((t.used r o + 1) % 2 ^ 32) }
                  rfl rfl rfl hash _ _ _
              rw [hg] at hi8
              simp only [store_apply] at hi8
              by_cases hc : r' = r ∧ o' = o
              · obtain ⟨rfl, rfl⟩ := hc
                simp only [and_self, if_true] at hi8 ⊢
                omega
              · have hc' : ¬ ((r, o) = (r', o')) := fun h => hc (by
                  simp only [Prod.mk.injEq] at h
                  exact ⟨h.1.symm, h.2.symm⟩)
                simp only [if_neg hc, if_neg hc'] at hi8 ⊢
                omega
          · simp at h

theorem cell_visits_before_le_three {t : HashMap K E} {hash i : Nat} (c : Nat × Nat)
    (hh : hash < 2 ^ 64) (hi : i < t.total_size)
    (hall : ∀ j, j ≤ i → ∃ c', t.getSlotAddr (probe_slot hash t.total_size j) = .ok c') :
    cell_visits t hash c 0 i ≤ 3 := by
  rcases Nat.eq_zero_or_pos i with h0 | h0
  · subst h0
    simp [cell_visits]
  · have := cell_visits_le_three (i := i - 1) c hh (by omega) (fun j hj => hall j (by omega))
    rwa [Nat.sub_add_cancel h0] at this

theorem read_slot_of_cell {t : HashMap K E} {s r o : Nat} (h : t.getSlotAddr s = .ok (r, o)) :
    t.read_slot s = .ok (t.data r o) := by
  unfold HashMap.read_slot
  rw [h]

theorem slot_used_of_cell {t : HashMap K E} {s r o : Nat} (h : t.getSlotAddr s = .ok (r, o)) :
    t.slot_used s = .ok (t.used r o % 2 ^ 32 != 0) := by
  unfold HashMap.slot_used
  rw [← getSlotAddr_eq_getUsedSlotAddr, h]

/-- C5 (amended). In every state reached from the empty table by `insert`
calls, for any capacity and any process count: if two consecutive `insert(R)`
calls both return success, they write `R` to two different slots `s1` and
`s2`, which have different cells `c1` and `c2`. Each call writes `R` to the
record cell of its slot, leaves the flag of that cell at 1 (after the call
`slot_used` of the slot is true) and leaves every other record cell as it was,
so after the second call both slots hold `R`. A following `find(R.key)`
returns found with a record whose key is `R.key`: `R` itself, or a record with
that key that was inserted successfully before. -/
theorem insert_twice [DecidableEq K] (hash : K → Nat) (size nprocs : Nat)
    (cells : Nat → Nat → kmer_pair K E) (rs done : List (kmer_pair K E)) (t t1 t2 : HashMap K E)
    (R val : kmer_pair K E)
    (hreach : HashMap.insert_all hash (HashMap.construct size nprocs cells) rs = .ok (t, done))
    (h1 : HashMap.insert hash t R = .ok (true, t1))
    (h2 : HashMap.insert hash t1 R = .ok (true, t2)) :
    ∃ s1 s2 c1 c2, s1 < size ∧ s2 < size ∧ s1 ≠ s2 ∧ c1 ≠ c2 ∧
      t.getSlotAddr s1 = .ok c1 ∧ t.getSlotAddr s2 = .ok c2 ∧
      t1.read_slot s1 = .ok R ∧ t1.slot_used s1 = .ok true ∧ t1.used c1.1 c1.2 % 2 ^ 32 = 1 ∧
      (∀ r o, (r, o) ≠ c1 → t1.data r o = t.data r o) ∧
      t2.read_slot s2 = .ok R ∧ t2.slot_used s2 = .ok true ∧ t2.used c2.1 c2.2 % 2 ^ 32 = 1 ∧
      (∀ r o, (r, o) ≠ c2 → t2.data r o = t1.data r o) ∧
      t2.read_slot s1 = .ok R ∧
      ∃ v, HashMap.find hash t2 R.kmer val = .ok (true, v) ∧ v.kmer = R.kmer ∧
        (v = R ∨ v ∈ done) := by
  obtain ⟨⟨e1, e2, e3⟩, hl⟩ := insert_all_holds_cell hash rs _ _ _ _
    (construct_holds_cell size nprocs cells) hreach
  rw [List.append_nil] at hl
  have hts : t.total_size = size := e1
  have hpos : 0 < t.total_size := insert_total_size_pos hash h1
  obtain ⟨⟨g1, g2, g3⟩, i1, r1, o1, _, hi1, _, haddr1, hrec1, hframe1, hflag1, _⟩ :=
    insert_loop_cell_trace _ _ _ _ _ _ hpos h1
  have hpos1 : 0 < t1.total_size := insert_total_size_pos hash h2
  obtain ⟨⟨k1, k2, k3⟩, i2, r2, o2, _, hi2, hall2, haddr2, hrec2, hframe2, hflag2, hcount⟩ :=
    insert_loop_cell_trace _ _ _ _ _ _ hpos1 h2
  have hh : hash R.kmer % 2 ^ 64 < 2 ^ 64 := Nat.mod_lt _ (by decide)
  have hv := cell_visits_before_le_three (r2, o2) hh hi2
    (fun j hj => hall2 j (Nat.zero_le j) hj)
  rw [Nat.sub_zero] at hcount
  have hgeo1 : ∀ s, t1.getSlotAddr s = t.getSlotAddr s := getSlotAddr_geometry g1 g2 g3
  have hgeo2 : ∀ s, t2.getSlotAddr s = t1.getSlotAddr s := getSlotAddr_geometry k1 k2 k3
  rw [g1] at haddr2
  rw [hgeo1] at haddr2
  have hne : (r1, o1) ≠ (r2, o2) := by
    intro he
    simp only [Prod.mk.injEq] at he
    obtain ⟨rfl, rfl⟩ := he
    omega
  have hs1 : probe_slot (hash R.kmer % 2 ^ 64) t.total_size i1 < t.total_size :=
    probe_slot_lt _ _ hpos
  have hs2 : probe_slot (hash R.kmer % 2 ^ 64) t.total_size i2 < t.total_size :=
    probe_slot_lt _ _ hpos
  refine ⟨probe_slot (hash R.kmer % 2 ^ 64) t.total_size i1,
    probe_slot (hash R.kmer % 2 ^ 64) t.total_size i2, (r1, o1), (r2, o2), hts ▸ hs1, hts ▸ hs2,
    ?_, hne, haddr1, haddr2, ?_, ?_, hflag1, hframe1, ?_, ?_, hflag2, hframe2, ?_, ?_⟩
  · intro he
    rw [he, haddr2] at haddr1
    exact hne (Except.ok.inj haddr1).symm
  · rw [read_slot_of_cell ((hgeo1 _).trans haddr1), hrec1]
  · rw [slot_used_of_cell ((hgeo1 _).trans haddr1), hflag1]
    rfl
  · rw [read_slot_of_cell ((hgeo2 _).trans ((hgeo1 _).trans haddr2)), hrec2]
  · rw [slot_used_of_cell ((hgeo2 _).trans ((hgeo1 _).trans haddr2)), hflag2]
    rfl
  · rw [read_slot_of_cell ((hgeo2 _).trans ((hgeo1 _).trans haddr1)), hframe2 r1 o1 hne, hrec1]
  · obtain ⟨_, hl1⟩ := insert_holds_cell hash hl h1
    obtain ⟨v, hv1, hv2, hv3⟩ := find_after_insert_cells hash R val hl1 h2
    refine ⟨v, hv1, hv2, ?_⟩
    rcases hv3 with h | h
    · exact Or.inl h
    · simpa only [if_true, List.mem_cons] using h

theorem insert_twice_witness :
    HashMap.insert_all id (HashMap.construct 5 2 blank) [⟨0, 1⟩] =
      .ok (table_odd_one, [⟨0, 1⟩]) ∧
    HashMap.insert id table_odd_one ⟨5, 2⟩ = .ok (true, table_odd_pushed) ∧
    HashMap.insert id table_odd_pushed ⟨5, 2⟩ = .ok (true, table_odd_twice) ∧
    ∃ s1 s2 c1 c2, s1 < 5 ∧ s2 < 5 ∧ s1 ≠ s2 ∧ c1 ≠ c2 ∧
      table_odd_one.getSlotAddr s1 = .ok c1 ∧ table_odd_one.getSlotAddr s2 = .ok c2 ∧
      table_odd_pushed.read_slot s1 = .ok ⟨5, 2⟩ ∧ table_odd_pushed.slot_used s1 = .ok true ∧
      table_odd_pushed.used c1.1 c1.2 % 2 ^ 32 = 1 ∧
      (∀ r o, (r, o) ≠ c1 → table_odd_pushed.data r o = table_odd_one.data r o) ∧
      table_odd_twice.read_slot s2 = .ok ⟨5, 2⟩ ∧ table_odd_twice.slot_used s2 = .ok true ∧
      table_odd_twice.used c2.1 c2.2 % 2 ^ 32 = 1 ∧
      (∀ r o, (r, o) ≠ c2 → table_odd_twice.data r o = table_odd_pushed.data r o) ∧
      table_odd_twice.read_slot s1 = .ok ⟨5, 2⟩ ∧
      ∃ v, HashMap.find id table_odd_twice 5 ⟨7, 7⟩ = .ok (true, v) ∧ v.kmer = 5 ∧
        (v = ⟨5, 2⟩ ∨ v ∈ [(⟨0, 1⟩ : kmer_pair Nat Nat)]) :=
  ⟨rfl, rfl, rfl,
    insert_twice id 5 2 blank [⟨0, 1⟩] [⟨0, 1⟩] table_odd_one table_odd_pushed table_odd_twice
      ⟨5, 2⟩ ⟨7, 7⟩ rfl rfl rfl⟩

/-- C5 (counterexample). Table of 4 slots, one process, keys hashed to
themselves, holding (key 2, metadata 0): two consecutive `insert` calls of
(key 2, metadata 1) both return success and write slots 3 and 0, and `find(2)`
returns found with (key 2, metadata 0), which is neither of the two records
written by these calls. -/
theorem insert_twice_find_neither :
    HashMap.insert_all id (HashMap.construct 4 1 blank) [⟨2, 0⟩] = .ok (table_one, [⟨2, 0⟩]) ∧
    HashMap.insert id table_one ⟨2, 1⟩ = .ok (true, table_two) ∧
    HashMap.insert id table_two ⟨2, 1⟩ = .ok (true, table_three) ∧
    table_three.read_slot 3 = .ok ⟨2, 1⟩ ∧ table_three.read_slot 0 = .ok ⟨2, 1⟩ ∧
    HashMap.find id table_three 2 ⟨7, 7⟩ = .ok (true, ⟨2, 0⟩) ∧
    (⟨2, 0⟩ : kmer_pair Nat Nat) ≠ ⟨2, 1⟩ :=
  ⟨rfl, rfl, rfl, rfl, rfl, rfl, by decide⟩

/-- On a table in which different slots have different cells the two
consecutive successful `insert(R)` calls are also told apart by the slots
alone: each call leaves the flag of the slot it writes at 1 and leaves the
record read from every other slot as it was. -/
theorem two_inserts_slot_frame [DecidableEq K] (hash : K → Nat) (size nprocs : Nat)
    (cells : Nat → Nat → kmer_pair K E) (rs done : List (kmer_pair K E)) (t t1 t2 : HashMap K E)
    (R val : kmer_pair K E)
    (hu : (HashMap.construct size nprocs cells).Unaliased)
    (hreach : HashMap.insert_all hash (HashMap.construct size nprocs cells) rs = .ok (t, done))
    (h1 : HashMap.insert hash t R = .ok (true, t1))
    (h2 : HashMap.insert hash t1 R = .ok (true, t2)) :
    ∃ s1 s2, s1 < size ∧ s2 < size ∧ s1 ≠ s2 ∧
      t1.read_slot s1 = .ok R ∧ t1.flagAt s1 = 1 ∧
      (∀ s, s < size → s ≠ s1 → t1.read_slot s = t.read_slot s) ∧
      t2.read_slot s2 = .ok R ∧ t2.flagAt s2 = 1 ∧
      (∀ s, s < size → s ≠ s2 → t2.read_slot s = t1.read_slot s) ∧
      ∃ v, HashMap.find hash t2 R.kmer val = .ok (true, v) ∧ v.kmer = R.kmer ∧
        (v = R ∨ v ∈ done) := by
  obtain ⟨⟨e1, e2, e3⟩, hl⟩ := insert_all_holds_cell hash rs _ _ _ _
    (construct_holds_cell size nprocs cells) hreach
  rw [List.append_nil] at hl
  have hts : t.total_size = size := e1
  have hut : t.Unaliased := unaliased_of_geometry hu e1 e2 e3
  have hpos : 0 < t.total_size := insert_total_size_pos hash h1
  obtain ⟨⟨g1, g2, g3⟩, i1, _, hi1, haddr1, hrec1, hflag1, hframe1, _⟩ :=
    insert_loop_trace _ _ _ _ _ _ hut hpos h1
  have hut1 : t1.Unaliased := unaliased_of_geometry hut g1 g2 g3
  have hpos1 : 0 < t1.total_size := insert_total_size_pos hash h2
  obtain ⟨⟨k1, k2, k3⟩, i2, _, hi2, haddr2, hrec2, hflag2, hframe2, _, hcount, _⟩ :=
    insert_loop_trace _ _ _ _ _ _ hut1 hpos1 h2
  have hh : hash R.kmer % 2 ^ 64 < 2 ^ 64 := Nat.mod_lt _ (by decide)
  have hi2' : i2 < 2 ^ 64 :=
    addressable_steps_lt hh hi2 (fun j hj => ⟨_, haddr2 j (Nat.zero_le j) hj⟩)
  have hv := visits_le_one_step hh hi2 hi2' (Nat.zero_le i2)
  have hb : t1.flagAt (probe_slot (hash R.kmer % 2 ^ 64) t1.total_size i2) < 2 ^ 32 :=
    Nat.mod_lt _ (by decide)
  have a1 := haddr1 i1 (Nat.zero_le i1) le_rfl
  have a2 : t1.getSlotAddr (probe_slot (hash R.kmer % 2 ^ 64) t.total_size i2) =
      .ok (probe_slot (hash R.kmer % 2 ^ 64) t.total_size i2 / (t1.total_size / t1.nprocs),
        probe_slot (hash R.kmer % 2 ^ 64) t.total_size i2 % (t1.total_size / t1.nprocs)) := by
    have := haddr2 i2 (Nat.zero_le i2) le_rfl
    rw [g1] at this ⊢
    exact this
  rw [g1] at hi2 hrec2 hflag2 hframe2 hcount hv hb
  have hs1 : probe_slot (hash R.kmer % 2 ^ 64) t.total_size i1 < t.total_size :=
    probe_slot_lt _ _ hpos
  have hs2 : probe_slot (hash R.kmer % 2 ^ 64) t.total_size i2 < t.total_size :=
    probe_slot_lt _ _ hpos
  refine ⟨probe_slot (hash R.kmer % 2 ^ 64) t.total_size i1,
    probe_slot (hash R.kmer % 2 ^ 64) t.total_size i2, hts ▸ hs1, hts ▸ hs2,
    ?_, ?_, hflag1, ?_, ?_, hflag2, ?_, ?_⟩
  · intro he
    rw [← he, hflag1] at hcount
    rw [← he] at hv
    omega
  · rw [read_slot_of_addr (addr_of_geometry g1 g2 g3 a1), hrec1]
  · intro s hs hne
    exact read_slot_frame g1 g2 g3 hut (by omega) (hframe1 s hne)
  · rw [read_slot_of_addr (addr_of_geometry k1 k2 k3 a2), hrec2]
  · intro s hs hne
    exact read_slot_frame k1 k2 k3 hut1 (by omega) (hframe2 s hne)
  · obtain ⟨_, hl1⟩ := insert_holds_cell hash hl h1
    obtain ⟨v, hv1, hv2, hv3⟩ := find_after_insert_cells hash R val hl1 h2
    refine ⟨v, hv1, hv2, ?_⟩
    rcases hv3 with h | h
    · exact Or.inl h
    · simpa only [if_true, List.mem_cons] using h

/-- Where two slots share a cell (the `int` offset of `getSlotAddr` truncates
slot `2 ^ 32` of a table of `2 ^ 32 + 1` slots on one process to offset 0): one
successful `insert` into the empty table changes what `read_slot` returns for
slot 0 and for slot `2 ^ 32`, so no slot is the only one whose record changed;
a second `insert` of the same record succeeds as well. -/
theorem aliased_insert_writes_two_slots :
    HashMap.insert id (HashMap.construct (2 ^ 32 + 1) 1 blank) ⟨2 ^ 32, 1⟩ =
      .ok (true, table_alias) ∧
    HashMap.insert id table_alias ⟨2 ^ 32, 1⟩ = .ok (true, table_alias_two) ∧
    (∀ s, s < 2 ^ 32 + 1 → (HashMap.construct (2 ^ 32 + 1) 1 blank).flagAt s + 2 < 2 ^ 32) ∧
    ¬ (HashMap.construct (2 ^ 32 + 1) 1 blank).Unaliased ∧
    ¬ ∃ s1, ∀ s, s < 2 ^ 32 + 1 → s ≠ s1 →
      table_alias.read_slot s = (HashMap.construct (2 ^ 32 + 1) 1 blank).read_slot s := by
  refine ⟨rfl, rfl, ?_, ?_, ?_⟩
  · intro s _
    rw [flagAt_construct]
    decide
  · intro h
    have := h 0 (2 ^ 32) (0, 0) (Nat.succ_pos _) (Nat.lt_succ_self _) rfl rfl
    omega
  · rintro ⟨s1, h⟩
    have e1 : table_alias.read_slot 0 = .ok ⟨2 ^ 32, 1⟩ := rfl
    have e2 : table_alias.read_slot (2 ^ 32) = .ok ⟨2 ^ 32, 1⟩ := rfl
    have e3 : (HashMap.construct (2 ^ 32 + 1) 1 blank).read_slot 0 = .ok ⟨0, 0⟩ := rfl
    have e4 : (HashMap.construct (2 ^ 32 + 1) 1 blank).read_slot (2 ^ 32) = .ok ⟨0, 0⟩ := rfl
    by_cases hs : s1 = 0
    · have := h (2 ^ 32) (Nat.lt_succ_self _) (by omega)
      rw [e2, e4] at this
      exact absurd (congrArg kmer_pair.fb_ext (Except.ok.inj this)) (by decide)
    · have := h 0 (Nat.succ_pos _) (fun e => hs e.symm)
      rw [e1, e3] at this
      exact absurd (congrArg kmer_pair.fb_ext (Except.ok.inj this)) (by decide)

/-- The hypothesis on the cells cannot be dropped from the statement on the
slots of two consecutive inserts: on the table of `2 ^ 32 + 1` slots on one
process, whose slots 0 and `2 ^ 32` share a cell, two consecutive `insert`
calls of (key `2 ^ 32`, metadata 1) into the empty table both return success,
but no slot is the only one whose record the first call changed. -/
theorem aliased_two_inserts :
    HashMap.insert_all id (HashMap.construct (2 ^ 32 + 1) 1 blank) [] =
      .ok (HashMap.construct (2 ^ 32 + 1) 1 blank, []) ∧
    HashMap.insert id (HashMap.construct (2 ^ 32 + 1) 1 blank) ⟨2 ^ 32, 1⟩ =
      .ok (true, table_alias) ∧
    HashMap.insert id table_alias ⟨2 ^ 32, 1⟩ = .ok (true, table_alias_two) ∧
    ¬ ∃ s1 s2, s1 < 2 ^ 32 + 1 ∧ s2 < 2 ^ 32 + 1 ∧ s1 ≠ s2 ∧
      table_alias.read_slot s1 = .ok ⟨2 ^ 32, 1⟩ ∧ table_alias.flagAt s1 = 1 ∧
      (∀ s, s < 2 ^ 32 + 1 → s ≠ s1 →
        table_alias.read_slot s = (HashMap.construct (2 ^ 32 + 1) 1 blank).read_slot s) ∧
      table_alias_two.read_slot s2 = .ok ⟨2 ^ 32, 1⟩ ∧ table_alias_two.flagAt s2 = 1 ∧
      (∀ s, s < 2 ^ 32 + 1 → s ≠ s2 → table_alias_two.read_slot s = table_alias.read_slot s) ∧
      ∃ v, HashMap.find id table_alias_two (2 ^ 32) ⟨7, 7⟩ = .ok (true, v) ∧ v.kmer = 2 ^ 32 ∧
        (v = ⟨2 ^ 32, 1⟩ ∨ v ∈ ([] : List (kmer_pair Nat Nat))) := by
  refine ⟨rfl, rfl, rfl, ?_⟩
  rintro ⟨s1, _, _, _, _, _, _, hframe, _⟩
  exact aliased_insert_writes_two_slots.2.2.2.2 ⟨s1, hframe⟩

theorem find_loop_found_steps [DecidableEq K] (hash : Nat) (key : K) {t : HashMap K E}
    {i : Nat} (hi : i < t.total_size)
    (hall : ∀ j, j ≤ i → t.getSlotAddr (probe_slot hash t.total_size j) =
      .ok (probe_slot hash t.total_size j / (t.total_size / t.nprocs),
        probe_slot hash t.total_size j % (t.total_size / t.nprocs)))
    (hflag : t.flagAt (probe_slot hash t.total_size i) ≠ 0)
    (hkey : (t.recAt (probe_slot hash t.total_size i)).kmer = key) :
    ∀ (fuel probe : Nat) (val : kmer_pair K E), probe ≤ i → i < probe + fuel →
      ∃ j, probe ≤ j ∧ j ≤ i ∧ t.flagAt (probe_slot hash t.total_size j) ≠ 0 ∧
        (t.recAt (probe_slot hash t.total_size j)).kmer = key ∧
        HashMap.find_loop hash key t val probe fuel =
          .ok (true, t.recAt (probe_slot hash t.total_size j)) := by
  intro fuel
  induction fuel with
  | zero => intro probe val h1 h2; omega
  | succ fuel ih =>
    intro probe val h1 h2
    rw [find_loop_step hash key val probe fuel (by omega) (hall probe h1)]
    by_cases hm : t.flagAt (probe_slot hash t.total_size probe) ≠ 0 ∧
        (t.recAt (probe_slot hash t.total_size probe)).kmer = key
    · exact ⟨probe, le_rfl, h1, hm.1, hm.2, by rw [if_pos hm.1, if_pos hm.2]⟩
    · have hne : probe ≠ i := by
        rintro rfl
        exact hm ⟨hflag, hkey⟩
      have hlt : probe + 1 < t.total_size := by omega
      by_cases hz : t.flagAt (probe_slot hash t.total_size probe) ≠ 0
      · have hk : ¬ (t.recAt (probe_slot hash t.total_size probe)).kmer = key := fun h => hm ⟨hz, h⟩
        rw [if_pos hz, if_neg hk, if_pos hlt]
        obtain ⟨j, hj1, hj2, hj3, hj4, hj5⟩ := ih (probe + 1) (t.recAt _) (by omega) (by omega)
        exact ⟨j, by omega, hj2, hj3, hj4, hj5⟩
      · rw [if_neg hz, if_pos hlt]
        obtain ⟨j, hj1, hj2, hj3, hj4, hj5⟩ := ih (probe + 1) val (by omega) (by omega)
        exact ⟨j, by omega, hj2, hj3, hj4, hj5⟩

/-- C15 (amended). On a table in which different slots have different cells
and no flag is within two increments of the wrap of its 32-bit counter, if
`insert(R)` returns success then `R` is written to the slot of the smallest
probe step whose flag was zero before the call (every earlier step is on a
claimed slot), that slot is claimed afterwards and the record of no other slot
changes. Afterwards `find(R.key)` returns found with a record of key `R.key`,
which is `R` itself when no slot of an earlier probe step holds that key; and
a record that occupied the start slot and hashed to the same start is returned
by `find` of its key. -/
theorem insert_first_free [DecidableEq K] (hash : K → Nat) (t t1 : HashMap K E)
    (R val : kmer_pair K E) (hu : t.Unaliased)
    (hflags : ∀ s, s < t.total_size → t.flagAt s + 2 < 2 ^ 32)
    (hins : HashMap.insert hash t R = .ok (true, t1)) :
    ∃ i, i < t.total_size ∧
      t.slot_used (probe_slot (hash R.kmer % 2 ^ 64) t.total_size i) = .ok false ∧
      (∀ j, j < i → t.slot_used (probe_slot (hash R.kmer % 2 ^ 64) t.total_size j) = .ok true) ∧
      t1.read_slot (probe_slot (hash R.kmer % 2 ^ 64) t.total_size i) = .ok R ∧
      t1.slot_used (probe_slot (hash R.kmer % 2 ^ 64) t.total_size i) = .ok true ∧
      (∀ s, s < t.total_size → s ≠ probe_slot (hash R.kmer % 2 ^ 64) t.total_size i →
        t1.read_slot s = t.read_slot s) ∧
      (∃ v, HashMap.find hash t1 R.kmer val = .ok (true, v) ∧ v.kmer = R.kmer ∧
        ((∀ j, j < i →
          (t.recAt (probe_slot (hash R.kmer % 2 ^ 64) t.total_size j)).kmer ≠ R.kmer) → v = R)) ∧
      (∀ A, t.slot_used (probe_slot (hash R.kmer % 2 ^ 64) t.total_size 0) = .ok true →
        t.read_slot (probe_slot (hash R.kmer % 2 ^ 64) t.total_size 0) = .ok A →
        probe_slot (hash A.kmer % 2 ^ 64) t.total_size 0 =
          probe_slot (hash R.kmer % 2 ^ 64) t.total_size 0 →
        HashMap.find hash t1 A.kmer val = .ok (true, A)) := by
  have hh : hash R.kmer % 2 ^ 64 < 2 ^ 64 := Nat.mod_lt _ (by decide)
  have hpos : 0 < t.total_size := insert_total_size_pos hash hins
  obtain ⟨⟨g1, g2, g3⟩, i, _, hi, haddr, hrec, hflag, hframe, hall, hzero, hearlier⟩ :=
    insert_loop_trace _ _ _ _ _ _ hu hpos hins
  have haddr0 := fun j (hj : j ≤ i) => haddr j (Nat.zero_le j) hj
  have hi64 : i < 2 ^ 64 := addressable_steps_lt hh hi (fun j hj => ⟨_, haddr0 j hj⟩)
  have hsl : ∀ j, probe_slot (hash R.kmer % 2 ^ 64) t.total_size j < t.total_size :=
    fun j => probe_slot_lt _ j hpos
  have haddr1 : ∀ j, j ≤ i → t1.getSlotAddr (probe_slot (hash R.kmer % 2 ^ 64) t1.total_size j) =
      .ok (probe_slot (hash R.kmer % 2 ^ 64) t1.total_size j / (t1.total_size / t1.nprocs),
        probe_slot (hash R.kmer % 2 ^ 64) t1.total_size j % (t1.total_size / t1.nprocs)) := by
    intro j hj
    have := addr_of_geometry g1 g2 g3 (haddr0 j hj)
    rw [g1] at this ⊢
    exact this
  -- the flag of the slot written was zero before the call
  have hv1 := visits_le_one_step hh hi hi64 (Nat.zero_le i)
  have hfi : t.flagAt (probe_slot (hash R.kmer % 2 ^ 64) t.total_size i) = 0 := by
    have := hflags _ (hsl i)
    rw [Nat.mod_eq_of_lt (by omega)] at hzero
    omega
  -- every earlier step is on a claimed slot
  have hclaimed := first_free_earlier_claimed t.flagAt i
    (fun j hj => by simpa using hearlier j (Nat.zero_le j) hj)
  -- flags that were nonzero stay nonzero
  have hstay : ∀ s, s < t.total_size → t.flagAt s ≠ 0 → t1.flagAt s ≠ 0 := by
    intro s hs hne
    have h2 := visits_le_two_step s hh (show 0 + (i - 0 + 1) ≤ t.total_size by omega)
      (by omega)
    have := hflags s hs
    rw [hall s, Nat.mod_eq_of_lt (by omega)]
    omega
  have hne : ∀ j, j < i → probe_slot (hash R.kmer % 2 ^ 64) t.total_size j ≠
      probe_slot (hash R.kmer % 2 ^ 64) t.total_size i := by
    intro j hj he
    exact hclaimed j hj (he ▸ hfi)
  refine ⟨i, hi, ?_, ?_, ?_, ?_, ?_, ?_, ?_⟩
  · rw [slot_used_of_addr (haddr0 i le_rfl), hfi]; rfl
  · intro j hj
    rw [slot_used_of_addr (haddr0 j (by omega))]
    simp [hclaimed j hj]
  · rw [read_slot_of_addr (addr_of_geometry g1 g2 g3 (haddr0 i le_rfl)), hrec]
  · rw [slot_used_of_addr (addr_of_geometry g1 g2 g3 (haddr0 i le_rfl)), hflag]; rfl
  · intro s hs hsne
    exact read_slot_frame g1 g2 g3 hu hs (hframe s hsne)
  · have hi' : i < t1.total_size := by rw [g1]; exact hi
    obtain ⟨j, _, hj, hjf, hjk, hfind⟩ :=
      find_loop_found_steps (hash R.kmer % 2 ^ 64) R.kmer hi' haddr1 (by rw [g1, hflag]; decide)
        (by rw [g1, hrec]) (t1.total_size + 1) 0 val (Nat.zero_le _) (by omega)
    refine ⟨_, hfind, hjk, fun hfresh => ?_⟩
    rw [g1] at hjk ⊢
    rcases Nat.eq_or_lt_of_le hj with rfl | hlt
    · exact hrec
    · rw [hframe _ (hne j hlt)] at hjk
      exact absurd hjk (hfresh j hlt)
  · intro A hused hread hstart
    rw [slot_used_of_addr (haddr0 0 (Nat.zero_le i))] at hused
    rw [read_slot_of_addr (haddr0 0 (Nat.zero_le i))] at hread
    simp only [Except.ok.injEq, bne_iff_ne, ne_eq] at hused hread
    have hused' : t.flagAt (probe_slot (hash R.kmer % 2 ^ 64) t.total_size 0) ≠ 0 := by
      simpa using hused
    have hi0 : probe_slot (hash R.kmer % 2 ^ 64) t.total_size 0 ≠
        probe_slot (hash R.kmer % 2 ^ 64) t.total_size i := fun he => hused' (he ▸ hfi)
    have hstart1 : probe_slot (hash A.kmer % 2 ^ 64) t1.total_size 0 =
        probe_slot (hash R.kmer % 2 ^ 64) t1.total_size 0 := by rw [g1]; exact hstart
    unfold HashMap.find
    rw [find_loop_step _ _ _ _ _ (by rw [g1]; exact hpos)
      (by rw [hstart1]; exact haddr1 0 (Nat.zero_le i)), g1, hstart,
      if_pos (hstay _ (hsl 0) hused'), hframe _ hi0, hread, if_pos rfl]

theorem insert_first_free_witness :
    table_odd_one.Unaliased ∧
    (∀ s, s < table_odd_one.total_size → table_odd_one.flagAt s + 2 < 2 ^ 32) ∧
    HashMap.insert id table_odd_one ⟨5, 2⟩ = .ok (true, table_odd_pushed) ∧
    ∃ i, i < table_odd_one.total_size ∧
      table_odd_one.slot_used (probe_slot (id (5 : Nat) % 2 ^ 64) table_odd_one.total_size i) =
        .ok false ∧
      (∀ j, j < i →
        table_odd_one.slot_used (probe_slot (id (5 : Nat) % 2 ^ 64) table_odd_one.total_size j) =
          .ok true) ∧
      table_odd_pushed.read_slot (probe_slot (id (5 : Nat) % 2 ^ 64) table_odd_one.total_size i) =
        .ok ⟨5, 2⟩ ∧
      table_odd_pushed.slot_used (probe_slot (id (5 : Nat) % 2 ^ 64) table_odd_one.total_size i) =
        .ok true ∧
      (∀ s, s < table_odd_one.total_size →
        s ≠ probe_slot (id (5 : Nat) % 2 ^ 64) table_odd_one.total_size i →
        table_odd_pushed.read_slot s = table_odd_one.read_slot s) ∧
      (∃ v, HashMap.find id table_odd_pushed 5 ⟨7, 7⟩ = .ok (true, v) ∧ v.kmer = 5 ∧
        ((∀ j, j < i →
          (table_odd_one.recAt
            (probe_slot (id (5 : Nat) % 2 ^ 64) table_odd_one.total_size j)).kmer ≠ 5) →
          v = ⟨5, 2⟩)) ∧
      (∀ A, table_odd_one.slot_used
          (probe_slot (id (5 : Nat) % 2 ^ 64) table_odd_one.total_size 0) = .ok true →
        table_odd_one.read_slot
          (probe_slot (id (5 : Nat) % 2 ^ 64) table_odd_one.total_size 0) = .ok A →
        probe_slot (id A.kmer % 2 ^ 64) table_odd_one.total_size 0 =
          probe_slot (id (5 : Nat) % 2 ^ 64) table_odd_one.total_size 0 →
        HashMap.find id table_odd_pushed A.kmer ⟨7, 7⟩ = .ok (true, A)) :=
  ⟨unaliased_of_size_le (by decide), by decide, rfl,
    insert_first_free id table_odd_one table_odd_pushed ⟨5, 2⟩ ⟨7, 7⟩
      (unaliased_of_size_le (by decide)) (by decide) rfl⟩

/-- C15 (counterexample). Table of 4 slots, one process, keys hashed to
themselves, whose slot 2 holds (key 2, metadata 0), a record that hashed to
start slot 2: `insert` of (key 2, metadata 1) starts at the same slot,
succeeds and writes the next slot 3, but `find(2)` returns (key 2,
metadata 0): the record just inserted is not the one `find` returns. -/
theorem insert_pushed_record_not_found :
    probe_slot (id (2 : Nat) % 2 ^ 64) table_one.total_size 0 = 2 ∧
    table_one.slot_used 2 = .ok true ∧ table_one.read_slot 2 = .ok ⟨2, 0⟩ ∧
    table_one.slot_used 3 = .ok false ∧
    HashMap.insert id table_one ⟨2, 1⟩ = .ok (true, table_two) ∧
    table_two.read_slot 3 = .ok ⟨2, 1⟩ ∧ table_two.slot_used 3 = .ok true ∧
    HashMap.find id table_two 2 ⟨7, 7⟩ = .ok (true, ⟨2, 0⟩) ∧
    (⟨2, 0⟩ : kmer_pair Nat Nat) ≠ ⟨2, 1⟩ :=
  ⟨rfl, rfl, rfl, rfl, rfl, rfl, rfl, rfl, by decide⟩

/-- The hypothesis on the cells cannot be dropped from the statement on the
first free slot: on the empty table of `2 ^ 32 + 1` slots on one process,
whose slots 0 and `2 ^ 32` share a cell and whose flags are all zero, `insert`
of (key `2 ^ 32`, metadata 1) returns success, but no probe step is on the
only slot whose record the call changed. -/
theorem aliased_first_free :
    (∀ s, s < (HashMap.construct (2 ^ 32 + 1) 1 blank : HashMap Nat Nat).total_size →
      (HashMap.construct (2 ^ 32 + 1) 1 blank : HashMap Nat Nat).flagAt s + 2 < 2 ^ 32) ∧
    HashMap.insert id (HashMap.construct (2 ^ 32 + 1) 1 blank) ⟨2 ^ 32, 1⟩ =
      .ok (true, table_alias) ∧
    ¬ ∃ i, i < (HashMap.construct (2 ^ 32 + 1) 1 blank : HashMap Nat Nat).total_size ∧
      (HashMap.construct (2 ^ 32 + 1) 1 blank).slot_used
        (probe_slot (id (2 ^ 32 : Nat) % 2 ^ 64) (2 ^ 32 + 1) i) = .ok false ∧
      (∀ j, j < i → (HashMap.construct (2 ^ 32 + 1) 1 blank).slot_used
        (probe_slot (id (2 ^ 32 : Nat) % 2 ^ 64) (2 ^ 32 + 1) j) = .ok true) ∧
      table_alias.read_slot (probe_slot (id (2 ^ 32 : Nat) % 2 ^ 64) (2 ^ 32 + 1) i) =
        .ok ⟨2 ^ 32, 1⟩ ∧
      table_alias.slot_used (probe_slot (id (2 ^ 32 : Nat) % 2 ^ 64) (2 ^ 32 + 1) i) =
        .ok true ∧
      (∀ s, s < 2 ^ 32 + 1 → s ≠ probe_slot (id (2 ^ 32 : Nat) % 2 ^ 64) (2 ^ 32 + 1) i →
        table_alias.read_slot s = (HashMap.construct (2 ^ 32 + 1) 1 blank).read_slot s) ∧
      (∃ v, HashMap.find id table_alias (2 ^ 32) ⟨7, 7⟩ = .ok (true, v) ∧ v.kmer = 2 ^ 32 ∧
        ((∀ j, j < i → ((HashMap.construct (2 ^ 32 + 1) 1 blank).recAt
          (probe_slot (id (2 ^ 32 : Nat) % 2 ^ 64) (2 ^ 32 + 1) j)).kmer ≠ 2 ^ 32) →
          v = ⟨2 ^ 32, 1⟩)) ∧
      (∀ A, (HashMap.construct (2 ^ 32 + 1) 1 blank).slot_used
          (probe_slot (id (2 ^ 32 : Nat) % 2 ^ 64) (2 ^ 32 + 1) 0) = .ok true →
        (HashMap.construct (2 ^ 32 + 1) 1 blank).read_slot
          (probe_slot (id (2 ^ 32 : Nat) % 2 ^ 64) (2 ^ 32 + 1) 0) = .ok A →
        probe_slot (id A.kmer % 2 ^ 64) (2 ^ 32 + 1) 0 =
          probe_slot (id (2 ^ 32 : Nat) % 2 ^ 64) (2 ^ 32 + 1) 0 →
        HashMap.find id table_alias A.kmer ⟨7, 7⟩ = .ok (true, A)) := by
  refine ⟨aliased_insert_writes_two_slots.2.2.1, rfl, ?_⟩
  rintro ⟨i, _, _, _, _, _, hframe, _⟩
  exact aliased_insert_writes_two_slots.2.2.2.2 ⟨_, hframe⟩

theorem slot_used_true_cell {t : HashMap K E} {s : Nat} (h : t.slot_used s = .ok true) :
    ∃ r o, t.getSlotAddr s = .ok (r, o) ∧ t.used r o % 2 ^ 32 ≠ 0 := by
  cases hc : t.getSlotAddr s with
  | error e =>
    unfold HashMap.slot_used at h
    rw [← getSlotAddr_eq_getUsedSlotAddr, hc] at h
    cases h
  | ok c =>
    obtain ⟨r, o⟩ := c
    rw [slot_used_of_cell hc] at h
    exact ⟨r, o, rfl, by simpa using Except.ok.inj h⟩

theorem table_alias_lost_claimed (r o : Nat) (h : table_alias_lost.used r o % 2 ^ 32 ≠ 0) :
    r = 0 ∧ o = 1 := by
  unfold table_alias_lost at h
  simp only [store_apply] at h
  by_contra hc
  rw [if_neg hc] at h
  split at h
  · exact h rfl
  · exact h rfl

/-- The hypothesis on the cells is also needed for the records to stay
findable. On a table whose slots 0 and `2 ^ 32` share a cell with the flag
`2 ^ 32 - 3` (no flag is within two increments of the wrap), `insert` of a
record with hash `2 ^ 64 - 2` passes that cell three times (steps on the slots
`2 ^ 32`, 0 and 0), wraps its flag to zero and succeeds on slot 1; the record
that occupied the start slot and hashed to the same start is afterwards not
returned by `find` of its key. -/
theorem aliased_start_record_lost :
    (∀ s, s < table_alias_full.total_size → table_alias_full.flagAt s + 2 < 2 ^ 32) ∧
    (List.range 4).map (probe_slot (id (2 ^ 64 - 2 : Nat) % 2 ^ 64) (2 ^ 32 + 1)) =
      [2 ^ 32, 0, 0, 1] ∧
    table_alias_full.getSlotAddr 0 = .ok (0, 0) ∧
    table_alias_full.getSlotAddr (2 ^ 32) = .ok (0, 0) ∧
    HashMap.insert id table_alias_full ⟨2 ^ 64 - 2, 5⟩ = .ok (true, table_alias_lost) ∧
    table_alias_full.slot_used
      (probe_slot (id (2 ^ 64 - 2 : Nat) % 2 ^ 64) table_alias_full.total_size 0) = .ok true ∧
    table_alias_full.read_slot
      (probe_slot (id (2 ^ 64 - 2 : Nat) % 2 ^ 64) table_alias_full.total_size 0) =
        .ok ⟨2 ^ 32, 9⟩ ∧
    probe_slot (id (2 ^ 32 : Nat) % 2 ^ 64) table_alias_full.total_size 0 =
      probe_slot (id (2 ^ 64 - 2 : Nat) % 2 ^ 64) table_alias_full.total_size 0 ∧
    ∀ val, HashMap.find id table_alias_lost (2 ^ 32) val ≠ .ok (true, ⟨2 ^ 32, 9⟩) := by
  refine ⟨?_, by decide, rfl, rfl, rfl, rfl, rfl, by decide, ?_⟩
  · intro s _
    unfold HashMap.flagAt table_alias_full
    simp only [store_apply]
    split
    · decide
    · decide
  · intro val h
    obtain ⟨i, _, hu, hr, _⟩ := find_returns_earliest_match id _ _ _ _ h
    obtain ⟨r, o, hc, hne⟩ := slot_used_true_cell hu
    rw [read_slot_of_cell hc] at hr
    obtain ⟨rfl, rfl⟩ := table_alias_lost_claimed r o hne
    exact absurd (congrArg kmer_pair.fb_ext (Except.ok.inj hr)) (by decide)

theorem request_results_losers {s r o : Nat} :
    ∀ (n : Nat) (t : HashMap K E), t.getSlotAddr s = .ok (r, o) →
      (∀ j, j < n → (t.used r o + j) % 2 ^ 32 ≠ 0) →
      ∃ t', t.request_results s n = .ok (List.replicate n false, t') ∧
        t'.getSlotAddr s = .ok (r, o) ∧ t'.used r o % 2 ^ 32 = (t.used r o + n) % 2 ^ 32 := by
  intro n
  induction n with
  | zero =>
    intro t ha _
    exact ⟨t, rfl, ha, rfl⟩
  | succ n ih =>
    intro t ha h
    have h0 : t.used r o % 2 ^ 32 ≠ 0 := by simpa using h 0 (Nat.succ_pos n)
    have hb : (t.used r o % 2 ^ 32 == 0) = false := by simpa using h0
    obtain ⟨t', k1, k2, k3⟩ :=
      ih { t with used := store t.used r o ((t.used r o + 1) % 2 ^ 32) }
        ((getSlotAddr_geometry rfl rfl rfl s).trans ha)
        (by
          intro j hj
          have := h (j + 1) (by omega)
          simp only [store_apply, and_self, if_true]
          omega)
    refine ⟨t', ?_, k2, ?_⟩
    · simp only [HashMap.request_results]
      unfold HashMap.request_slot
      rw [← getSlotAddr_eq_getUsedSlotAddr, ha]
      simp only [hb]
      rw [k1]
      rfl
    · rw [k3]
      simp only [store_apply, and_self, if_true]
      omega

theorem request_results_winner {t : HashMap K E} {s r o : Nat} (m : Nat)
    (ha : t.getSlotAddr s = .ok (r, o)) (hz : t.used r o % 2 ^ 32 = 0) (hm : m < 2 ^ 32) :
    ∃ t', t.request_results s (m + 1) = .ok (true :: List.replicate m false, t') ∧
      t'.getSlotAddr s = .ok (r, o) ∧ t'.used r o % 2 ^ 32 = (m + 1) % 2 ^ 32 := by
  have hb : (t.used r o % 2 ^ 32 == 0) = true := by simpa using hz
  obtain ⟨t', k1, k2, k3⟩ :=
    request_results_losers m { t with used := store t.used r o ((t.used r o + 1) % 2 ^ 32) }
      ((getSlotAddr_geometry rfl rfl rfl s).trans ha)
      (by
        intro j hj
        simp only [store_apply, and_self, if_true]
        omega)
  refine ⟨t', ?_, k2, ?_⟩
  · simp only [HashMap.request_results]
    unfold HashMap.request_slot
    rw [← getSlotAddr_eq_getUsedSlotAddr, ha]
    simp only [hb]
    rw [k1]
  · rw [k3]
    simp only [store_apply, and_self, if_true]
    omega

/-- Mutual exclusion up to the wrap of the flag: on a slot whose flag is zero,
of `n` `request_slot` calls with `1 ≤ n ≤ 2 ^ 32` the first to take effect
returns true and no other does, so exactly one call returns true. -/
theorem exactly_one_winner (t : HashMap K E) (s n : Nat) (hzero : t.slot_used s = .ok false)
    (h1 : 1 ≤ n) (hn : n ≤ 2 ^ 32) :
    ∃ bs t', t.request_results s n = .ok (bs, t') ∧ bs.length = n ∧ bs.count true = 1 ∧
      bs = true :: List.replicate (n - 1) false := by
  cases ha : t.getSlotAddr s with
  | error e =>
    unfold HashMap.slot_used at hzero
    rw [← getSlotAddr_eq_getUsedSlotAddr, ha] at hzero
    cases hzero
  | ok c =>
    obtain ⟨r, o⟩ := c
    have hz : t.used r o % 2 ^ 32 = 0 := by
      unfold HashMap.slot_used at hzero
      rw [← getSlotAddr_eq_getUsedSlotAddr, ha] at hzero
      simpa using hzero
    obtain ⟨t', k1, _, _⟩ := request_results_winner (n - 1) ha hz (by omega)
    rw [Nat.sub_add_cancel h1] at k1
    refine ⟨_, t', k1, ?_, ?_, rfl⟩
    · simp only [List.length_cons, List.length_replicate]
      omega
    · simp [List.count_cons, List.count_replicate]

end KmerHash
